import Mathlib

/-!
# CJoinOrder: join-graph construction and pairwise combination

A shallow embedding of `gporca/libgpopt/src/xforms/CJoinOrder.cpp`.

Conventions of the embedding.

* `CBitSet` and `CColRefSet` are finite sets of naturals; `Union` is `∪`,
  `ContainsAll a b` is `b ⊆ a`, `ExchangeSet i` is `insert i`, and
  `CBitSetIter` walks the set bits in ascending order (`CBitSet.bits`).
* `CExpression` is an operator id with the column ids the operator itself
  carries and an ordered list of children; a `CExpression *` that may be
  `NULL` is an `Option CExpression`.
* The C arrays `m_rgpcomp` and `m_rgpedge` are lists; `m_ulComps` and
  `m_ulEdges` are their lengths.
* `GPOS_ASSERT` is a checked contract: a failing assertion ends the call
  with `EViolation.AssertFailed line`.  A `NULL` dereference and an
  out-of-range array access end the call as well.  Every function that
  can end this way returns `Except EViolation _`.
* `INT` and `ULONG` are unbounded (`Int`, `Nat`); the counters of the
  source stay far below `2^31`.
* The derived column sets `PcrsUsed` / `PcrsOutput` are computed by code
  outside this file and are taken as parameters.
-/

namespace gpopt

/-! ## Expressions -/

/-- Modelled from the spec: the enumeration `COperator::EOperatorId` is declared
outside this file. The source names the select, inner-join and left-outer-join
ids (lines 263, 659-661); the leaf and scalar ids are those of the trees in
its comments (lines 246-252) and of the conjunction of spec 4.5. -/
inductive EOperatorId where
  | EopLogicalGet
  | EopLogicalSelect
  | EopLogicalInnerJoin
  | EopLogicalLeftOuterJoin
  | EopLogicalNAryJoin
  | EopScalarCmp
  | EopScalarBoolOp
  deriving DecidableEq, Repr

/-- Modelled from the spec: the class `CExpression` is declared outside this
file; spec 1 treats it as a payload with an operator, ordered children and
column sets. A node is an operator id, the column ids carried by the operator
itself, and the children in order. -/
inductive CExpression where
  | mk (eopid : EOperatorId) (pdrgpcr : List Nat) (children : List CExpression)

mutual
/-- Decidable equality of expressions. -/
def CExpression.decEq : (a b : CExpression) → Decidable (a = b)
  | .mk o1 d1 c1, .mk o2 d2 c2 =>
    if ho : o1 = o2 then
      if hd : d1 = d2 then
        match CExpression.decEqList c1 c2 with
        | isTrue hc => isTrue (by rw [ho, hd, hc])
        | isFalse hc => isFalse (fun h => hc (by cases h; rfl))
      else isFalse (fun h => hd (by cases h; rfl))
    else isFalse (fun h => ho (by cases h; rfl))
termination_by structural a => a
/-- Decidable equality of expression lists. -/
def CExpression.decEqList : (a b : List CExpression) → Decidable (a = b)
  | [], [] => isTrue rfl
  | [], _ :: _ => isFalse (fun h => by cases h)
  | _ :: _, [] => isFalse (fun h => by cases h)
  | a :: as, b :: bs =>
    match CExpression.decEq a b with
    | isTrue h1 =>
      match CExpression.decEqList as bs with
      | isTrue h2 => isTrue (by rw [h1, h2])
      | isFalse h2 => isFalse (fun h => h2 (by cases h; rfl))
    | isFalse h1 => isFalse (fun h => h1 (by cases h; rfl))
termination_by structural a => a
end

instance : DecidableEq CExpression := CExpression.decEq

/-- The operator id, `pexpr->Pop()->Eopid()`. -/
def CExpression.Eopid : CExpression → EOperatorId
  | .mk eopid _ _ => eopid

/-- The children of the node. -/
def CExpression.children : CExpression → List CExpression
  | .mk _ _ children => children

/-- The column ids carried by the operator of the node. -/
def CExpression.pdrgpcr : CExpression → List Nat
  | .mk _ pdrgpcr _ => pdrgpcr

/-- The number of children, `pexpr->Arity()`. -/
def CExpression.Arity (pexpr : CExpression) : Nat :=
  pexpr.children.length

/-- Sets of column references. -/
abbrev CColRefSet := Finset Nat

/-- Sets of small integers (`CBitSet`). -/
abbrev CBitSet := Finset Nat

/-- The set bits in ascending order, as `CBitSetIter::Advance` visits them. -/
def CBitSet.bits (bs : CBitSet) : List Nat :=
  (List.range (bs.sup id + 1)).filter (fun i => i ∈ bs)

/-- Modelled from the spec: `CPredicateUtils::PexprConjunction` is not in this
file. Spec 4.5 step 2: "Build a single conjunction predicate from this
collected set (empty conjunction = no filter, i.e. the constant true)". The
node is a Boolean operator over the collected predicates, in order. -/
def PexprConjunction (pdrgpexpr : List CExpression) : CExpression :=
  .mk .EopScalarBoolOp [] pdrgpexpr

/-- Modelled from the spec: `CUtils::PexprCollapseSelect` is not in this file.
Spec 4.5 step 3 and 6: "wrap subtree in filter given predicate". -/
def PexprCollapseSelect (pexpr pexprScalar : CExpression) : CExpression :=
  .mk .EopLogicalSelect [] [pexpr, pexprScalar]

/-- Modelled from the spec: `CUtils::PexprLogicalJoin<T>` is not in this file.
Spec 6: "build inner join given two subtrees and predicate", "build
left-outer-join given ordered left/right subtrees and predicate"; the template
argument is the operator id of the join. -/
def PexprLogicalJoin (eopid : EOperatorId) (pexprLeft pexprRight pexprScalar : CExpression) :
    CExpression :=
  .mk eopid [] [pexprLeft, pexprRight, pexprScalar]

/-! ## Contract violations -/

/-- The ways a call can end without a result. -/
inductive EViolation where
  | AssertFailed (line : Nat)
  | NullPointer
  | OutOfRange
  deriving DecidableEq, Repr

/-- The macro `GPOS_ASSERT(cond)` at source line `line`. -/
def GPOS_ASSERT (line : Nat) (cond : Bool) : Except EViolation Unit :=
  if cond then .ok () else .error (.AssertFailed line)

/-- The macro `GPOS_ASSERT_IMP(a, b)` at source line `line`. -/
def GPOS_ASSERT_IMP (line : Nat) (a b : Bool) : Except EViolation Unit :=
  GPOS_ASSERT line (!a || b)

instance {α : Type} [DecidableEq α] : DecidableEq (Except EViolation α) := fun x y =>
  match x, y with
  | .ok a, .ok b =>
    if h : a = b then isTrue (by rw [h]) else isFalse (fun h2 => h (by cases h2; rfl))
  | .error a, .error b =>
    if h : a = b then isTrue (by rw [h]) else isFalse (fun h2 => h (by cases h2; rfl))
  | .ok _, .error _ => isFalse (fun h => by cases h)
  | .error _, .ok _ => isFalse (fun h => by cases h)

/-! ## Components and edges -/

/-- Position of a component under its parent left outer join
(`CJoinOrder::EPosition`, with the three values the source uses). -/
inductive EPosition where
  | EpLeft
  | EpRight
  | EpSentinel
  deriving DecidableEq, Repr

/-- Modelled from the spec: the constant `NON_LOJ_DEFAULT_ID` is declared in
the header, not in this file. Spec 4.3: "none encoded as id 0"; line 464 of
the source compares the same id with the literal `0`. -/
def NON_LOJ_DEFAULT_ID : Int := 0

/-- A join component (`CJoinOrder::SComponent`). -/
structure SComponent where
  m_pbs : CBitSet
  m_edge_set : CBitSet
  m_pexpr : Option CExpression
  m_fUsed : Bool
  m_parent_loj_id : Int
  m_position : EPosition

instance : DecidableEq SComponent := fun x y =>
  decidable_of_iff
    (x.m_pbs = y.m_pbs ∧ x.m_edge_set = y.m_edge_set ∧ x.m_pexpr = y.m_pexpr ∧
      x.m_fUsed = y.m_fUsed ∧ x.m_parent_loj_id = y.m_parent_loj_id ∧
      x.m_position = y.m_position)
    (by cases x; cases y; simp)

/-- Accessor `ParentLojId()`. -/
abbrev SComponent.ParentLojId (comp : SComponent) : Int := comp.m_parent_loj_id

/-- Accessor `Position()`. -/
abbrev SComponent.Position (comp : SComponent) : EPosition := comp.m_position

/-- The constructor `SComponent(mp, pexpr, parent_loj_id, position)`, lines 61-79:
empty bit sets, and the assertion of line 78. -/
def SComponent.Ctor (pexpr : Option CExpression) (parent_loj_id : Int)
    (position : EPosition) : Except EViolation SComponent :=
  match GPOS_ASSERT_IMP 78 (decide (EPosition.EpSentinel ≠ position))
      (decide (NON_LOJ_DEFAULT_ID < parent_loj_id)) with
  | .error e => .error e
  | .ok _ =>
    .ok { m_pbs := ∅, m_edge_set := ∅, m_pexpr := pexpr, m_fUsed := false,
          m_parent_loj_id := parent_loj_id, m_position := position }

/-- The constructor `SComponent(pexpr, pbs, edge_set, parent_loj_id, position)`,
lines 82-100. The bit sets are values here, so the assertion `NULL != pbs` of
line 98 always holds; the assertion of line 99 is checked. -/
def SComponent.CtorSets (pexpr : Option CExpression) (pbs edge_set : CBitSet)
    (parent_loj_id : Int) (position : EPosition) : Except EViolation SComponent :=
  match GPOS_ASSERT_IMP 99 (decide (EPosition.EpSentinel ≠ position))
      (decide (NON_LOJ_DEFAULT_ID < parent_loj_id)) with
  | .error e => .error e
  | .ok _ =>
    .ok { m_pbs := pbs, m_edge_set := edge_set, m_pexpr := pexpr, m_fUsed := false,
          m_parent_loj_id := parent_loj_id, m_position := position }

/-- A join edge (`CJoinOrder::SEdge`). -/
structure SEdge where
  m_pbs : CBitSet
  m_pexpr : CExpression
  m_fUsed : Bool

instance : DecidableEq SEdge := fun x y =>
  decidable_of_iff (x.m_pbs = y.m_pbs ∧ x.m_pexpr = y.m_pexpr ∧ x.m_fUsed = y.m_fUsed)
    (by cases x; cases y; simp)

/-- The constructor `SEdge(mp, pexpr)`, lines 164-175. -/
def SEdge.Ctor (pexpr : CExpression) : SEdge :=
  { m_pbs := ∅, m_pexpr := pexpr, m_fUsed := false }

/-- The join order core: the edge array, the component array and the
explosion flag. -/
structure CJoinOrder where
  m_rgpedge : List SEdge
  m_rgpcomp : List SComponent
  m_include_loj_childs : Bool

instance : DecidableEq CJoinOrder := fun x y =>
  decidable_of_iff
    (x.m_rgpedge = y.m_rgpedge ∧ x.m_rgpcomp = y.m_rgpcomp ∧
      x.m_include_loj_childs = y.m_include_loj_childs)
    (by cases x; cases y; simp)

/-- The edge count `m_ulEdges`. -/
abbrev CJoinOrder.m_ulEdges (jo : CJoinOrder) : Nat := jo.m_rgpedge.length

/-- The component count `m_ulComps`. -/
abbrev CJoinOrder.m_ulComps (jo : CJoinOrder) : Nat := jo.m_rgpcomp.length

/-! ## Legality of a combination -/

/-- `CJoinOrder::IsValidJoinCombination`, lines 555-618. -/
def CJoinOrder.IsValidJoinCombination (comp1 comp2 : SComponent) : Except EViolation Bool :=
  let comp1_parent_loj_id := comp1.ParentLojId
  let comp2_parent_loj_id := comp2.ParentLojId
  let comp1_position := comp1.Position
  let comp2_position := comp2.Position
  if NON_LOJ_DEFAULT_ID = comp1_parent_loj_id ∧ NON_LOJ_DEFAULT_ID = comp2_parent_loj_id then
    .ok true
  else if NON_LOJ_DEFAULT_ID < comp1_parent_loj_id ∧
      NON_LOJ_DEFAULT_ID < comp2_parent_loj_id then
    if comp1_parent_loj_id = comp2_parent_loj_id then
      match GPOS_ASSERT 601 (decide (comp1_position ≠ EPosition.EpSentinel ∧
          comp2_position ≠ EPosition.EpSentinel)) with
      | .error e => .error e
      | .ok _ =>
        if (comp1_position = EPosition.EpLeft ∧ comp2_position = EPosition.EpRight) ∨
            (comp1_position = EPosition.EpRight ∧ comp2_position = EPosition.EpLeft) then
          .ok true
        else
          .ok false
    else
      .ok false
  else
    .ok (decide (comp1_position ≠ EPosition.EpRight ∧ comp2_position ≠ EPosition.EpRight))

/-- `CJoinOrder::IsChildOfSameLOJ`, lines 620-637. -/
def CJoinOrder.IsChildOfSameLOJ (comp1 comp2 : SComponent) : Bool :=
  decide (comp1.ParentLojId = comp2.ParentLojId ∧
    comp1.ParentLojId ≠ NON_LOJ_DEFAULT_ID ∧
    ((comp1.Position = EPosition.EpLeft ∧ comp2.Position = EPosition.EpRight) ∨
      (comp1.Position = EPosition.EpRight ∧ comp2.Position = EPosition.EpLeft)))

/-! ## Combination -/

/-- The loop of lines 406-422 of `PcompCombine`: walks the edge array in
order and appends to `pdrgpexpr` the predicate of each edge that is not used
and whose cover is contained in `pbs`. -/
def CJoinOrder.CollectEdges (pbs : CBitSet) : List SEdge → List CExpression → List CExpression
  | [], pdrgpexpr => pdrgpexpr
  | pedge :: rest, pdrgpexpr =>
    if pedge.m_fUsed then
      CJoinOrder.CollectEdges pbs rest pdrgpexpr
    else if pedge.m_pbs ⊆ pbs then
      CJoinOrder.CollectEdges pbs rest (pdrgpexpr ++ [pedge.m_pexpr])
    else
      CJoinOrder.CollectEdges pbs rest pdrgpexpr

/-- Lines 428-482 of `PcompCombine`: the expression built for the two
components and the LOJ id and position of the result. -/
def CJoinOrder.PcompCombineNode (comp1 comp2 : SComponent) (pexprScalar : CExpression) :
    Except EViolation (CExpression × Int × EPosition) :=
  let pexprChild1 := comp1.m_pexpr
  let pexprChild2 := comp2.m_pexpr
  match pexprChild1 with
  | none =>
    -- first call to this function, we create a Select node
    match pexprChild2 with
    | none => .error .NullPointer
    | some pexprChild2 =>
      .ok (PexprCollapseSelect pexprChild2 pexprScalar, comp2.ParentLojId, comp2.Position)
  | some pexprChild1 =>
    -- not first call, we create an Inner Join or LOJ
    match pexprChild2 with
    | none => .error (.AssertFailed 443)
    | some pexprChild2 =>
      if CJoinOrder.IsChildOfSameLOJ comp1 comp2 then
        let pexprLeft :=
          if comp1.Position = EPosition.EpLeft then pexprChild1 else pexprChild2
        let pexprRight :=
          if comp1.Position = EPosition.EpLeft then pexprChild2 else pexprChild1
        .ok (PexprLogicalJoin .EopLogicalLeftOuterJoin pexprLeft pexprRight pexprScalar,
          NON_LOJ_DEFAULT_ID, EPosition.EpSentinel)
      else if comp1.ParentLojId > NON_LOJ_DEFAULT_ID ∨
          comp2.ParentLojId > NON_LOJ_DEFAULT_ID then
        match GPOS_ASSERT_IMP 464 (decide (comp1.ParentLojId > NON_LOJ_DEFAULT_ID))
            (decide (comp2.ParentLojId = 0)) with
        | .error e => .error e
        | .ok _ =>
          match GPOS_ASSERT_IMP 465 (decide (comp2.ParentLojId > NON_LOJ_DEFAULT_ID))
              (decide (comp1.ParentLojId = 0)) with
          | .error e => .error e
          | .ok _ =>
            let parent_loj_id :=
              if NON_LOJ_DEFAULT_ID < comp1.ParentLojId then comp1.ParentLojId
              else comp2.ParentLojId
            let position :=
              if NON_LOJ_DEFAULT_ID < comp1.ParentLojId then comp1.Position
              else comp2.Position
            match GPOS_ASSERT 473 (decide (EPosition.EpLeft = position)) with
            | .error e => .error e
            | .ok _ =>
              match GPOS_ASSERT 478 (decide (NON_LOJ_DEFAULT_ID < parent_loj_id)) with
              | .error e => .error e
              | .ok _ =>
                .ok (PexprLogicalJoin .EopLogicalInnerJoin pexprChild1 pexprChild2
                  pexprScalar, parent_loj_id, position)
      else
        .ok (PexprLogicalJoin .EopLogicalInnerJoin pexprChild1 pexprChild2 pexprScalar,
          NON_LOJ_DEFAULT_ID, EPosition.EpSentinel)

/-- `CJoinOrder::PcompCombine`, lines 387-489. -/
def CJoinOrder.PcompCombine (jo : CJoinOrder) (comp1 comp2 : SComponent) :
    Except EViolation SComponent :=
  match CJoinOrder.IsValidJoinCombination comp1 comp2 with
  | .error e => .error e
  | .ok false => .error (.AssertFailed 394)
  | .ok true =>
    let pbs : CBitSet := (∅ ∪ comp1.m_pbs) ∪ comp2.m_pbs
    -- edges connecting with the current component
    let edge_set : CBitSet := (∅ ∪ comp1.m_edge_set) ∪ comp2.m_edge_set
    let pdrgpexpr := CJoinOrder.CollectEdges pbs jo.m_rgpedge []
    let pexprScalar := PexprConjunction pdrgpexpr
    match CJoinOrder.PcompCombineNode comp1 comp2 pexprScalar with
    | .error e => .error e
    | .ok (pexpr, parent_loj_id, position) =>
      match GPOS_ASSERT_IMP 485 (decide (NON_LOJ_DEFAULT_ID < parent_loj_id))
          (decide (EPosition.EpLeft = position)) with
      | .error e => .error e
      | .ok _ => SComponent.CtorSets (some pexpr) pbs edge_set parent_loj_id position

/-! ## Marking used edges -/

/-- The loop of lines 669-681 of `MarkUsedEdges` over the bits still to visit. -/
def CJoinOrder.MarkUsedEdgesLoop (pcomponent : SComponent) :
    List Nat → List SEdge → Except EViolation (List SEdge)
  | [], rgpedge => .ok rgpedge
  | bit :: rest, rgpedge =>
    match rgpedge[bit]? with
    | none => .error .OutOfRange
    | some pedge =>
      if pedge.m_fUsed then
        CJoinOrder.MarkUsedEdgesLoop pcomponent rest rgpedge
      else if pedge.m_pbs ⊆ pcomponent.m_pbs then
        CJoinOrder.MarkUsedEdgesLoop pcomponent rest
          (rgpedge.set bit { pedge with m_fUsed := true })
      else
        CJoinOrder.MarkUsedEdgesLoop pcomponent rest rgpedge

/-- `CJoinOrder::MarkUsedEdges`, lines 647-682. The component is a value, so
the assertion `NULL != pcomponent` of line 653 always holds; a component
without payload makes line 657 dereference `NULL`. -/
def CJoinOrder.MarkUsedEdges (jo : CJoinOrder) (pcomponent : SComponent) :
    Except EViolation CJoinOrder :=
  match pcomponent.m_pexpr with
  | none => .error .NullPointer
  | some pexpr =>
    let eopid := pexpr.Eopid
    if 0 = pexpr.Arity ∨
        (EOperatorId.EopLogicalSelect ≠ eopid ∧
          EOperatorId.EopLogicalInnerJoin ≠ eopid ∧
          EOperatorId.EopLogicalLeftOuterJoin ≠ eopid) then
      -- result component does not have a scalar child, e.g. a Get node
      .ok jo
    else
      match CJoinOrder.MarkUsedEdgesLoop pcomponent pcomponent.m_edge_set.bits
          jo.m_rgpedge with
      | .error e => .error e
      | .ok rgpedge => .ok { jo with m_rgpedge := rgpedge }

/-! ## Construction -/

/-- `CJoinOrder::AddComponent`, lines 684-704, on the component array under
construction: a slot that has not been written yet is `none`. -/
def CJoinOrder.AddComponent (rgpcomp : List (Option SComponent)) (expr : CExpression)
    (loj_id : Int) (position : EPosition) (comp_num : Nat) :
    Except EViolation (List (Option SComponent)) :=
  match SComponent.Ctor (some expr) loj_id position with
  | .error e => .error e
  | .ok comp =>
    if comp_num < rgpcomp.length then
      -- component always covers itself
      .ok (rgpcomp.set comp_num (some { comp with m_pbs := insert comp_num comp.m_pbs }))
    else
      .error .OutOfRange

/-- The counting loop of lines 260-267: the number of left outer joins among
the children, counted only while `m_include_loj_childs` holds. -/
def CJoinOrder.CountLojs (include_loj_childs : Bool) : List CExpression → Nat → Nat
  | [], num_of_lojs => num_of_lojs
  | pexpr :: rest, num_of_lojs =>
    if include_loj_childs then
      if EOperatorId.EopLogicalLeftOuterJoin = pexpr.Eopid then
        CJoinOrder.CountLojs include_loj_childs rest (num_of_lojs + 1)
      else
        CJoinOrder.CountLojs include_loj_childs rest num_of_lojs
    else
      num_of_lojs

/-- The loop of lines 275-303 over the children still to visit, with the
running `loj_id` and `comp_num`, the component array and the predicate list. -/
def CJoinOrder.AddComponents (include_loj_childs : Bool) :
    List CExpression → Int → Nat → List (Option SComponent) → List CExpression →
    Except EViolation (List (Option SComponent) × List CExpression)
  | [], _, _, rgpcomp, pdrgpexprConj => .ok (rgpcomp, pdrgpexprConj)
  | expr :: rest, loj_id, comp_num, rgpcomp, pdrgpexprConj =>
    if include_loj_childs ∧ EOperatorId.EopLogicalLeftOuterJoin = expr.Eopid then
      -- counter for number of loj available in tree
      let loj_id := loj_id + 1
      match expr.children[0]? with
      | none => .error .OutOfRange
      | some pexprLeft =>
        -- add left child
        match CJoinOrder.AddComponent rgpcomp pexprLeft loj_id EPosition.EpLeft comp_num with
        | .error e => .error e
        | .ok rgpcomp =>
          -- increment comp_num, as it's the second child for the same ul
          let comp_num := comp_num + 1
          match expr.children[1]? with
          | none => .error .OutOfRange
          | some pexprRight =>
            -- add right child.
            match CJoinOrder.AddComponent rgpcomp pexprRight loj_id EPosition.EpRight
                comp_num with
            | .error e => .error e
            | .ok rgpcomp =>
              -- add scalar
              match expr.children[2]? with
              | none => .error .OutOfRange
              | some scalar_expr =>
                CJoinOrder.AddComponents include_loj_childs rest loj_id (comp_num + 1)
                  rgpcomp (pdrgpexprConj ++ [scalar_expr])
    else
      match CJoinOrder.AddComponent rgpcomp expr NON_LOJ_DEFAULT_ID EPosition.EpSentinel
          comp_num with
      | .error e => .error e
      | .ok rgpcomp =>
        CJoinOrder.AddComponents include_loj_childs rest loj_id (comp_num + 1) rgpcomp
          pdrgpexprConj

/-- The component array once construction has written it: reading a slot that
was never written dereferences an uninitialised pointer. -/
def CJoinOrder.Components : List (Option SComponent) → Except EViolation (List SComponent)
  | [] => .ok []
  | none :: _ => .error .NullPointer
  | some comp :: rest =>
    match CJoinOrder.Components rest with
    | .error e => .error e
    | .ok comps => .ok (comp :: comps)

/-- Lines 365-373 of `ComputeEdgeCover`: the body of the inner loop for edge
`ulEdge`, whose used columns are `pcrsUsed`, and component `ulComp`. -/
def CJoinOrder.ComputeEdgeCoverVisit (PcrsOutput : CExpression → CColRefSet)
    (ulEdge : Nat) (pcrsUsed : CColRefSet) (ulComp : Nat) (jo : CJoinOrder) :
    Except EViolation CJoinOrder :=
  match jo.m_rgpcomp[ulComp]? with
  | none => .error .OutOfRange
  | some comp =>
    match comp.m_pexpr with
    | none => .error .NullPointer
    | some pexprComp =>
      let pcrsOutput := PcrsOutput pexprComp
      if ¬ Disjoint pcrsUsed pcrsOutput then
        match jo.m_rgpedge[ulEdge]? with
        | none => .error .OutOfRange
        | some edge =>
          .ok { jo with
                m_rgpcomp := jo.m_rgpcomp.set ulComp
                  { comp with m_edge_set := insert ulEdge comp.m_edge_set },
                m_rgpedge := jo.m_rgpedge.set ulEdge
                  { edge with m_pbs := insert ulComp edge.m_pbs } }
      else
        .ok jo

/-- The inner loop of lines 363-374 over the component indices still to visit. -/
def CJoinOrder.ComputeEdgeCoverComps (PcrsOutput : CExpression → CColRefSet)
    (ulEdge : Nat) (pcrsUsed : CColRefSet) : List Nat → CJoinOrder → Except EViolation CJoinOrder
  | [], jo => .ok jo
  | ulComp :: rest, jo =>
    match CJoinOrder.ComputeEdgeCoverVisit PcrsOutput ulEdge pcrsUsed ulComp jo with
    | .error e => .error e
    | .ok jo1 => CJoinOrder.ComputeEdgeCoverComps PcrsOutput ulEdge pcrsUsed rest jo1

/-- The outer loop of lines 358-375 over the edge indices still to visit. -/
def CJoinOrder.ComputeEdgeCoverEdges (PcrsUsed PcrsOutput : CExpression → CColRefSet) :
    List Nat → CJoinOrder → Except EViolation CJoinOrder
  | [], jo => .ok jo
  | ulEdge :: rest, jo =>
    match jo.m_rgpedge[ulEdge]? with
    | none => .error .OutOfRange
    | some edge =>
      let pcrsUsed := PcrsUsed edge.m_pexpr
      match CJoinOrder.ComputeEdgeCoverComps PcrsOutput ulEdge pcrsUsed
          (List.range jo.m_ulComps) jo with
      | .error e => .error e
      | .ok jo1 => CJoinOrder.ComputeEdgeCoverEdges PcrsUsed PcrsOutput rest jo1

/-- `CJoinOrder::ComputeEdgeCover`, lines 355-376. -/
def CJoinOrder.ComputeEdgeCover (PcrsUsed PcrsOutput : CExpression → CColRefSet)
    (jo : CJoinOrder) : Except EViolation CJoinOrder :=
  CJoinOrder.ComputeEdgeCoverEdges PcrsUsed PcrsOutput (List.range jo.m_ulEdges) jo

/-- The constructor `CJoinOrder::CJoinOrder`, lines 223-319. -/
def CJoinOrder.Ctor (PcrsUsed PcrsOutput : CExpression → CColRefSet)
    (pdrgpexpr pdrgpexprConj : List CExpression) (include_loj_childs : Bool) :
    Except EViolation CJoinOrder :=
  let num_of_nary_children := pdrgpexpr.length
  let num_of_lojs := CJoinOrder.CountLojs include_loj_childs pdrgpexpr 0
  let m_ulComps := num_of_nary_children + num_of_lojs
  let m_rgpcomp : List (Option SComponent) := List.replicate m_ulComps none
  match CJoinOrder.AddComponents include_loj_childs pdrgpexpr 0 0 m_rgpcomp
      pdrgpexprConj with
  | .error e => .error e
  | .ok (m_rgpcomp, pdrgpexprConj) =>
    let m_rgpedge := pdrgpexprConj.map SEdge.Ctor
    match CJoinOrder.Components m_rgpcomp with
    | .error e => .error e
    | .ok m_rgpcomp =>
      CJoinOrder.ComputeEdgeCover PcrsUsed PcrsOutput
        { m_rgpedge := m_rgpedge, m_rgpcomp := m_rgpcomp,
          m_include_loj_childs := include_loj_childs }

/-! ## Calls made by the search strategy -/

/-- A call of the search strategy on the core. -/
inductive ECall where
  | PcompCombine (comp1 comp2 : SComponent)
  | MarkUsedEdges (pcomponent : SComponent)

/-- The state of the core after one call. `PcompCombine` writes to no member
of the core; its result is a fresh component handed to the caller. -/
def CJoinOrder.Call (jo : CJoinOrder) : ECall → Except EViolation CJoinOrder
  | .PcompCombine comp1 comp2 =>
    match jo.PcompCombine comp1 comp2 with
    | .error e => .error e
    | .ok _ => .ok jo
  | .MarkUsedEdges pcomponent => jo.MarkUsedEdges pcomponent

/-- The state of the core after a sequence of calls. -/
def CJoinOrder.Calls (jo : CJoinOrder) : List ECall → Except EViolation CJoinOrder
  | [] => .ok jo
  | call :: rest =>
    match jo.Call call with
    | .error e => .error e
    | .ok jo1 => CJoinOrder.Calls jo1 rest

/-! ## Vocabulary of the properties -/

/-- The LOJ provenance of a component is well formed: none (id `0` with the
sentinel position), or an id greater than `0` with position left or right. -/
def SComponent.WellFormedLoj (comp : SComponent) : Prop :=
  (comp.m_parent_loj_id = 0 ∧ comp.m_position = EPosition.EpSentinel) ∨
    (0 < comp.m_parent_loj_id ∧
      (comp.m_position = EPosition.EpLeft ∨ comp.m_position = EPosition.EpRight))

instance (comp : SComponent) : Decidable comp.WellFormedLoj :=
  inferInstanceAs (Decidable (_ ∨ _))

/-- The condition asserted by both constructors of `SComponent` (lines 78 and
99): a component that exists has passed it. -/
def SComponent.CtorContract (comp : SComponent) : Prop :=
  comp.m_position ≠ EPosition.EpSentinel → NON_LOJ_DEFAULT_ID < comp.m_parent_loj_id

instance (comp : SComponent) : Decidable comp.CtorContract :=
  inferInstanceAs (Decidable (_ → _))

/-- A component with LOJ provenance, in the encoding of spec 4.3: the id is
not the id `0` that stands for "none". -/
def SComponent.HasLoj (comp : SComponent) : Prop :=
  comp.m_parent_loj_id ≠ 0

instance (comp : SComponent) : Decidable comp.HasLoj :=
  inferInstanceAs (Decidable (_ ≠ _))

/-- The legality rule in the words of spec 4.3: neither component has LOJ
provenance; or both have, with the same id and opposite sides; or exactly one
has, and its side is left. -/
def LegalBySpec (comp1 comp2 : SComponent) : Prop :=
  (¬ comp1.HasLoj ∧ ¬ comp2.HasLoj) ∨
  (comp1.HasLoj ∧ comp2.HasLoj ∧ comp1.m_parent_loj_id = comp2.m_parent_loj_id ∧
    ((comp1.m_position = EPosition.EpLeft ∧ comp2.m_position = EPosition.EpRight) ∨
      (comp1.m_position = EPosition.EpRight ∧ comp2.m_position = EPosition.EpLeft))) ∨
  (comp1.HasLoj ∧ ¬ comp2.HasLoj ∧ comp1.m_position = EPosition.EpLeft) ∨
  (¬ comp1.HasLoj ∧ comp2.HasLoj ∧ comp2.m_position = EPosition.EpLeft)

instance (comp1 comp2 : SComponent) : Decidable (LegalBySpec comp1 comp2) :=
  inferInstanceAs (Decidable (_ ∨ _))

/-- The predicates to conjoin in the words of spec 4.5 step 2: the payloads,
in edge-array order, of the edges that are not used and whose incident
components are all contained in `pbs`. -/
def CJoinOrder.SubsumedUnusedEdges (jo : CJoinOrder) (pbs : CBitSet) : List CExpression :=
  (jo.m_rgpedge.filter (fun pedge => !pedge.m_fUsed && decide (pedge.m_pbs ⊆ pbs))).map
    (fun pedge => pedge.m_pexpr)

/-- The components obtainable from the component array of `jo` by
`PcompCombine`, applied only to pairs that `IsValidJoinCombination` accepts.
The result of `PcompCombine` depends on the used flags of the edges (line 409),
so each call is made in any state `jo1` the core has reached through calls of
the search strategy. -/
inductive CJoinOrder.ValidClosure (jo : CJoinOrder) : SComponent → Prop where
  | original (comp : SComponent) (hmem : comp ∈ jo.m_rgpcomp) :
      CJoinOrder.ValidClosure jo comp
  | combine (comp1 comp2 comp : SComponent)
      (h1 : CJoinOrder.ValidClosure jo comp1) (h2 : CJoinOrder.ValidClosure jo comp2)
      (hvalid : CJoinOrder.IsValidJoinCombination comp1 comp2 = .ok true)
      (calls : List ECall) (jo1 : CJoinOrder) (hcalls : jo.Calls calls = .ok jo1)
      (hcomb : jo1.PcompCombine comp1 comp2 = .ok comp) :
      CJoinOrder.ValidClosure jo comp

/-- The children of one exploded left outer join in the component array: the
components at slots `l` and `r` carry the same LOJ id, greater than `0`, the
first as left child and the second as right child. -/
def CJoinOrder.ExplodedLoj (jo : CJoinOrder) (l r : Nat) (compL compR : SComponent) : Prop :=
  jo.m_rgpcomp[l]? = some compL ∧ jo.m_rgpcomp[r]? = some compR ∧
    0 < compL.m_parent_loj_id ∧ compL.m_parent_loj_id = compR.m_parent_loj_id ∧
    compL.m_position = EPosition.EpLeft ∧ compR.m_position = EPosition.EpRight

instance (jo : CJoinOrder) (l r : Nat) (compL compR : SComponent) :
    Decidable (jo.ExplodedLoj l r compL compR) :=
  inferInstanceAs (Decidable (_ ∧ _))

/-! ## Example expressions -/

mutual
/-- An instance of the derived column sets for the examples: the column ids
that occur in the subtree. -/
def CExpression.PcrsSubtree : CExpression → CColRefSet
  | .mk _ pdrgpcr children => pdrgpcr.toFinset ∪ CExpression.PcrsSubtreeList children
termination_by structural pexpr => pexpr
/-- The column ids that occur in a list of subtrees. -/
def CExpression.PcrsSubtreeList : List CExpression → CColRefSet
  | [] => ∅
  | pexpr :: rest => pexpr.PcrsSubtree ∪ CExpression.PcrsSubtreeList rest
termination_by structural l => l
end

/-- A `CLogicalGet` leaf over a table with the single column `t`. -/
def exGet (t : Nat) : CExpression := .mk .EopLogicalGet [t] []

/-- A `CScalarCmp` predicate over columns `a` and `b`. -/
def exCmp (a b : Nat) : CExpression := .mk .EopScalarCmp [a, b] []

/-- A predicate that references no column. -/
def exConst : CExpression := .mk .EopScalarCmp [] []

/-- A `CLogicalLeftOuterJoin` node. -/
def exLoj (pexprLeft pexprRight pexprScalar : CExpression) : CExpression :=
  .mk .EopLogicalLeftOuterJoin [] [pexprLeft, pexprRight, pexprScalar]

/-- A component with payload `pexpr`, cover `pbs` and the given provenance. -/
def exComp (pexpr : Option CExpression) (pbs edge_set : CBitSet) (parent_loj_id : Int)
    (position : EPosition) : SComponent :=
  { m_pbs := pbs, m_edge_set := edge_set, m_pexpr := pexpr, m_fUsed := false,
    m_parent_loj_id := parent_loj_id, m_position := position }

/-! ## Invariants used in the proofs -/

/-- The edge array `edges1` is the edge array `edges` with some more used flags
set: same length, same cover and predicate at every index, and a flag that is
set in `edges` is set in `edges1`. -/
def EdgesGainUsed (edges edges1 : List SEdge) : Prop :=
  edges1.length = edges.length ∧
    ∀ (i : Nat) (pedge : SEdge), edges[i]? = some pedge →
      ∃ pedge1 : SEdge, edges1[i]? = some pedge1 ∧ pedge1.m_pbs = pedge.m_pbs ∧
        pedge1.m_pexpr = pedge.m_pexpr ∧ (pedge.m_fUsed = true → pedge1.m_fUsed = true)

/-- The invariant of the loop of lines 275-303: every written slot lies below
`comp_num`, covers exactly its own index, carries a payload, has well-formed
provenance with an id of at most `loj_id`, and no two written slots carry the
same positive LOJ id with the same position. -/
def SlotsInv (loj_id : Int) (comp_num : Nat) (rgpcomp : List (Option SComponent)) : Prop :=
  0 ≤ loj_id ∧
  (∀ (i : Nat) (comp : SComponent), rgpcomp[i]? = some (some comp) →
    i < comp_num ∧ comp.m_pbs = {i} ∧ comp.m_pexpr ≠ none ∧ comp.WellFormedLoj ∧
      comp.m_parent_loj_id ≤ loj_id) ∧
  (∀ (i j : Nat) (ci cj : SComponent), rgpcomp[i]? = some (some ci) →
    rgpcomp[j]? = some (some cj) → 0 < ci.m_parent_loj_id →
    ci.m_parent_loj_id = cj.m_parent_loj_id → ci.m_position = cj.m_position → i = j)

/-- The facts about the component array of a constructed core that the
combination invariants rest on. -/
def CompsInv (comps : List SComponent) : Prop :=
  (∀ (i : Nat) (comp : SComponent), comps[i]? = some comp →
    comp.m_pbs = {i} ∧ comp.m_pexpr ≠ none ∧ comp.WellFormedLoj) ∧
  (∀ (i j : Nat) (ci cj : SComponent), comps[i]? = some ci → comps[j]? = some cj →
    0 < ci.m_parent_loj_id → ci.m_parent_loj_id = cj.m_parent_loj_id →
    ci.m_position = cj.m_position → i = j)

/-- The fields of a component other than its incident-edge set. -/
def SComponent.Core (comp : SComponent) : CBitSet × Option CExpression × Int × EPosition :=
  (comp.m_pbs, comp.m_pexpr, comp.m_parent_loj_id, comp.m_position)

/-- The invariant of the components obtainable from the component array of
`jo`: a payload, well-formed provenance, a right child is an original
component, a right child of an exploded LOJ in the cover comes with its left
sibling unless the component is that right child, and a left-tagged component
covers the left child of its LOJ. -/
def ClosureInv (jo : CJoinOrder) (comp : SComponent) : Prop :=
  comp.m_pexpr ≠ none ∧ comp.WellFormedLoj ∧
  (comp.m_position = EPosition.EpRight → comp ∈ jo.m_rgpcomp) ∧
  (∀ (l r : Nat) (compL compR : SComponent), jo.ExplodedLoj l r compL compR →
    r ∈ comp.m_pbs → comp = compR ∨ l ∈ comp.m_pbs) ∧
  (comp.m_position = EPosition.EpLeft →
    ∀ (l : Nat) (compL : SComponent), jo.m_rgpcomp[l]? = some compL →
      compL.m_parent_loj_id = comp.m_parent_loj_id →
      compL.m_position = EPosition.EpLeft → l ∈ comp.m_pbs)

/-! ## Example cores -/

/-- The children `[Get(t1), Get(t2), LOJ(Get(t3), Get(t4), p34)]`. -/
def exChildren : List CExpression :=
  [exGet 1, exGet 2, exLoj (exGet 3) (exGet 4) (exCmp 3 4)]

/-- The core built from `exChildren` and the predicate `p12`, LOJ explosion
enabled. -/
def exCore : CJoinOrder :=
  { m_rgpedge := [⟨{0, 1}, exCmp 1 2, false⟩, ⟨{2, 3}, exCmp 3 4, false⟩],
    m_rgpcomp :=
      [exComp (some (exGet 1)) {0} {0} 0 .EpSentinel,
       exComp (some (exGet 2)) {1} {0} 0 .EpSentinel,
       exComp (some (exGet 3)) {2} {1} 1 .EpLeft,
       exComp (some (exGet 4)) {3} {1} 1 .EpRight],
    m_include_loj_childs := true }

/-- The left outer join of the two LOJ children of `exCore`. -/
def exComp34 : SComponent :=
  exComp (some (exLoj (exGet 3) (exGet 4) (PexprConjunction [exCmp 3 4]))) {2, 3} {1} 0
    .EpSentinel

/-- The core `exCore` after `MarkUsedEdges exComp34`. -/
def exCoreMarked : CJoinOrder :=
  { exCore with m_rgpedge := [⟨{0, 1}, exCmp 1 2, false⟩, ⟨{2, 3}, exCmp 3 4, true⟩] }

/-- The inner join of `exComp34` with `Get(t1)`, built after `p34` was marked
used: no predicate is subsumed yet. -/
def exComp341 : SComponent :=
  exComp (some (PexprLogicalJoin .EopLogicalInnerJoin
    (exLoj (exGet 3) (exGet 4) (PexprConjunction [exCmp 3 4])) (exGet 1)
    (PexprConjunction []))) {0, 2, 3} {0, 1} 0 .EpSentinel

/-- The core built from three `Get` children and the predicates `exConst`
(no column) and `p12`. -/
def exCoreConst : CJoinOrder :=
  { m_rgpedge := [⟨∅, exConst, false⟩, ⟨{0, 1}, exCmp 1 2, false⟩],
    m_rgpcomp :=
      [exComp (some (exGet 1)) {0} {1} 0 .EpSentinel,
       exComp (some (exGet 2)) {1} {1} 0 .EpSentinel,
       exComp (some (exGet 3)) {2} ∅ 0 .EpSentinel],
    m_include_loj_childs := true }

/-- The inner join of the first two components of `exCoreConst`. -/
def exComp12 : SComponent :=
  exComp (some (PexprLogicalJoin .EopLogicalInnerJoin (exGet 1) (exGet 2)
    (PexprConjunction [exConst, exCmp 1 2]))) {0, 1} {1} 0 .EpSentinel

/-! ## Vocabulary of the construction and incidence properties -/

/-- Every left-outer-join child has its three children (left input, right
input, join condition). -/
def WellFormedLojChildren (pdrgpexpr : List CExpression) : Prop :=
  ∀ expr ∈ pdrgpexpr, expr.Eopid = EOperatorId.EopLogicalLeftOuterJoin → 3 ≤ expr.Arity

instance (pdrgpexpr : List CExpression) : Decidable (WellFormedLojChildren pdrgpexpr) :=
  inferInstanceAs (Decidable (∀ expr ∈ pdrgpexpr, _))

/-- The number of left-outer-join operators among the children. -/
def NumLojs (pdrgpexpr : List CExpression) : Nat :=
  (pdrgpexpr.filter
    (fun expr => decide (expr.Eopid = EOperatorId.EopLogicalLeftOuterJoin))).length

/-- The component array in the words of spec 4.1, for children whose first
component goes to slot `comp_num` and whose LOJ ids follow `loj_id`: one
untagged component per child that is not exploded, and for an exploded
left outer join its left subtree tagged left immediately followed by its right
subtree tagged right, both with the next LOJ id. A fresh component covers
exactly its own slot and has no incident edge yet. -/
def LayoutComps (include_loj_childs : Bool) : List CExpression → Int → Nat → List SComponent
  | [], _, _ => []
  | expr :: rest, loj_id, comp_num =>
    if include_loj_childs = true ∧ expr.Eopid = EOperatorId.EopLogicalLeftOuterJoin then
      exComp expr.children[0]? {comp_num} ∅ (loj_id + 1) .EpLeft ::
        exComp expr.children[1]? {comp_num + 1} ∅ (loj_id + 1) .EpRight ::
        LayoutComps include_loj_childs rest (loj_id + 1) (comp_num + 2)
    else
      exComp (some expr) {comp_num} ∅ 0 .EpSentinel ::
        LayoutComps include_loj_childs rest loj_id (comp_num + 1)

/-- The join conditions of the exploded left outer joins, in the order of their
LOJ children. -/
def LojConditions (include_loj_childs : Bool) : List CExpression → List CExpression
  | [] => []
  | expr :: rest =>
    if include_loj_childs = true ∧ expr.Eopid = EOperatorId.EopLogicalLeftOuterJoin then
      expr.children[2]?.toList ++ LojConditions include_loj_childs rest
    else
      LojConditions include_loj_childs rest

/-- The core of spec 4.1 before the incidence computation: the layout of the
components, and one edge per predicate, the predicates of the caller first and
then the join conditions of the exploded LOJs. -/
def CoreBeforeCover (pdrgpexpr pdrgpexprConj : List CExpression) (include_loj_childs : Bool) :
    CJoinOrder :=
  { m_rgpedge := (pdrgpexprConj ++ LojConditions include_loj_childs pdrgpexpr).map SEdge.Ctor,
    m_rgpcomp := LayoutComps include_loj_childs pdrgpexpr 0 0,
    m_include_loj_childs := include_loj_childs }

/-- The predicate of edge `e` references an output column of component `c`:
the used-column set of the one is not disjoint from the output-column set of
the payload of the other. -/
def CJoinOrder.References (PcrsUsed PcrsOutput : CExpression → CColRefSet) (jo : CJoinOrder)
    (e c : Nat) : Prop :=
  ∃ (pedge : SEdge) (comp : SComponent) (pexpr : CExpression),
    jo.m_rgpedge[e]? = some pedge ∧ jo.m_rgpcomp[c]? = some comp ∧
      comp.m_pexpr = some pexpr ∧ ¬ Disjoint (PcrsUsed pedge.m_pexpr) (PcrsOutput pexpr)

/-- The core `jo1` is the core `jo` with incidence bits added for exactly the
pairs `(e, c)` of `S`, in both directions; nothing else differs. -/
def CoverAdds (jo jo1 : CJoinOrder) (S : Nat → Nat → Prop) : Prop :=
  jo1.m_include_loj_childs = jo.m_include_loj_childs ∧
  jo1.m_rgpedge.length = jo.m_rgpedge.length ∧
  jo1.m_rgpcomp.length = jo.m_rgpcomp.length ∧
  (∀ (e : Nat) (pedge : SEdge), jo.m_rgpedge[e]? = some pedge →
    ∃ pedge1 : SEdge, jo1.m_rgpedge[e]? = some pedge1 ∧ pedge1.m_pexpr = pedge.m_pexpr ∧
      pedge1.m_fUsed = pedge.m_fUsed ∧
      ∀ c : Nat, c ∈ pedge1.m_pbs ↔ c ∈ pedge.m_pbs ∨ S e c) ∧
  (∀ (c : Nat) (comp : SComponent), jo.m_rgpcomp[c]? = some comp →
    ∃ comp1 : SComponent, jo1.m_rgpcomp[c]? = some comp1 ∧ comp1.Core = comp.Core ∧
      comp1.m_fUsed = comp.m_fUsed ∧
      ∀ e : Nat, e ∈ comp1.m_edge_set ↔ e ∈ comp.m_edge_set ∨ S e c)

/-- The components obtainable from the component array of `jo` by any number of
`PcompCombine` calls, each made in a state the core has reached through calls
of the search strategy. -/
inductive CJoinOrder.Closure (jo : CJoinOrder) : SComponent → Prop where
  | original (comp : SComponent) (hmem : comp ∈ jo.m_rgpcomp) :
      CJoinOrder.Closure jo comp
  | combine (comp1 comp2 comp : SComponent)
      (h1 : CJoinOrder.Closure jo comp1) (h2 : CJoinOrder.Closure jo comp2)
      (calls : List ECall) (jo1 : CJoinOrder) (hcalls : jo.Calls calls = .ok jo1)
      (hcomb : jo1.PcompCombine comp1 comp2 = .ok comp) :
      CJoinOrder.Closure jo comp

/-- The invariant of the components obtainable by `PcompCombine`: a payload, a
cover made of component-array indices, and as incident edges exactly the
edge-array indices whose incident components meet the cover. -/
def IncidenceInv (jo : CJoinOrder) (comp : SComponent) : Prop :=
  comp.m_pexpr ≠ none ∧
  (∀ e : Nat, e ∈ comp.m_edge_set ↔
    ∃ pedge : SEdge, jo.m_rgpedge[e]? = some pedge ∧ ¬ Disjoint pedge.m_pbs comp.m_pbs) ∧
  (∀ i ∈ comp.m_pbs, i < jo.m_ulComps)

/-! # Lemmas -/

/-! ## Legality -/

/-- On well-formed provenance `IsValidJoinCombination` returns the verdict of
the rule of spec 4.3. -/
theorem isValidJoinCombination_wellFormed (comp1 comp2 : SComponent)
    (h1 : comp1.WellFormedLoj) (h2 : comp2.WellFormedLoj) :
    CJoinOrder.IsValidJoinCombination comp1 comp2 = .ok (decide (LegalBySpec comp1 comp2)) := by
  obtain ⟨b1, e1, x1, u1, id1, pos1⟩ := comp1
  obtain ⟨b2, e2, x2, u2, id2, pos2⟩ := comp2
  simp only [SComponent.WellFormedLoj] at h1 h2
  simp only [CJoinOrder.IsValidJoinCombination, LegalBySpec, SComponent.HasLoj,
    NON_LOJ_DEFAULT_ID, GPOS_ASSERT, SComponent.ParentLojId, SComponent.Position]
  rcases h1 with ⟨rfl, rfl⟩ | ⟨hp1, rfl | rfl⟩ <;> rcases h2 with ⟨rfl, rfl⟩ | ⟨hp2, rfl | rfl⟩ <;>
    simp <;> first | omega | (split_ifs <;> (simp_all; try omega))

/-- Both argument orders of `IsValidJoinCombination` end the same way. -/
theorem isValidJoinCombination_comm (comp1 comp2 : SComponent) :
    CJoinOrder.IsValidJoinCombination comp1 comp2 =
      CJoinOrder.IsValidJoinCombination comp2 comp1 := by
  obtain ⟨b1, e1, x1, u1, id1, pos1⟩ := comp1
  obtain ⟨b2, e2, x2, u2, id2, pos2⟩ := comp2
  simp only [CJoinOrder.IsValidJoinCombination, NON_LOJ_DEFAULT_ID, GPOS_ASSERT,
    SComponent.ParentLojId, SComponent.Position]
  by_cases h0 : (0 : Int) = id1 ∧ (0 : Int) = id2
  · simp [h0, And.comm]
  · have h0' : ¬ ((0 : Int) = id2 ∧ (0 : Int) = id1) := fun h => h0 ⟨h.2, h.1⟩
    rw [if_neg h0, if_neg h0']
    by_cases hp : (0 : Int) < id1 ∧ (0 : Int) < id2
    · have hp' : (0 : Int) < id2 ∧ (0 : Int) < id1 := ⟨hp.2, hp.1⟩
      rw [if_pos hp, if_pos hp']
      by_cases he : id1 = id2
      · subst he
        cases pos1 <;> cases pos2 <;> simp
      · have he' : ¬ id2 = id1 := fun h => he h.symm
        rw [if_neg he, if_neg he']
    · have hp' : ¬ ((0 : Int) < id2 ∧ (0 : Int) < id1) := fun h => hp ⟨h.2, h.1⟩
      rw [if_neg hp, if_neg hp']
      cases pos1 <;> cases pos2 <;> simp

/-- `IsValidJoinCombination` returns a Boolean unless the assertion of line 601
fails: the two ids are the same positive id and a position is the sentinel. -/
theorem isValidJoinCombination_total_iff (comp1 comp2 : SComponent) :
    (∃ b : Bool, CJoinOrder.IsValidJoinCombination comp1 comp2 = .ok b) ↔
      ¬ (0 < comp1.m_parent_loj_id ∧ comp1.m_parent_loj_id = comp2.m_parent_loj_id ∧
        (comp1.m_position = EPosition.EpSentinel ∨
          comp2.m_position = EPosition.EpSentinel)) := by
  obtain ⟨b1, e1, x1, u1, id1, pos1⟩ := comp1
  obtain ⟨b2, e2, x2, u2, id2, pos2⟩ := comp2
  simp only [CJoinOrder.IsValidJoinCombination, NON_LOJ_DEFAULT_ID, GPOS_ASSERT,
    SComponent.ParentLojId, SComponent.Position]
  by_cases h0 : (0 : Int) = id1 ∧ (0 : Int) = id2
  · rw [if_pos h0]
    constructor
    · intro _ h
      omega
    · intro _
      exact ⟨true, rfl⟩
  · rw [if_neg h0]
    by_cases hp : (0 : Int) < id1 ∧ (0 : Int) < id2
    · rw [if_pos hp]
      by_cases he : id1 = id2
      · subst he
        rw [if_pos rfl]
        cases pos1 <;> cases pos2 <;> simp [hp.1]
      · rw [if_neg he]
        constructor
        · intro _ h
          exact he h.2.1
        · intro _
          exact ⟨false, rfl⟩
    · rw [if_neg hp]
      constructor
      · intro _ h
        exact hp ⟨h.1, h.2.1 ▸ h.1⟩
      · intro _
        exact ⟨_, rfl⟩

/-! ## Combination: what `PcompCombine` returns -/

/-- The constructor of lines 82-100 returns the component with the given
fields when the assertion of line 99 holds. -/
theorem ctorSets_ok (pexpr : Option CExpression) (pbs edge_set : CBitSet) (id : Int)
    (pos : EPosition) (h : pos ≠ EPosition.EpSentinel → 0 < id) :
    SComponent.CtorSets pexpr pbs edge_set id pos =
      .ok { m_pbs := pbs, m_edge_set := edge_set, m_pexpr := pexpr, m_fUsed := false,
            m_parent_loj_id := id, m_position := pos } := by
  simp only [SComponent.CtorSets, GPOS_ASSERT_IMP, GPOS_ASSERT, NON_LOJ_DEFAULT_ID]
  by_cases hs : pos = EPosition.EpSentinel
  · subst hs
    simp
  · have := h hs
    simp [this]

/-- A component returned by the constructor of lines 82-100 has the given
fields, and the assertion of line 99 held. -/
theorem ctorSets_fields (pexpr : Option CExpression) (pbs edge_set : CBitSet) (id : Int)
    (pos : EPosition) (comp : SComponent)
    (h : SComponent.CtorSets pexpr pbs edge_set id pos = .ok comp) :
    comp = { m_pbs := pbs, m_edge_set := edge_set, m_pexpr := pexpr, m_fUsed := false,
             m_parent_loj_id := id, m_position := pos } ∧
      (pos ≠ EPosition.EpSentinel → 0 < id) := by
  simp only [SComponent.CtorSets, GPOS_ASSERT_IMP, GPOS_ASSERT, NON_LOJ_DEFAULT_ID] at h
  split at h
  · cases h
  · rename_i heq
    split at heq
    · cases h
      refine ⟨rfl, ?_⟩
      intro hs
      rename_i hc
      simp at hc
      rcases hc with hc | hc
      · exact absurd hc.symm hs
      · exact hc
    · cases heq

/-- What a successful `PcompCombine` returns, in terms of the node built by
lines 428-482. -/
theorem pcompCombine_ok (jo : CJoinOrder) (comp1 comp2 comp : SComponent)
    (h : jo.PcompCombine comp1 comp2 = .ok comp) :
    CJoinOrder.IsValidJoinCombination comp1 comp2 = .ok true ∧
    ∃ pexpr id pos,
      CJoinOrder.PcompCombineNode comp1 comp2
        (PexprConjunction (CJoinOrder.CollectEdges (comp1.m_pbs ∪ comp2.m_pbs)
          jo.m_rgpedge [])) = .ok (pexpr, id, pos) ∧
      (0 < id → pos = EPosition.EpLeft) ∧
      (pos ≠ EPosition.EpSentinel → 0 < id) ∧
      comp = { m_pbs := comp1.m_pbs ∪ comp2.m_pbs,
               m_edge_set := comp1.m_edge_set ∪ comp2.m_edge_set,
               m_pexpr := some pexpr, m_fUsed := false,
               m_parent_loj_id := id, m_position := pos } := by
  unfold CJoinOrder.PcompCombine at h
  split at h
  · cases h
  · cases h
  · rename_i hv
    refine ⟨hv, ?_⟩
    simp only [Finset.empty_union] at h
    split at h
    · cases h
    · rename_i pexpr id pos hnode
      split at h
      · cases h
      · rename_i hassert
        obtain ⟨hc, hctor⟩ := ctorSets_fields _ _ _ _ _ _ h
        refine ⟨pexpr, id, pos, hnode, ?_, hctor, hc⟩
        intro hid
        simp only [GPOS_ASSERT_IMP, GPOS_ASSERT, NON_LOJ_DEFAULT_ID] at hassert
        split at hassert
        · rename_i hc2
          simp at hc2
          rcases hc2 with hc2 | hc2
          · omega
          · exact hc2.symm
        · cases hassert

/-- When `PcompCombine` returns: the pair is legal, the node is built, and the
closing assertions of lines 485 and 99 hold. -/
theorem pcompCombine_of_node (jo : CJoinOrder) (comp1 comp2 : SComponent)
    (pexpr : CExpression) (id : Int) (pos : EPosition)
    (hv : CJoinOrder.IsValidJoinCombination comp1 comp2 = .ok true)
    (hnode : CJoinOrder.PcompCombineNode comp1 comp2
        (PexprConjunction (CJoinOrder.CollectEdges (comp1.m_pbs ∪ comp2.m_pbs)
          jo.m_rgpedge [])) = .ok (pexpr, id, pos))
    (h485 : 0 < id → pos = EPosition.EpLeft)
    (h99 : pos ≠ EPosition.EpSentinel → 0 < id) :
    jo.PcompCombine comp1 comp2 =
      .ok { m_pbs := comp1.m_pbs ∪ comp2.m_pbs,
            m_edge_set := comp1.m_edge_set ∪ comp2.m_edge_set,
            m_pexpr := some pexpr, m_fUsed := false,
            m_parent_loj_id := id, m_position := pos } := by
  unfold CJoinOrder.PcompCombine
  rw [hv]
  simp only [Finset.empty_union, hnode]
  have h1 : GPOS_ASSERT_IMP 485 (decide (NON_LOJ_DEFAULT_ID < id))
      (decide (EPosition.EpLeft = pos)) = .ok () := by
    simp only [GPOS_ASSERT_IMP, GPOS_ASSERT, NON_LOJ_DEFAULT_ID]
    by_cases hid : 0 < id
    · simp [h485 hid]
    · simp [hid]
  rw [h1]
  exact ctorSets_ok _ _ _ _ _ h99

/-- Siblings that passed the constructor assertion form a legal pair. -/
theorem isValidJoinCombination_siblings (comp1 comp2 : SComponent)
    (hc1 : comp1.CtorContract)
    (hsib : CJoinOrder.IsChildOfSameLOJ comp1 comp2 = true) :
    CJoinOrder.IsValidJoinCombination comp1 comp2 = .ok true := by
  obtain ⟨b1, e1, x1, u1, id1, pos1⟩ := comp1
  obtain ⟨b2, e2, x2, u2, id2, pos2⟩ := comp2
  simp only [CJoinOrder.IsChildOfSameLOJ, SComponent.ParentLojId, SComponent.Position,
    NON_LOJ_DEFAULT_ID, decide_eq_true_eq] at hsib
  simp only [SComponent.CtorContract, NON_LOJ_DEFAULT_ID] at hc1
  obtain ⟨rfl, hne, hpos⟩ := hsib
  have hpos1 : (0 : Int) < id1 := by
    apply hc1
    rcases hpos with ⟨h, _⟩ | ⟨h, _⟩ <;> simp [h]
  simp only [CJoinOrder.IsValidJoinCombination, NON_LOJ_DEFAULT_ID, GPOS_ASSERT,
    SComponent.ParentLojId, SComponent.Position]
  have h0 : ¬ ((0 : Int) = id1 ∧ (0 : Int) = id1) := fun h => hne h.1.symm
  rw [if_neg h0, if_pos ⟨hpos1, hpos1⟩, if_pos True.intro]
  rcases hpos with ⟨h1, h2⟩ | ⟨h1, h2⟩ <;> simp [h1, h2]

/-- `IsChildOfSameLOJ` does not depend on the argument order. -/
theorem isChildOfSameLOJ_comm (comp1 comp2 : SComponent) :
    CJoinOrder.IsChildOfSameLOJ comp1 comp2 = CJoinOrder.IsChildOfSameLOJ comp2 comp1 := by
  simp only [CJoinOrder.IsChildOfSameLOJ, SComponent.ParentLojId, SComponent.Position]
  rw [decide_eq_decide]
  constructor
  · rintro ⟨h1, h2, h3⟩
    exact ⟨h1.symm, h1 ▸ h2, h3.symm.imp And.symm And.symm⟩
  · rintro ⟨h1, h2, h3⟩
    exact ⟨h1.symm, h1 ▸ h2, h3.symm.imp And.symm And.symm⟩

/-- The node built for payload-bearing siblings: a left outer join with the
payload of the left child first. -/
theorem pcompCombineNode_siblings (comp1 comp2 : SComponent) (pexpr1 pexpr2 s : CExpression)
    (h1 : comp1.m_pexpr = some pexpr1) (h2 : comp2.m_pexpr = some pexpr2)
    (hsib : CJoinOrder.IsChildOfSameLOJ comp1 comp2 = true) :
    CJoinOrder.PcompCombineNode comp1 comp2 s =
      .ok (PexprLogicalJoin .EopLogicalLeftOuterJoin
            (if comp1.m_position = EPosition.EpLeft then pexpr1 else pexpr2)
            (if comp1.m_position = EPosition.EpLeft then pexpr2 else pexpr1) s,
          NON_LOJ_DEFAULT_ID, EPosition.EpSentinel) := by
  simp only [CJoinOrder.PcompCombineNode, h1, h2, hsib, if_true, SComponent.Position]

/-- The node built for a legal pair of payload-bearing, well-formed components
that are not siblings: an inner join, tagged with the provenance of the one
input that has any. -/
theorem pcompCombineNode_inner (comp1 comp2 : SComponent) (pexpr1 pexpr2 s : CExpression)
    (h1 : comp1.m_pexpr = some pexpr1) (h2 : comp2.m_pexpr = some pexpr2)
    (hw1 : comp1.WellFormedLoj) (hw2 : comp2.WellFormedLoj)
    (hv : CJoinOrder.IsValidJoinCombination comp1 comp2 = .ok true)
    (hsib : CJoinOrder.IsChildOfSameLOJ comp1 comp2 = false) :
    ∃ id pos,
      CJoinOrder.PcompCombineNode comp1 comp2 s =
        .ok (PexprLogicalJoin .EopLogicalInnerJoin pexpr1 pexpr2 s, id, pos) ∧
      (0 < id → pos = EPosition.EpLeft) ∧ (pos ≠ EPosition.EpSentinel → 0 < id) ∧
      (0 < comp1.m_parent_loj_id → comp2.m_parent_loj_id = 0 →
        comp1.m_position = EPosition.EpLeft ∧ id = comp1.m_parent_loj_id ∧
          pos = EPosition.EpLeft) ∧
      (comp1.m_parent_loj_id = 0 → 0 < comp2.m_parent_loj_id →
        comp2.m_position = EPosition.EpLeft ∧ id = comp2.m_parent_loj_id ∧
          pos = EPosition.EpLeft) ∧
      (comp1.m_parent_loj_id = 0 → comp2.m_parent_loj_id = 0 →
        id = 0 ∧ pos = EPosition.EpSentinel) ∧
      ((id = 0 ∧ pos = EPosition.EpSentinel) ∨
        (0 < id ∧ (pos = EPosition.EpLeft ∨ pos = EPosition.EpRight))) ∧
      comp1.m_position ≠ EPosition.EpRight ∧ comp2.m_position ≠ EPosition.EpRight ∧
      (pos = EPosition.EpLeft →
        (comp1.m_position = EPosition.EpLeft ∧ comp1.m_parent_loj_id = id) ∨
          (comp2.m_position = EPosition.EpLeft ∧ comp2.m_parent_loj_id = id)) := by
  obtain ⟨b1, e1, x1, u1, id1, pos1⟩ := comp1
  obtain ⟨b2, e2, x2, u2, id2, pos2⟩ := comp2
  simp only at h1 h2
  subst h1 h2
  simp only [SComponent.WellFormedLoj] at hw1 hw2
  simp only [CJoinOrder.IsChildOfSameLOJ, SComponent.ParentLojId, SComponent.Position,
    NON_LOJ_DEFAULT_ID, decide_eq_false_iff_not] at hsib
  simp only [CJoinOrder.IsValidJoinCombination, NON_LOJ_DEFAULT_ID, GPOS_ASSERT,
    SComponent.ParentLojId, SComponent.Position] at hv
  simp only [CJoinOrder.PcompCombineNode, CJoinOrder.IsChildOfSameLOJ, SComponent.ParentLojId,
    SComponent.Position, NON_LOJ_DEFAULT_ID, GPOS_ASSERT_IMP, GPOS_ASSERT]
  rcases hw1 with ⟨rfl, rfl⟩ | ⟨hp1, rfl | rfl⟩ <;>
    rcases hw2 with ⟨rfl, rfl⟩ | ⟨hp2, rfl | rfl⟩
  · exact ⟨0, .EpSentinel, by simp, by simp, by simp, by simp, by simp, by simp,
      Or.inl ⟨rfl, rfl⟩, by simp, by simp, by simp⟩
  · have hne : id2 ≠ 0 := by omega
    refine ⟨id2, .EpLeft, by simp [hp2, hne, eq_comm], by simp, by simp [hp2], ?_, ?_, ?_,
      Or.inr ⟨hp2, Or.inl rfl⟩, by simp, by simp, fun _ => Or.inr ⟨rfl, rfl⟩⟩
    · intro h; omega
    · intro _ _; exact ⟨rfl, rfl, rfl⟩
    · intro _ h; omega
  · exfalso
    have hne : ¬ (0 : Int) = id2 := by omega
    simp [hne] at hv
  · have hne : id1 ≠ 0 := by omega
    refine ⟨id1, .EpLeft, by simp [hp1, hne], by simp, by simp [hp1], ?_, ?_, ?_,
      Or.inr ⟨hp1, Or.inl rfl⟩, by simp, by simp, fun _ => Or.inl ⟨rfl, rfl⟩⟩
    · intro _ _; exact ⟨rfl, rfl, rfl⟩
    · intro h; omega
    · intro h; omega
  · exfalso
    have hne1 : ¬ (0 : Int) = id1 := by omega
    by_cases he : id1 = id2
    · subst he
      simp [hne1, hp1] at hv
    · simp [hne1, hp1, hp2, he] at hv
  · exfalso
    have hne1 : ¬ (0 : Int) = id1 := by omega
    by_cases he : id1 = id2
    · subst he
      simp at hsib
      omega
    · simp [hne1, hp1, hp2, he] at hv
  · exfalso
    have hne1 : ¬ (0 : Int) = id1 := by omega
    simp [hne1] at hv
  · exfalso
    have hne1 : ¬ (0 : Int) = id1 := by omega
    by_cases he : id1 = id2
    · subst he
      simp at hsib
      omega
    · simp [hne1, hp1, hp2, he] at hv
  · exfalso
    have hne1 : ¬ (0 : Int) = id1 := by omega
    by_cases he : id1 = id2
    · subst he
      simp [hne1, hp1] at hv
    · simp [hne1, hp1, hp2, he] at hv

/-- The loop of lines 406-422 appends the subsumed unused predicates in order. -/
theorem collectEdges_eq_filter (pbs : CBitSet) (edges : List SEdge)
    (pdrgpexpr : List CExpression) :
    CJoinOrder.CollectEdges pbs edges pdrgpexpr =
      pdrgpexpr ++ (edges.filter
        (fun pedge => !pedge.m_fUsed && decide (pedge.m_pbs ⊆ pbs))).map
          (fun pedge => pedge.m_pexpr) := by
  induction edges generalizing pdrgpexpr with
  | nil => simp [CJoinOrder.CollectEdges]
  | cons pedge rest ih =>
    unfold CJoinOrder.CollectEdges
    by_cases hu : pedge.m_fUsed = true
    · simp [hu, ih]
    · by_cases hs : pedge.m_pbs ⊆ pbs
      · simp [hu, hs, ih]
      · simp [hu, hs, ih]

/-- Every node built by lines 428-482 has the conjunction as its last child. -/
theorem pcompCombineNode_scalar (comp1 comp2 : SComponent) (s pexpr : CExpression) (id : Int)
    (pos : EPosition) (h : CJoinOrder.PcompCombineNode comp1 comp2 s = .ok (pexpr, id, pos)) :
    pexpr.children.getLast? = some s := by
  unfold CJoinOrder.PcompCombineNode at h
  simp only at h
  repeat' split at h
  all_goals first
    | (cases h; rfl)
    | cases h

/-- An edge array gains nothing over itself. -/
theorem edgesGainUsed_refl (edges : List SEdge) : EdgesGainUsed edges edges :=
  ⟨rfl, fun _ pedge h => ⟨pedge, h, rfl, rfl, id⟩⟩

/-- Gaining used flags composes. -/
theorem edgesGainUsed_trans {edges edges1 edges2 : List SEdge}
    (h1 : EdgesGainUsed edges edges1) (h2 : EdgesGainUsed edges1 edges2) :
    EdgesGainUsed edges edges2 := by
  refine ⟨h2.1.trans h1.1, ?_⟩
  intro i pedge hi
  obtain ⟨p1, hp1, hb1, he1, hu1⟩ := h1.2 i pedge hi
  obtain ⟨p2, hp2, hb2, he2, hu2⟩ := h2.2 i p1 hp1
  exact ⟨p2, hp2, hb2.trans hb1, he2.trans he1, fun h => hu2 (hu1 h)⟩

/-- Setting the used flag of one edge only adds a used flag. -/
theorem edgesGainUsed_set (edges : List SEdge) (bit : Nat) (pedge : SEdge)
    (h : edges[bit]? = some pedge) :
    EdgesGainUsed edges (edges.set bit { pedge with m_fUsed := true }) := by
  refine ⟨List.length_set _ _ _, ?_⟩
  intro i p hi
  by_cases hib : bit = i
  · subst hib
    have hlt : bit < edges.length := by
      rcases Nat.lt_or_ge bit edges.length with hl | hl
      · exact hl
      · rw [List.getElem?_eq_none hl] at h
        cases h
    rw [h] at hi
    cases hi
    exact ⟨{ pedge with m_fUsed := true }, by rw [List.getElem?_set_self hlt], rfl, rfl,
      fun _ => rfl⟩
  · exact ⟨p, by rw [List.getElem?_set_ne hib]; exact hi, rfl, rfl, id⟩

/-- The loop of `MarkUsedEdges` only adds used flags. -/
theorem markUsedEdgesLoop_gain (pcomponent : SComponent) (bits : List Nat)
    (edges edges1 : List SEdge)
    (h : CJoinOrder.MarkUsedEdgesLoop pcomponent bits edges = .ok edges1) :
    EdgesGainUsed edges edges1 := by
  induction bits generalizing edges with
  | nil =>
    simp only [CJoinOrder.MarkUsedEdgesLoop] at h
    cases h
    exact edgesGainUsed_refl _
  | cons bit rest ih =>
    unfold CJoinOrder.MarkUsedEdgesLoop at h
    split at h
    · cases h
    · rename_i pedge hget
      split_ifs at h
      · exact ih _ h
      · exact edgesGainUsed_trans (edgesGainUsed_set edges bit pedge hget) (ih _ h)
      · exact ih _ h

/-- `MarkUsedEdges` only adds used flags and leaves the rest of the core as it
was. -/
theorem markUsedEdges_gain (jo jo1 : CJoinOrder) (pcomponent : SComponent)
    (h : jo.MarkUsedEdges pcomponent = .ok jo1) :
    EdgesGainUsed jo.m_rgpedge jo1.m_rgpedge ∧ jo1.m_rgpcomp = jo.m_rgpcomp ∧
      jo1.m_include_loj_childs = jo.m_include_loj_childs := by
  unfold CJoinOrder.MarkUsedEdges at h
  split at h
  · cases h
  · simp only at h
    split_ifs at h
    · cases h
      exact ⟨edgesGainUsed_refl _, rfl, rfl⟩
    · split at h
      · cases h
      · rename_i edges1 hloop
        cases h
        exact ⟨markUsedEdgesLoop_gain _ _ _ _ hloop, rfl, rfl⟩

/-- One call only adds used flags and leaves the rest of the core as it was. -/
theorem call_gain (jo jo1 : CJoinOrder) (call : ECall) (h : jo.Call call = .ok jo1) :
    EdgesGainUsed jo.m_rgpedge jo1.m_rgpedge ∧ jo1.m_rgpcomp = jo.m_rgpcomp ∧
      jo1.m_include_loj_childs = jo.m_include_loj_childs := by
  cases call with
  | PcompCombine comp1 comp2 =>
    simp only [CJoinOrder.Call] at h
    split at h
    · cases h
    · cases h
      exact ⟨edgesGainUsed_refl _, rfl, rfl⟩
  | MarkUsedEdges pcomponent =>
    exact markUsedEdges_gain jo jo1 pcomponent h

/-- A sequence of calls only adds used flags and leaves the rest of the core as
it was. -/
theorem calls_gain (jo jo1 : CJoinOrder) (calls : List ECall)
    (h : jo.Calls calls = .ok jo1) :
    EdgesGainUsed jo.m_rgpedge jo1.m_rgpedge ∧ jo1.m_rgpcomp = jo.m_rgpcomp ∧
      jo1.m_include_loj_childs = jo.m_include_loj_childs := by
  induction calls generalizing jo with
  | nil =>
    simp only [CJoinOrder.Calls] at h
    cases h
    exact ⟨edgesGainUsed_refl _, rfl, rfl⟩
  | cons call rest ih =>
    simp only [CJoinOrder.Calls] at h
    split at h
    · cases h
    · rename_i jo2 hcall
      obtain ⟨g1, c1, f1⟩ := call_gain jo jo2 call hcall
      obtain ⟨g2, c2, f2⟩ := ih jo2 h
      exact ⟨edgesGainUsed_trans g1 g2, c2.trans c1, f2.trans f1⟩

/-- A used edge contributes nothing to the loop of lines 406-422: the loop
collects the same list when the edge is deleted from the array. -/
theorem collectEdges_eraseIdx (pbs : CBitSet) (edges : List SEdge) (i : Nat) (pedge : SEdge)
    (pdrgpexpr : List CExpression) (hi : edges[i]? = some pedge)
    (hu : pedge.m_fUsed = true) :
    CJoinOrder.CollectEdges pbs edges pdrgpexpr =
      CJoinOrder.CollectEdges pbs (edges.eraseIdx i) pdrgpexpr := by
  induction edges generalizing i pdrgpexpr with
  | nil => simp at hi
  | cons head rest ih =>
    cases i with
    | zero =>
      simp only [List.getElem?_cons_zero, Option.some.injEq] at hi
      subst hi
      simp [CJoinOrder.CollectEdges, hu]
    | succ j =>
      simp only [List.getElem?_cons_succ] at hi
      simp only [List.eraseIdx_cons_succ, CJoinOrder.CollectEdges]
      split_ifs
      · exact ih j _ hi
      · exact ih j _ hi
      · exact ih j _ hi

/-! ## Construction: the component array -/

/-- What a successful `AddComponent` writes. -/
theorem addComponent_ok (rgpcomp rgpcomp1 : List (Option SComponent)) (expr : CExpression)
    (loj_id : Int) (position : EPosition) (comp_num : Nat)
    (h : CJoinOrder.AddComponent rgpcomp expr loj_id position comp_num = .ok rgpcomp1) :
    comp_num < rgpcomp.length ∧
      rgpcomp1 = rgpcomp.set comp_num (some
        { m_pbs := {comp_num}, m_edge_set := ∅, m_pexpr := some expr, m_fUsed := false,
          m_parent_loj_id := loj_id, m_position := position }) := by
  unfold CJoinOrder.AddComponent at h
  split at h
  · cases h
  · rename_i comp hctor
    split_ifs at h with hlt
    cases h
    refine ⟨hlt, ?_⟩
    simp only [SComponent.Ctor] at hctor
    split at hctor
    · cases hctor
    · cases hctor
      simp

/-- Writing a fresh component into slot `comp_num` keeps the loop invariant. -/
theorem slotsInv_set (loj_id loj_id1 : Int) (comp_num : Nat)
    (rgpcomp : List (Option SComponent)) (comp : SComponent)
    (hinv : SlotsInv loj_id comp_num rgpcomp) (hlt : comp_num < rgpcomp.length)
    (hpbs : comp.m_pbs = {comp_num}) (hpexpr : comp.m_pexpr ≠ none)
    (hwf : comp.WellFormedLoj) (hle : loj_id ≤ loj_id1)
    (hid : comp.m_parent_loj_id ≤ loj_id1)
    (hfresh : ∀ (i : Nat) (ci : SComponent), rgpcomp[i]? = some (some ci) →
      0 < comp.m_parent_loj_id → ci.m_parent_loj_id = comp.m_parent_loj_id →
      ci.m_position ≠ comp.m_position) :
    SlotsInv loj_id1 (comp_num + 1) (rgpcomp.set comp_num (some comp)) := by
  obtain ⟨h0, hslot, huniq⟩ := hinv
  have hget : ∀ (i : Nat) (c : SComponent),
      (rgpcomp.set comp_num (some comp))[i]? = some (some c) →
      (i = comp_num ∧ c = comp) ∨ (i ≠ comp_num ∧ rgpcomp[i]? = some (some c)) := by
    intro i c hi
    by_cases hic : comp_num = i
    · subst hic
      rw [List.getElem?_set_self hlt] at hi
      left
      simp only [Option.some.injEq] at hi
      exact ⟨rfl, hi.symm⟩
    · rw [List.getElem?_set_ne hic] at hi
      exact Or.inr ⟨fun h => hic h.symm, hi⟩
  refine ⟨le_trans h0 hle, ?_, ?_⟩
  · intro i c hi
    rcases hget i c hi with ⟨rfl, rfl⟩ | ⟨_, hold⟩
    · exact ⟨Nat.lt_succ_self _, hpbs, hpexpr, hwf, hid⟩
    · obtain ⟨a, b, c1, d, e⟩ := hslot i c hold
      exact ⟨Nat.lt_succ_of_lt a, b, c1, d, le_trans e hle⟩
  · intro i j ci cj hi hj hpos hideq hposeq
    rcases hget i ci hi with ⟨rfl, rfl⟩ | ⟨hni, holdi⟩ <;>
      rcases hget j cj hj with ⟨rfl, rfl⟩ | ⟨hnj, holdj⟩
    · rfl
    · exact absurd hposeq.symm (hfresh j cj holdj hpos hideq.symm)
    · exact absurd hposeq (hfresh i ci holdi (hideq ▸ hpos) hideq)
    · exact huniq i j ci cj holdi holdj hpos hideq hposeq

/-- The loop of lines 275-303 keeps its invariant. -/
theorem addComponents_inv (include_loj_childs : Bool) (pdrgpexpr : List CExpression)
    (loj_id : Int) (comp_num : Nat) (rgpcomp : List (Option SComponent))
    (pdrgpexprConj : List CExpression)
    (rgpcomp1 : List (Option SComponent)) (pdrgpexprConj1 : List CExpression)
    (hinv : SlotsInv loj_id comp_num rgpcomp)
    (h : CJoinOrder.AddComponents include_loj_childs pdrgpexpr loj_id comp_num rgpcomp
      pdrgpexprConj = .ok (rgpcomp1, pdrgpexprConj1)) :
    ∃ (loj_id1 : Int) (comp_num1 : Nat), SlotsInv loj_id1 comp_num1 rgpcomp1 := by
  induction pdrgpexpr generalizing loj_id comp_num rgpcomp pdrgpexprConj with
  | nil =>
    simp only [CJoinOrder.AddComponents] at h
    cases h
    exact ⟨loj_id, comp_num, hinv⟩
  | cons expr rest ih =>
    unfold CJoinOrder.AddComponents at h
    split_ifs at h with hloj
    · simp only at h
      split at h
      · cases h
      · rename_i pexprLeft _
        split at h
        · cases h
        · rename_i slotsL haddL
          split at h
          · cases h
          · rename_i pexprRight _
            split at h
            · cases h
            · rename_i slotsR haddR
              split at h
              · cases h
              · obtain ⟨hltL, rfl⟩ := addComponent_ok _ _ _ _ _ _ haddL
                obtain ⟨hltR, rfl⟩ := addComponent_ok _ _ _ _ _ _ haddR
                have h0 : 0 ≤ loj_id := hinv.1
                have hinvL := slotsInv_set loj_id (loj_id + 1) comp_num rgpcomp
                  { m_pbs := {comp_num}, m_edge_set := ∅, m_pexpr := some pexprLeft,
                    m_fUsed := false, m_parent_loj_id := loj_id + 1,
                    m_position := EPosition.EpLeft }
                  hinv hltL rfl (by simp)
                  (Or.inr ⟨by show (0 : Int) < loj_id + 1; omega, Or.inl rfl⟩)
                  (by omega) (le_refl _)
                  (by
                    intro i ci hi _ hideq
                    have := (hinv.2.1 i ci hi).2.2.2.2
                    simp only at hideq
                    omega)
                have hinvR := slotsInv_set (loj_id + 1) (loj_id + 1) (comp_num + 1) _
                  { m_pbs := {comp_num + 1}, m_edge_set := ∅, m_pexpr := some pexprRight,
                    m_fUsed := false, m_parent_loj_id := loj_id + 1,
                    m_position := EPosition.EpRight }
                  hinvL hltR rfl (by simp)
                  (Or.inr ⟨by show (0 : Int) < loj_id + 1; omega, Or.inr rfl⟩)
                  (le_refl _) (le_refl _)
                  (by
                    intro i ci hi _ hideq
                    by_cases hic : comp_num = i
                    · subst hic
                      rw [List.getElem?_set_self hltL] at hi
                      simp only [Option.some.injEq] at hi
                      subst hi
                      simp
                    · rw [List.getElem?_set_ne hic] at hi
                      have := (hinv.2.1 i ci hi).2.2.2.2
                      simp only at hideq
                      omega)
                exact ih _ _ _ _ hinvR h
    · split at h
      · cases h
      · rename_i slots1 hadd
        obtain ⟨hlt, rfl⟩ := addComponent_ok _ _ _ _ _ _ hadd
        have hinv1 := slotsInv_set loj_id loj_id comp_num rgpcomp
          { m_pbs := {comp_num}, m_edge_set := ∅, m_pexpr := some expr,
            m_fUsed := false, m_parent_loj_id := NON_LOJ_DEFAULT_ID,
            m_position := EPosition.EpSentinel }
          hinv hlt rfl (by simp) (Or.inl ⟨rfl, rfl⟩) (le_refl _) hinv.1
          (by
            intro i ci _ hpos
            simp [NON_LOJ_DEFAULT_ID] at hpos)
        exact ih _ _ _ _ hinv1 h

/-- The component array read after construction holds exactly the written
slots. -/
theorem components_ok (rgpcomp : List (Option SComponent)) (comps : List SComponent)
    (h : CJoinOrder.Components rgpcomp = .ok comps) : rgpcomp = comps.map some := by
  induction rgpcomp generalizing comps with
  | nil =>
    simp only [CJoinOrder.Components] at h
    cases h
    rfl
  | cons slot rest ih =>
    cases slot with
    | none =>
      simp only [CJoinOrder.Components] at h
      cases h
    | some comp =>
      simp only [CJoinOrder.Components] at h
      split at h
      · cases h
      · rename_i comps1 hrest
        cases h
        rw [ih comps1 hrest]
        rfl

/-- The loop invariant gives the facts about the finished component array. -/
theorem compsInv_of_slotsInv (loj_id : Int) (comp_num : Nat) (comps : List SComponent)
    (h : SlotsInv loj_id comp_num (comps.map some)) : CompsInv comps := by
  have hget : ∀ (i : Nat) (c : SComponent), comps[i]? = some c →
      (comps.map some)[i]? = some (some c) := by
    intro i c hi
    simp [hi]
  refine ⟨?_, ?_⟩
  · intro i c hi
    obtain ⟨-, a, b, c1, -⟩ := h.2.1 i c (hget i c hi)
    exact ⟨a, b, c1⟩
  · intro i j ci cj hi hj
    exact h.2.2 i j ci cj (hget i ci hi) (hget j cj hj)

/-- Before the loop no slot is written. -/
theorem slotsInv_replicate (n : Nat) : SlotsInv 0 0 (List.replicate n none) := by
  have hnone : ∀ (i : Nat) (c : SComponent),
      (List.replicate n (none : Option SComponent))[i]? ≠ some (some c) := by
    intro i c hi
    rw [List.getElem?_replicate] at hi
    split_ifs at hi
    cases hi
  exact ⟨le_refl _, fun i c hi => absurd hi (hnone i c),
    fun i _ ci _ hi => absurd hi (hnone i ci)⟩

/-- One visit of `ComputeEdgeCover` changes only incident-edge sets of
components (and covers of edges). -/
theorem computeEdgeCoverVisit_core (PcrsOutput : CExpression → CColRefSet) (ulEdge : Nat)
    (pcrsUsed : CColRefSet) (ulComp : Nat) (jo jo1 : CJoinOrder)
    (h : CJoinOrder.ComputeEdgeCoverVisit PcrsOutput ulEdge pcrsUsed ulComp jo = .ok jo1) :
    jo1.m_rgpcomp.map SComponent.Core = jo.m_rgpcomp.map SComponent.Core := by
  unfold CJoinOrder.ComputeEdgeCoverVisit at h
  split at h
  · cases h
  · rename_i comp hget
    split at h
    · cases h
    · simp only at h
      split_ifs at h
      · cases h
        rfl
      · split at h
        · cases h
        · cases h
          simp only
          rw [List.map_set]
          have : ({ comp with m_edge_set := insert ulEdge comp.m_edge_set } : SComponent).Core
              = comp.Core := rfl
          rw [this]
          apply List.ext_getElem?
          intro i
          by_cases hi : ulComp = i
          · subst hi
            have hlt : ulComp < (jo.m_rgpcomp.map SComponent.Core).length := by
              rw [List.length_map]
              rcases Nat.lt_or_ge ulComp jo.m_rgpcomp.length with hl | hl
              · exact hl
              · rw [List.getElem?_eq_none hl] at hget
                cases hget
            rw [List.getElem?_set_self hlt, List.getElem?_map, hget]
            rfl
          · rw [List.getElem?_set_ne hi]

/-- The inner loop of `ComputeEdgeCover` changes only incident-edge sets of
components. -/
theorem computeEdgeCoverComps_core (PcrsOutput : CExpression → CColRefSet) (ulEdge : Nat)
    (pcrsUsed : CColRefSet) (ulComps : List Nat) (jo jo1 : CJoinOrder)
    (h : CJoinOrder.ComputeEdgeCoverComps PcrsOutput ulEdge pcrsUsed ulComps jo = .ok jo1) :
    jo1.m_rgpcomp.map SComponent.Core = jo.m_rgpcomp.map SComponent.Core := by
  induction ulComps generalizing jo with
  | nil =>
    simp only [CJoinOrder.ComputeEdgeCoverComps] at h
    cases h
    rfl
  | cons ulComp rest ih =>
    simp only [CJoinOrder.ComputeEdgeCoverComps] at h
    split at h
    · cases h
    · rename_i jo2 hvisit
      rw [ih jo2 h, computeEdgeCoverVisit_core _ _ _ _ _ _ hvisit]

/-- The outer loop of `ComputeEdgeCover` changes only incident-edge sets of
components. -/
theorem computeEdgeCoverEdges_core (PcrsUsed PcrsOutput : CExpression → CColRefSet)
    (ulEdges : List Nat) (jo jo1 : CJoinOrder)
    (h : CJoinOrder.ComputeEdgeCoverEdges PcrsUsed PcrsOutput ulEdges jo = .ok jo1) :
    jo1.m_rgpcomp.map SComponent.Core = jo.m_rgpcomp.map SComponent.Core := by
  induction ulEdges generalizing jo with
  | nil =>
    simp only [CJoinOrder.ComputeEdgeCoverEdges] at h
    cases h
    rfl
  | cons ulEdge rest ih =>
    simp only [CJoinOrder.ComputeEdgeCoverEdges] at h
    split at h
    · cases h
    · split at h
      · cases h
      · rename_i jo2 hcomps
        rw [ih jo2 h, computeEdgeCoverComps_core _ _ _ _ _ _ hcomps]

/-- The facts about the component array do not depend on incident-edge sets. -/
theorem compsInv_of_core (comps comps1 : List SComponent)
    (hcore : comps1.map SComponent.Core = comps.map SComponent.Core)
    (h : CompsInv comps) : CompsInv comps1 := by
  have hget : ∀ (i : Nat) (c1 : SComponent), comps1[i]? = some c1 →
      ∃ c : SComponent, comps[i]? = some c ∧ c.Core = c1.Core := by
    intro i c1 hi
    have h1 : (comps1.map SComponent.Core)[i]? = some c1.Core := by
      rw [List.getElem?_map, hi]
      rfl
    rw [hcore, List.getElem?_map] at h1
    cases hc : comps[i]? with
    | none => rw [hc] at h1; cases h1
    | some c =>
      rw [hc] at h1
      simp only [Option.map_some', Option.some.injEq] at h1
      exact ⟨c, rfl, h1⟩
  refine ⟨?_, ?_⟩
  · intro i c1 hi
    obtain ⟨c, hc, hcore1⟩ := hget i c1 hi
    obtain ⟨a, b, d⟩ := h.1 i c hc
    simp only [SComponent.Core, Prod.mk.injEq] at hcore1
    obtain ⟨e1, e2, e3, e4⟩ := hcore1
    refine ⟨e1 ▸ a, e2 ▸ b, ?_⟩
    simp only [SComponent.WellFormedLoj] at d ⊢
    rw [← e3, ← e4]
    exact d
  · intro i j ci cj hi hj hpos hid hp
    obtain ⟨c, hc, hcore1⟩ := hget i ci hi
    obtain ⟨d, hd, hcore2⟩ := hget j cj hj
    simp only [SComponent.Core, Prod.mk.injEq] at hcore1 hcore2
    obtain ⟨-, -, e3, e4⟩ := hcore1
    obtain ⟨-, -, f3, f4⟩ := hcore2
    exact h.2 i j c d hc hd (e3 ▸ hpos) (by rw [e3, f3]; exact hid) (by rw [e4, f4]; exact hp)

/-- The component array of a constructed core: every component covers exactly
its own slot, carries a payload and well-formed provenance, and no two slots
carry the same positive LOJ id with the same position. -/
theorem ctor_compsInv (PcrsUsed PcrsOutput : CExpression → CColRefSet)
    (pdrgpexpr pdrgpexprConj : List CExpression) (include_loj_childs : Bool)
    (jo : CJoinOrder)
    (h : CJoinOrder.Ctor PcrsUsed PcrsOutput pdrgpexpr pdrgpexprConj include_loj_childs =
      .ok jo) :
    CompsInv jo.m_rgpcomp := by
  unfold CJoinOrder.Ctor at h
  simp only at h
  split at h
  · cases h
  · rename_i slots conj hadd
    split at h
    · cases h
    · rename_i comps hcomps
      obtain ⟨k, n, hinv⟩ := addComponents_inv _ _ _ _ _ _ _ _ (slotsInv_replicate _) hadd
      rw [components_ok _ _ hcomps] at hinv
      have hci := compsInv_of_slotsInv k n comps hinv
      unfold CJoinOrder.ComputeEdgeCover at h
      exact compsInv_of_core _ _ (computeEdgeCoverEdges_core _ _ _ _ _ h) hci

/-! ## The right child of an exploded LOJ stays with its left sibling -/

/-- An original component of a constructed core satisfies the closure
invariant. -/
theorem closureInv_original (jo : CJoinOrder) (hinv : CompsInv jo.m_rgpcomp)
    (comp : SComponent) (hmem : comp ∈ jo.m_rgpcomp) : ClosureInv jo comp := by
  obtain ⟨i, hi⟩ := List.mem_iff_getElem?.mp hmem
  obtain ⟨hpbs, hpexpr, hwf⟩ := hinv.1 i comp hi
  refine ⟨hpexpr, hwf, fun _ => hmem, ?_, ?_⟩
  · intro l r compL compR hloj hr
    left
    rw [hpbs, Finset.mem_singleton] at hr
    subst hr
    have := hloj.2.1
    rw [hi] at this
    exact Option.some.inj this
  · intro hleft l compL hl hid hpos
    have hposId : 0 < comp.m_parent_loj_id := by
      rcases hwf with ⟨_, hs⟩ | ⟨hp, _⟩
      · rw [hleft] at hs
        cases hs
      · exact hp
    have := hinv.2 i l comp compL hi hl hposId hid.symm (hleft.trans hpos.symm)
    rw [hpbs, Finset.mem_singleton]
    exact this.symm

/-- The positions of siblings. -/
theorem isChildOfSameLOJ_cases (comp1 comp2 : SComponent)
    (h : CJoinOrder.IsChildOfSameLOJ comp1 comp2 = true) :
    comp1.m_parent_loj_id = comp2.m_parent_loj_id ∧
      ((comp1.m_position = EPosition.EpLeft ∧ comp2.m_position = EPosition.EpRight) ∨
        (comp1.m_position = EPosition.EpRight ∧ comp2.m_position = EPosition.EpLeft)) := by
  simp only [CJoinOrder.IsChildOfSameLOJ, SComponent.ParentLojId, SComponent.Position,
    decide_eq_true_eq] at h
  exact ⟨h.1, h.2.2⟩

/-- The cover of a left child joined with its right sibling keeps the closure
invariant clause on exploded LOJs. -/
theorem closureInv_pairs_siblings (jo : CJoinOrder) (hinv : CompsInv jo.m_rgpcomp)
    (compA compB : SComponent) (hA : ClosureInv jo compA) (hB : ClosureInv jo compB)
    (hid : compA.m_parent_loj_id = compB.m_parent_loj_id)
    (hposA : compA.m_position = EPosition.EpLeft)
    (hposB : compB.m_position = EPosition.EpRight)
    (l r : Nat) (compL compR : SComponent) (hloj : jo.ExplodedLoj l r compL compR)
    (hr : r ∈ compA.m_pbs ∪ compB.m_pbs) : l ∈ compA.m_pbs ∪ compB.m_pbs := by
  rw [Finset.mem_union] at hr ⊢
  left
  rcases hr with hr | hr
  · rcases hA.2.2.2.1 l r compL compR hloj hr with heq | hl
    · have := hloj.2.2.2.2.2
      rw [← heq, hposA] at this
      cases this
    · exact hl
  · obtain ⟨j, hj⟩ := List.mem_iff_getElem?.mp (hB.2.2.1 hposB)
    have hpbsB := (hinv.1 j compB hj).1
    rw [hpbsB, Finset.mem_singleton] at hr
    subst hr
    have hcr : compR = compB := by
      have := hloj.2.1
      rw [hj] at this
      exact (Option.some.inj this).symm
    apply hA.2.2.2.2 hposA l compL hloj.1 _ hloj.2.2.2.2.1
    rw [hloj.2.2.2.1, hcr, hid]

/-- `PcompCombine` keeps the closure invariant. -/
theorem closureInv_combine (jo : CJoinOrder) (hinv : CompsInv jo.m_rgpcomp)
    (comp1 comp2 comp : SComponent) (h1 : ClosureInv jo comp1) (h2 : ClosureInv jo comp2)
    (hcomb : jo.PcompCombine comp1 comp2 = .ok comp) : ClosureInv jo comp := by
  obtain ⟨hv, pexpr, id, pos, hnode, h485, h99, hc⟩ := pcompCombine_ok jo comp1 comp2 comp hcomb
  obtain ⟨pexpr1, hp1⟩ := Option.ne_none_iff_exists'.mp h1.1
  obtain ⟨pexpr2, hp2⟩ := Option.ne_none_iff_exists'.mp h2.1
  by_cases hsib : CJoinOrder.IsChildOfSameLOJ comp1 comp2 = true
  · rw [pcompCombineNode_siblings comp1 comp2 pexpr1 pexpr2 _ hp1 hp2 hsib] at hnode
    simp only [Except.ok.injEq, Prod.mk.injEq] at hnode
    obtain ⟨-, rfl, rfl⟩ := hnode
    subst hc
    obtain ⟨hid, hpos⟩ := isChildOfSameLOJ_cases comp1 comp2 hsib
    refine ⟨by simp, Or.inl ⟨rfl, rfl⟩, ?_, ?_, ?_⟩
    · intro h
      cases h
    · intro l r compL compR hloj hr
      right
      rcases hpos with ⟨pa, pb⟩ | ⟨pa, pb⟩
      · exact closureInv_pairs_siblings jo hinv comp1 comp2 h1 h2 hid pa pb l r compL compR
          hloj hr
      · have := closureInv_pairs_siblings jo hinv comp2 comp1 h2 h1 hid.symm pb pa l r
          compL compR hloj (by simp only at hr; rw [Finset.union_comm]; exact hr)
        simp only
        rw [Finset.union_comm]
        exact this
    · intro h
      cases h
  · have hsib' : CJoinOrder.IsChildOfSameLOJ comp1 comp2 = false := by
      simpa using hsib
    obtain ⟨id', pos', hnode', -, -, hA, hB, hC, hwf, hn1, hn2, hsrc⟩ :=
      pcompCombineNode_inner comp1 comp2 pexpr1 pexpr2
        (PexprConjunction (CJoinOrder.CollectEdges (comp1.m_pbs ∪ comp2.m_pbs)
          jo.m_rgpedge [])) hp1 hp2 h1.2.1 h2.2.1 hv hsib'
    rw [hnode'] at hnode
    simp only [Except.ok.injEq, Prod.mk.injEq] at hnode
    obtain ⟨-, rfl, rfl⟩ := hnode
    subst hc
    refine ⟨by simp, hwf, ?_, ?_, ?_⟩
    · intro h
      simp only at h
      rcases hwf with ⟨_, hs⟩ | ⟨hp, _⟩
      · rw [h] at hs
        cases hs
      · have := h485 hp
        rw [h] at this
        cases this
    · intro l r compL compR hloj hr
      right
      simp only [Finset.mem_union] at hr ⊢
      rcases hr with hr | hr
      · rcases h1.2.2.2.1 l r compL compR hloj hr with heq | hl
        · exact absurd (heq ▸ hloj.2.2.2.2.2) hn1
        · exact Or.inl hl
      · rcases h2.2.2.2.1 l r compL compR hloj hr with heq | hl
        · exact absurd (heq ▸ hloj.2.2.2.2.2) hn2
        · exact Or.inr hl
    · intro hleft l compL hl hid hpos
      simp only [Finset.mem_union]
      simp only at hleft hid
      rcases hsrc hleft with ⟨hp, hi⟩ | ⟨hp, hi⟩
      · exact Or.inl (h1.2.2.2.2 hp l compL hl (hid.trans hi.symm) hpos)
      · exact Or.inr (h2.2.2.2.2 hp l compL hl (hid.trans hi.symm) hpos)

/-- The closure invariant reads the component array only: it holds in every
core with the same component array. -/
theorem closureInv_congr (jo jo1 : CJoinOrder) (h : jo1.m_rgpcomp = jo.m_rgpcomp)
    (comp : SComponent) (hc : ClosureInv jo comp) : ClosureInv jo1 comp := by
  unfold ClosureInv CJoinOrder.ExplodedLoj at *
  rw [h]
  exact hc

/-- Every component of the closure of a constructed core satisfies the closure
invariant, in whichever reached state each combination was made. -/
theorem closureInv_of_validClosure (jo : CJoinOrder) (hinv : CompsInv jo.m_rgpcomp)
    (comp : SComponent) (h : jo.ValidClosure comp) : ClosureInv jo comp := by
  induction h with
  | original comp hmem => exact closureInv_original jo hinv comp hmem
  | combine comp1 comp2 comp _ _ _ calls jo1 hcalls hcomb ih1 ih2 =>
    have hcomps : jo1.m_rgpcomp = jo.m_rgpcomp := (calls_gain jo jo1 calls hcalls).2.1
    have hinv1 : CompsInv jo1.m_rgpcomp := by
      rw [hcomps]
      exact hinv
    exact closureInv_congr jo1 jo hcomps.symm comp
      (closureInv_combine jo1 hinv1 comp1 comp2 comp
        (closureInv_congr jo jo1 hcomps comp1 ih1) (closureInv_congr jo jo1 hcomps comp2 ih2)
        hcomb)

/-! ## The example cores are what the code computes -/

/-- The example cores are the results of the constructor and of
`MarkUsedEdges` on them. -/
theorem exCore_computed :
    CJoinOrder.Ctor CExpression.PcrsSubtree CExpression.PcrsSubtree exChildren [exCmp 1 2]
        true = .ok exCore ∧
      exCore.PcompCombine (exComp (some (exGet 3)) {2} {1} 1 .EpLeft)
        (exComp (some (exGet 4)) {3} {1} 1 .EpRight) = .ok exComp34 ∧
      exCore.MarkUsedEdges exComp34 = .ok exCoreMarked :=
  ⟨by decide!, by decide!, by decide!⟩

/-! # The claims -/

/-- C1: for every two components whose LOJ provenance is well formed (none:
id `0` with the sentinel position; or present: id greater than `0` with
position left or right), `IsValidJoinCombination` returns `true` exactly when
neither has provenance, or both have it with the same id and opposite
positions, or exactly one has it and that one is a left child; in every other
case it returns `false`. -/
theorem C1_isValidJoinCombination_cases (comp1 comp2 : SComponent)
    (h1 : comp1.WellFormedLoj) (h2 : comp2.WellFormedLoj) :
    CJoinOrder.IsValidJoinCombination comp1 comp2 = .ok (decide (LegalBySpec comp1 comp2)) :=
  isValidJoinCombination_wellFormed comp1 comp2 h1 h2

/-- C1 at a right child and an untagged component: the pair is rejected. -/
theorem C1_isValidJoinCombination_cases_witness :
    (exComp (some (exGet 4)) {3} {1} 1 .EpRight).WellFormedLoj ∧
      (exComp (some (exGet 1)) {0} {0} 0 .EpSentinel).WellFormedLoj ∧
      CJoinOrder.IsValidJoinCombination (exComp (some (exGet 4)) {3} {1} 1 .EpRight)
          (exComp (some (exGet 1)) {0} {0} 0 .EpSentinel) =
        .ok (decide (LegalBySpec (exComp (some (exGet 4)) {3} {1} 1 .EpRight)
          (exComp (some (exGet 1)) {0} {0} 0 .EpSentinel))) :=
  ⟨by decide, by decide,
    C1_isValidJoinCombination_cases _ _ (by decide) (by decide)⟩

/-- C2: in a core built by the constructor with LOJ explosion enabled, take the
components obtained from the original components by `PcompCombine` on legal
pairs, each call made in any state the core has reached through `PcompCombine`
and `MarkUsedEdges` calls. Every such component that covers the right child
`r` of an exploded LOJ is that right child itself, with cover exactly `{r}`,
or also covers the left child `l`. -/
theorem C2_right_child_stays_with_left_sibling
    (PcrsUsed PcrsOutput : CExpression → CColRefSet)
    (pdrgpexpr pdrgpexprConj : List CExpression) (jo : CJoinOrder)
    (hctor : CJoinOrder.Ctor PcrsUsed PcrsOutput pdrgpexpr pdrgpexprConj true = .ok jo)
    (comp : SComponent) (hcl : jo.ValidClosure comp)
    (l r : Nat) (compL compR : SComponent) (hloj : jo.ExplodedLoj l r compL compR)
    (hr : r ∈ comp.m_pbs) :
    (comp = compR ∧ comp.m_pbs = {r}) ∨ l ∈ comp.m_pbs := by
  have hinv := ctor_compsInv PcrsUsed PcrsOutput pdrgpexpr pdrgpexprConj true jo hctor
  rcases (closureInv_of_validClosure jo hinv comp hcl).2.2.2.1 l r compL compR hloj hr with
    heq | hl
  · left
    refine ⟨heq, ?_⟩
    rw [heq]
    exact (hinv.1 r compR hloj.2.1).1
  · exact Or.inr hl

/-- C2 at the example core: the inner join of `Get(t1)` with the left outer
join of the two LOJ children, built in the state after `MarkUsedEdges` on that
left outer join, covers the right child at slot 3 and the left child at
slot 2. -/
theorem C2_right_child_stays_with_left_sibling_witness :
    (exComp341 = exComp (some (exGet 4)) {3} {1} 1 .EpRight ∧ exComp341.m_pbs = {3}) ∨
      2 ∈ exComp341.m_pbs :=
  C2_right_child_stays_with_left_sibling CExpression.PcrsSubtree CExpression.PcrsSubtree
    exChildren [exCmp 1 2] exCore (by decide!) exComp341
    (CJoinOrder.ValidClosure.combine exComp34 (exComp (some (exGet 1)) {0} {0} 0 .EpSentinel)
      exComp341
      (CJoinOrder.ValidClosure.combine
        (exComp (some (exGet 3)) {2} {1} 1 .EpLeft)
        (exComp (some (exGet 4)) {3} {1} 1 .EpRight)
        exComp34
        (CJoinOrder.ValidClosure.original _ (by decide!))
        (CJoinOrder.ValidClosure.original _ (by decide!))
        (by decide!) [] exCore (by decide!) (by decide!))
      (CJoinOrder.ValidClosure.original _ (by decide!))
      (by decide!) [.MarkUsedEdges exComp34] exCoreMarked (by decide!) (by decide!))
    2 3 (exComp (some (exGet 3)) {2} {1} 1 .EpLeft) (exComp (some (exGet 4)) {3} {1} 1 .EpRight)
    (by decide!) (by decide!)

/-- C3: for two payload-bearing components that are siblings
(`IsChildOfSameLOJ`), `PcompCombine` returns, in both argument orders, the same
component: its payload is the left outer join whose left input is the payload
of the left-tagged component, whose right input is the payload of the
right-tagged one and whose condition is the collected conjunction, and it
carries no LOJ provenance (id `0`, sentinel position). -/
theorem C3_pcompCombine_siblings (jo : CJoinOrder) (comp1 comp2 : SComponent)
    (pexpr1 pexpr2 : CExpression)
    (h1 : comp1.m_pexpr = some pexpr1) (h2 : comp2.m_pexpr = some pexpr2)
    (hc1 : comp1.CtorContract) (hc2 : comp2.CtorContract)
    (hsib : CJoinOrder.IsChildOfSameLOJ comp1 comp2 = true) :
    ∃ comp : SComponent,
      jo.PcompCombine comp1 comp2 = .ok comp ∧
      jo.PcompCombine comp2 comp1 = .ok comp ∧
      comp.m_pexpr = some (PexprLogicalJoin .EopLogicalLeftOuterJoin
        (if comp1.m_position = EPosition.EpLeft then pexpr1 else pexpr2)
        (if comp1.m_position = EPosition.EpLeft then pexpr2 else pexpr1)
        (PexprConjunction (CJoinOrder.CollectEdges (comp1.m_pbs ∪ comp2.m_pbs)
          jo.m_rgpedge []))) ∧
      ((comp1.m_position = EPosition.EpLeft ∧ comp2.m_position = EPosition.EpRight) ∨
        (comp1.m_position = EPosition.EpRight ∧ comp2.m_position = EPosition.EpLeft)) ∧
      comp.m_parent_loj_id = 0 ∧ comp.m_position = EPosition.EpSentinel := by
  have hsib' : CJoinOrder.IsChildOfSameLOJ comp2 comp1 = true := by
    rw [isChildOfSameLOJ_comm]; exact hsib
  have hpos := (isChildOfSameLOJ_cases comp1 comp2 hsib).2
  have hA := pcompCombine_of_node jo comp1 comp2 _ _ _
    (isValidJoinCombination_siblings comp1 comp2 hc1 hsib)
    (pcompCombineNode_siblings comp1 comp2 pexpr1 pexpr2 _ h1 h2 hsib)
    (fun h => absurd h (by simp [NON_LOJ_DEFAULT_ID])) (fun h => absurd rfl h)
  have hB := pcompCombine_of_node jo comp2 comp1 _ _ _
    (isValidJoinCombination_siblings comp2 comp1 hc2 hsib')
    (pcompCombineNode_siblings comp2 comp1 pexpr2 pexpr1 _ h2 h1 hsib')
    (fun h => absurd h (by simp [NON_LOJ_DEFAULT_ID])) (fun h => absurd rfl h)
  refine ⟨_, hA, ?_, rfl, hpos, rfl, rfl⟩
  rw [hB, Finset.union_comm comp2.m_pbs, Finset.union_comm comp2.m_edge_set]
  rcases hpos with ⟨p1, p2⟩ | ⟨p1, p2⟩ <;> simp [p1, p2]

/-- C3 at the example core, right child given first: both orders return the
left outer join with `Get(t3)` on the left. -/
theorem C3_pcompCombine_siblings_witness :
    exCore.PcompCombine (exComp (some (exGet 4)) {3} {1} 1 .EpRight)
        (exComp (some (exGet 3)) {2} {1} 1 .EpLeft) = .ok exComp34 ∧
      exCore.PcompCombine (exComp (some (exGet 3)) {2} {1} 1 .EpLeft)
        (exComp (some (exGet 4)) {3} {1} 1 .EpRight) = .ok exComp34 := by
  obtain ⟨comp, hA, hB, hp, -, hid, hpos⟩ := C3_pcompCombine_siblings exCore
    (exComp (some (exGet 4)) {3} {1} 1 .EpRight) (exComp (some (exGet 3)) {2} {1} 1 .EpLeft)
    (exGet 4) (exGet 3) rfl rfl (by decide) (by decide) (by decide)
  have hcomp : exCore.PcompCombine (exComp (some (exGet 4)) {3} {1} 1 .EpRight)
      (exComp (some (exGet 3)) {2} {1} 1 .EpLeft) = .ok exComp34 := by decide!
  have heq : comp = exComp34 := by
    rw [hA] at hcomp
    exact Except.ok.inj hcomp
  rw [heq] at hA hB
  exact ⟨hA, hB⟩

/-- C4: the list of predicates `PcompCombine` conjoins is, in edge-array order,
the payloads of the edges that are not used and whose incident components are
all in `comp1.m_pbs ∪ comp2.m_pbs`; when no edge qualifies the list is empty;
and the conjunction of that list is the condition (last child) of the node of
every component `PcompCombine` returns. -/
theorem C4_collected_predicates (jo : CJoinOrder) (comp1 comp2 : SComponent) :
    CJoinOrder.CollectEdges (comp1.m_pbs ∪ comp2.m_pbs) jo.m_rgpedge [] =
        jo.SubsumedUnusedEdges (comp1.m_pbs ∪ comp2.m_pbs) ∧
      ((∀ pedge ∈ jo.m_rgpedge,
          pedge.m_fUsed = true ∨ ¬ pedge.m_pbs ⊆ comp1.m_pbs ∪ comp2.m_pbs) →
        CJoinOrder.CollectEdges (comp1.m_pbs ∪ comp2.m_pbs) jo.m_rgpedge [] = []) ∧
      ∀ comp : SComponent, jo.PcompCombine comp1 comp2 = .ok comp →
        ∃ pexpr : CExpression, comp.m_pexpr = some pexpr ∧
          pexpr.children.getLast? =
            some (PexprConjunction (jo.SubsumedUnusedEdges (comp1.m_pbs ∪ comp2.m_pbs))) := by
  have hcol : CJoinOrder.CollectEdges (comp1.m_pbs ∪ comp2.m_pbs) jo.m_rgpedge [] =
      jo.SubsumedUnusedEdges (comp1.m_pbs ∪ comp2.m_pbs) := by
    rw [collectEdges_eq_filter]
    rfl
  refine ⟨hcol, ?_, ?_⟩
  · intro hnone
    rw [collectEdges_eq_filter]
    simp only [List.nil_append, List.map_eq_nil_iff, List.filter_eq_nil_iff]
    intro pedge hmem
    rcases hnone pedge hmem with hu | hs
    · simp [hu]
    · simp [hs]
  · intro comp h
    obtain ⟨-, pexpr, id, pos, hnode, -, -, hc⟩ := pcompCombine_ok jo comp1 comp2 comp h
    subst hc
    refine ⟨pexpr, rfl, ?_⟩
    rw [← hcol]
    exact pcompCombineNode_scalar _ _ _ _ _ _ hnode

/-- C4 at the example core after `p34` was marked used: joining the two untagged
components collects `p12` only, and it is the condition of the join. -/
theorem C4_collected_predicates_witness :
    CJoinOrder.CollectEdges ({0} ∪ {1}) exCoreMarked.m_rgpedge [] = [exCmp 1 2] ∧
      ∃ pexpr : CExpression,
        (exComp (some (PexprLogicalJoin .EopLogicalInnerJoin (exGet 1) (exGet 2)
          (PexprConjunction [exCmp 1 2]))) {0, 1} {0} 0 .EpSentinel).m_pexpr = some pexpr ∧
        pexpr.children.getLast? = some (PexprConjunction
          (exCoreMarked.SubsumedUnusedEdges ({0} ∪ {1}))) :=
  ⟨by decide!,
    (C4_collected_predicates exCoreMarked (exComp (some (exGet 1)) {0} {0} 0 .EpSentinel)
      (exComp (some (exGet 2)) {1} {0} 0 .EpSentinel)).2.2 _ (by decide!)⟩

/-- C5, at the failing input: a core with a predicate that references no
column of any component. The join of the first two components collects that
predicate; `MarkUsedEdges` on the result marks `p12` but leaves the predicate
unmarked; the next `PcompCombine` collects it again. -/
theorem C5_constant_predicate_collected_again :
    CJoinOrder.Ctor CExpression.PcrsSubtree CExpression.PcrsSubtree
        [exGet 1, exGet 2, exGet 3] [exConst, exCmp 1 2] true = .ok exCoreConst ∧
      exCoreConst.PcompCombine (exComp (some (exGet 1)) {0} {1} 0 .EpSentinel)
        (exComp (some (exGet 2)) {1} {1} 0 .EpSentinel) = .ok exComp12 ∧
      CJoinOrder.CollectEdges ({0} ∪ {1}) exCoreConst.m_rgpedge [] = [exConst, exCmp 1 2] ∧
      exCoreConst.MarkUsedEdges exComp12 =
        .ok { exCoreConst with
              m_rgpedge := [⟨∅, exConst, false⟩, ⟨{0, 1}, exCmp 1 2, true⟩] } ∧
      CJoinOrder.CollectEdges (exComp12.m_pbs ∪ {2})
        [⟨∅, exConst, false⟩, ⟨{0, 1}, exCmp 1 2, true⟩] [] = [exConst] := by
  refine ⟨by decide!, by decide!, by decide!, by decide!, by decide!⟩

/-- C6: over every sequence of `PcompCombine` and `MarkUsedEdges` calls the
edge array keeps its length, covers and predicates, and a used flag that is
set stays set; and an edge that is used before the sequence contributes
nothing to the list any `PcompCombine` call conjoins after it: the loop
collects the same list as on the edge array without that edge. -/
theorem C6_used_edge_never_collected (jo jo1 : CJoinOrder) (calls : List ECall)
    (h : jo.Calls calls = .ok jo1) :
    EdgesGainUsed jo.m_rgpedge jo1.m_rgpedge ∧
      ∀ (i : Nat) (pedge : SEdge), jo.m_rgpedge[i]? = some pedge → pedge.m_fUsed = true →
        ∀ comp1 comp2 : SComponent,
          CJoinOrder.CollectEdges (comp1.m_pbs ∪ comp2.m_pbs) jo1.m_rgpedge [] =
            CJoinOrder.CollectEdges (comp1.m_pbs ∪ comp2.m_pbs) (jo1.m_rgpedge.eraseIdx i)
              [] := by
  obtain ⟨hg, -, -⟩ := calls_gain jo jo1 calls h
  refine ⟨hg, ?_⟩
  intro i pedge hi hu comp1 comp2
  obtain ⟨p1, hp1, -, -, hu1⟩ := hg.2 i pedge hi
  exact collectEdges_eraseIdx _ _ i p1 _ hp1 (hu1 hu)

/-- C6 at the example core after `p34` was marked used: after one more
`PcompCombine` and one more `MarkUsedEdges`, the edge `p34` contributes nothing
to a combination that covers all four components. -/
theorem C6_used_edge_never_collected_witness :
    EdgesGainUsed exCoreMarked.m_rgpedge
        [⟨{0, 1}, exCmp 1 2, true⟩, ⟨{2, 3}, exCmp 3 4, true⟩] ∧
      CJoinOrder.CollectEdges ({0, 1} ∪ {2, 3})
          [⟨{0, 1}, exCmp 1 2, true⟩, ⟨{2, 3}, exCmp 3 4, true⟩] [] =
        CJoinOrder.CollectEdges ({0, 1} ∪ {2, 3})
          ([⟨{0, 1}, exCmp 1 2, true⟩, ⟨{2, 3}, exCmp 3 4, true⟩].eraseIdx 1) [] :=
  have hcalls : exCoreMarked.Calls
      [.PcompCombine (exComp (some (exGet 1)) {0} {0} 0 .EpSentinel)
          (exComp (some (exGet 2)) {1} {0} 0 .EpSentinel),
        .MarkUsedEdges (exComp (some (PexprLogicalJoin .EopLogicalInnerJoin (exGet 1)
          (exGet 2) (PexprConjunction [exCmp 1 2]))) {0, 1} {0} 0 .EpSentinel)] =
      .ok { exCore with
            m_rgpedge := [⟨{0, 1}, exCmp 1 2, true⟩, ⟨{2, 3}, exCmp 3 4, true⟩] } := by
    decide!
  ⟨(C6_used_edge_never_collected _ _ _ hcalls).1,
    (C6_used_edge_never_collected _ _ _ hcalls).2 1 ⟨{2, 3}, exCmp 3 4, true⟩ (by decide!) rfl
      (exComp none {0, 1} ∅ 0 .EpSentinel) (exComp none {2, 3} ∅ 0 .EpSentinel)⟩

/-- C7, at the failing input: for a component with id `1` and the sentinel
position and a left child of LOJ `1`, `IsValidJoinCombination` returns no
Boolean; the assertion of line 601 fails. -/
theorem C7_not_total_counterexample :
    ¬ ∃ b : Bool, CJoinOrder.IsValidJoinCombination
      (exComp (some (exGet 3)) {2} ∅ 1 .EpSentinel)
      (exComp (some (exGet 4)) {3} ∅ 1 .EpLeft) = .ok b := by
  rintro ⟨b, hb⟩
  cases b <;> exact absurd hb (by decide)

/-- C7, amended: `IsValidJoinCombination` is symmetric on every pair of
components, whatever their ids and positions (both orders end the same way),
and it returns a Boolean on every pair except those where the two ids are the
same positive id and one of the positions is the sentinel; on those the
assertion of line 601 fails. -/
theorem C7_isValidJoinCombination_symmetric (comp1 comp2 : SComponent) :
    CJoinOrder.IsValidJoinCombination comp1 comp2 =
        CJoinOrder.IsValidJoinCombination comp2 comp1 ∧
      ((∃ b : Bool, CJoinOrder.IsValidJoinCombination comp1 comp2 = .ok b) ↔
        ¬ (0 < comp1.m_parent_loj_id ∧ comp1.m_parent_loj_id = comp2.m_parent_loj_id ∧
          (comp1.m_position = EPosition.EpSentinel ∨
            comp2.m_position = EPosition.EpSentinel))) :=
  ⟨isValidJoinCombination_comm comp1 comp2, isValidJoinCombination_total_iff comp1 comp2⟩

/-- C8: for two payload-bearing components with well-formed provenance that
form a legal pair and are not siblings, `PcompCombine` returns a component
whose payload is the inner join of the payload of `comp1`, the payload of
`comp2` and the collected conjunction; if exactly one input has LOJ provenance
that input is a left child and the result carries its id with position left;
if neither has, the result has none. -/
theorem C8_pcompCombine_inner_join (jo : CJoinOrder) (comp1 comp2 : SComponent)
    (pexpr1 pexpr2 : CExpression)
    (h1 : comp1.m_pexpr = some pexpr1) (h2 : comp2.m_pexpr = some pexpr2)
    (hw1 : comp1.WellFormedLoj) (hw2 : comp2.WellFormedLoj)
    (hv : CJoinOrder.IsValidJoinCombination comp1 comp2 = .ok true)
    (hsib : CJoinOrder.IsChildOfSameLOJ comp1 comp2 = false) :
    ∃ comp : SComponent,
      jo.PcompCombine comp1 comp2 = .ok comp ∧
      comp.m_pexpr = some (PexprLogicalJoin .EopLogicalInnerJoin pexpr1 pexpr2
        (PexprConjunction (CJoinOrder.CollectEdges (comp1.m_pbs ∪ comp2.m_pbs)
          jo.m_rgpedge []))) ∧
      (0 < comp1.m_parent_loj_id → comp2.m_parent_loj_id = 0 →
        comp1.m_position = EPosition.EpLeft ∧
          comp.m_parent_loj_id = comp1.m_parent_loj_id ∧
          comp.m_position = EPosition.EpLeft) ∧
      (comp1.m_parent_loj_id = 0 → 0 < comp2.m_parent_loj_id →
        comp2.m_position = EPosition.EpLeft ∧
          comp.m_parent_loj_id = comp2.m_parent_loj_id ∧
          comp.m_position = EPosition.EpLeft) ∧
      (comp1.m_parent_loj_id = 0 → comp2.m_parent_loj_id = 0 →
        comp.m_parent_loj_id = 0 ∧ comp.m_position = EPosition.EpSentinel) := by
  obtain ⟨id, pos, hnode, h485, h99, hA, hB, hC, -⟩ :=
    pcompCombineNode_inner comp1 comp2 pexpr1 pexpr2
      (PexprConjunction (CJoinOrder.CollectEdges (comp1.m_pbs ∪ comp2.m_pbs) jo.m_rgpedge []))
      h1 h2 hw1 hw2 hv hsib
  exact ⟨_, pcompCombine_of_node jo comp1 comp2 _ id pos hv hnode h485 h99, rfl, hA, hB, hC⟩

/-- C8 at the example core: `Get(t1)` joined with the left child `Get(t3)`
gives an inner join tagged `(1, Left)`. -/
theorem C8_pcompCombine_inner_join_witness :
    ∃ comp : SComponent,
      exCore.PcompCombine (exComp (some (exGet 1)) {0} {0} 0 .EpSentinel)
        (exComp (some (exGet 3)) {2} {1} 1 .EpLeft) = .ok comp ∧
      comp.m_pexpr = some (PexprLogicalJoin .EopLogicalInnerJoin (exGet 1) (exGet 3)
        (PexprConjunction [])) ∧
      comp.m_parent_loj_id = 1 ∧ comp.m_position = EPosition.EpLeft := by
  obtain ⟨comp, hcomb, hp, -, hB, -⟩ := C8_pcompCombine_inner_join exCore
    (exComp (some (exGet 1)) {0} {0} 0 .EpSentinel) (exComp (some (exGet 3)) {2} {1} 1 .EpLeft)
    (exGet 1) (exGet 3) rfl rfl (by decide) (by decide) (by decide) (by decide)
  obtain ⟨-, hid, hpos⟩ := hB rfl (by decide)
  refine ⟨comp, hcomb, ?_, hid, hpos⟩
  rw [hp]
  decide!

/-- C9: the component returned by `PcompCombine` has cover
`comp1.m_pbs ∪ comp2.m_pbs` and incident-edge set
`comp1.m_edge_set ∪ comp2.m_edge_set`, whichever node was built, and the call
leaves the core (component array, edges and their used flags) as it was. -/
theorem C9_pcompCombine_unions (jo : CJoinOrder) (comp1 comp2 comp : SComponent)
    (h : jo.PcompCombine comp1 comp2 = .ok comp) :
    comp.m_pbs = comp1.m_pbs ∪ comp2.m_pbs ∧
      comp.m_edge_set = comp1.m_edge_set ∪ comp2.m_edge_set ∧
      jo.Call (.PcompCombine comp1 comp2) = .ok jo := by
  obtain ⟨-, pexpr, id, pos, -, -, -, hc⟩ := pcompCombine_ok jo comp1 comp2 comp h
  subst hc
  refine ⟨rfl, rfl, ?_⟩
  simp only [CJoinOrder.Call, h]

/-- C9 on the three construction paths of the example core: the left outer join
of the LOJ children, the inner join of the untagged components, and the
filter over `Get(t1)` combined with a placeholder. -/
theorem C9_pcompCombine_unions_witness :
    (exComp34.m_pbs = {2} ∪ {3} ∧ exComp34.m_edge_set = {1} ∪ {1} ∧
      exCore.Call (.PcompCombine (exComp (some (exGet 3)) {2} {1} 1 .EpLeft)
        (exComp (some (exGet 4)) {3} {1} 1 .EpRight)) = .ok exCore) ∧
    ((exComp (some (PexprLogicalJoin .EopLogicalInnerJoin (exGet 1) (exGet 2)
        (PexprConjunction [exCmp 1 2]))) {0, 1} {0} 0 .EpSentinel).m_pbs = {0} ∪ {1}) ∧
    ((exComp (some (PexprCollapseSelect (exGet 1) (PexprConjunction []))) {0} {0} 0
        .EpSentinel).m_edge_set = ∅ ∪ {0}) :=
  ⟨C9_pcompCombine_unions exCore (exComp (some (exGet 3)) {2} {1} 1 .EpLeft)
      (exComp (some (exGet 4)) {3} {1} 1 .EpRight) exComp34 (by decide!),
    (C9_pcompCombine_unions exCore (exComp (some (exGet 1)) {0} {0} 0 .EpSentinel)
      (exComp (some (exGet 2)) {1} {0} 0 .EpSentinel) _ (by decide!)).1,
    (C9_pcompCombine_unions exCore (exComp none ∅ ∅ 0 .EpSentinel)
      (exComp (some (exGet 1)) {0} {0} 0 .EpSentinel) _ (by decide!)).2.1⟩

/-- Both constructors fail their assertion when the position is left or right
and the id is not greater than `0`. -/
theorem ctor_fails (pexpr : Option CExpression) (pbs edge_set : CBitSet) (id : Int)
    (pos : EPosition) (hpos : pos ≠ EPosition.EpSentinel) (hid : ¬ 0 < id) :
    SComponent.Ctor pexpr id pos = .error (.AssertFailed 78) ∧
      SComponent.CtorSets pexpr pbs edge_set id pos = .error (.AssertFailed 99) := by
  have h1 : (EPosition.EpSentinel = pos) = False := by
    simp only [eq_iff_iff, iff_false]
    exact fun h => hpos h.symm
  simp [SComponent.Ctor, SComponent.CtorSets, GPOS_ASSERT_IMP, GPOS_ASSERT, NON_LOJ_DEFAULT_ID,
    h1, hid]

/-- Both constructors return a component when the position is the sentinel or
the id is greater than `0`. -/
theorem ctor_succeeds (pexpr : Option CExpression) (pbs edge_set : CBitSet) (id : Int)
    (pos : EPosition) (h : pos = EPosition.EpSentinel ∨ 0 < id) :
    SComponent.Ctor pexpr id pos =
        .ok { m_pbs := ∅, m_edge_set := ∅, m_pexpr := pexpr, m_fUsed := false,
              m_parent_loj_id := id, m_position := pos } ∧
      SComponent.CtorSets pexpr pbs edge_set id pos =
        .ok { m_pbs := pbs, m_edge_set := edge_set, m_pexpr := pexpr, m_fUsed := false,
              m_parent_loj_id := id, m_position := pos } := by
  refine ⟨?_, ctorSets_ok _ _ _ _ _ (fun hs => h.resolve_left hs)⟩
  rcases h with rfl | h
  · simp [SComponent.Ctor, GPOS_ASSERT_IMP, GPOS_ASSERT]
  · simp [SComponent.Ctor, GPOS_ASSERT_IMP, GPOS_ASSERT, NON_LOJ_DEFAULT_ID, h]

/-! ## Legality as the precondition of `PcompCombine` -/

/-- Well-formed provenance passes the constructor assertion. -/
theorem ctorContract_of_wellFormed (comp : SComponent) (h : comp.WellFormedLoj) :
    comp.CtorContract := by
  intro hs
  rcases h with ⟨_, h⟩ | ⟨h, _⟩
  · exact absurd h hs
  · exact h

/-- An illegal pair fails the assertion of line 394. -/
theorem pcompCombine_illegal (jo : CJoinOrder) (comp1 comp2 : SComponent)
    (h : CJoinOrder.IsValidJoinCombination comp1 comp2 = .ok false) :
    jo.PcompCombine comp1 comp2 = .error (.AssertFailed 394) := by
  unfold CJoinOrder.PcompCombine
  rw [h]

/-- A legal pair of payload-bearing components with well-formed provenance is
combined into a component without provenance or tagged as a left child. -/
theorem pcompCombine_legal (jo : CJoinOrder) (comp1 comp2 : SComponent)
    (pexpr1 pexpr2 : CExpression)
    (h1 : comp1.m_pexpr = some pexpr1) (h2 : comp2.m_pexpr = some pexpr2)
    (hw1 : comp1.WellFormedLoj) (hw2 : comp2.WellFormedLoj)
    (hv : CJoinOrder.IsValidJoinCombination comp1 comp2 = .ok true) :
    ∃ comp : SComponent, jo.PcompCombine comp1 comp2 = .ok comp ∧
      ((comp.m_parent_loj_id = 0 ∧ comp.m_position = EPosition.EpSentinel) ∨
        (0 < comp.m_parent_loj_id ∧ comp.m_position = EPosition.EpLeft)) := by
  by_cases hsib : CJoinOrder.IsChildOfSameLOJ comp1 comp2 = true
  · exact ⟨_, pcompCombine_of_node jo comp1 comp2 _ _ _ hv
      (pcompCombineNode_siblings comp1 comp2 pexpr1 pexpr2 _ h1 h2 hsib)
      (fun h => absurd h (by simp [NON_LOJ_DEFAULT_ID])) (fun h => absurd rfl h),
      Or.inl ⟨rfl, rfl⟩⟩
  · have hsib' : CJoinOrder.IsChildOfSameLOJ comp1 comp2 = false := by simpa using hsib
    obtain ⟨id, pos, hnode, h485, h99, -, -, -, hwf, -⟩ :=
      pcompCombineNode_inner comp1 comp2 pexpr1 pexpr2
        (PexprConjunction (CJoinOrder.CollectEdges (comp1.m_pbs ∪ comp2.m_pbs)
          jo.m_rgpedge [])) h1 h2 hw1 hw2 hv hsib'
    refine ⟨_, pcompCombine_of_node jo comp1 comp2 _ id pos hv hnode h485 h99, ?_⟩
    rcases hwf with h | ⟨hp, _⟩
    · exact Or.inl h
    · exact Or.inr ⟨hp, h485 hp⟩

/-! ## `MarkUsedEdges`: which flags are set -/

/-- The iterator visits exactly the set bits. -/
theorem mem_bits (bs : CBitSet) (i : Nat) : i ∈ bs.bits ↔ i ∈ bs := by
  simp only [CBitSet.bits, List.mem_filter, List.mem_range, decide_eq_true_eq]
  constructor
  · exact fun h => h.2
  · intro h
    refine ⟨?_, h⟩
    have : id i ≤ bs.sup id := Finset.le_sup h
    simp only [id] at this
    omega

/-- The loop of `MarkUsedEdges` over bits that are valid edge indices returns
the edge array in which an edge is used if it was used or its index is among
the bits and its cover is contained in the cover of the component. -/
theorem markUsedEdgesLoop_char (pcomponent : SComponent) (bits : List Nat)
    (edges : List SEdge) (hrange : ∀ b ∈ bits, b < edges.length) :
    ∃ edges1 : List SEdge,
      CJoinOrder.MarkUsedEdgesLoop pcomponent bits edges = .ok edges1 ∧
      edges1.length = edges.length ∧
      ∀ (i : Nat) (pedge : SEdge), edges[i]? = some pedge →
        edges1[i]? = some { pedge with
          m_fUsed := pedge.m_fUsed ||
            (decide (i ∈ bits) && decide (pedge.m_pbs ⊆ pcomponent.m_pbs)) } := by
  induction bits generalizing edges with
  | nil =>
    refine ⟨edges, rfl, rfl, ?_⟩
    intro i pedge hi
    simp [hi]
  | cons bit rest ih =>
    have hbit : bit < edges.length := hrange bit (List.mem_cons_self _ _)
    have hrest : ∀ b ∈ rest, b < edges.length :=
      fun b hb => hrange b (List.mem_cons_of_mem _ hb)
    have hget : edges[bit]? = some edges[bit] := List.getElem?_eq_getElem hbit
    unfold CJoinOrder.MarkUsedEdgesLoop
    rw [hget]
    simp only
    by_cases hu : edges[bit].m_fUsed = true
    · rw [if_pos hu]
      obtain ⟨edges1, hloop, hlen, hchar⟩ := ih edges hrest
      refine ⟨edges1, hloop, hlen, ?_⟩
      intro i pedge hi
      rw [hchar i pedge hi]
      by_cases hib : i = bit
      · subst hib
        rw [hget] at hi
        cases hi
        simp [hu]
      · simp [hib]
    · rw [if_neg hu]
      by_cases hs : edges[bit].m_pbs ⊆ pcomponent.m_pbs
      · rw [if_pos hs]
        obtain ⟨edges1, hloop, hlen, hchar⟩ :=
          ih (edges.set bit { edges[bit] with m_fUsed := true })
            (by intro b hb; rw [List.length_set]; exact hrest b hb)
        refine ⟨edges1, hloop, by rw [hlen, List.length_set], ?_⟩
        intro i pedge hi
        by_cases hib : i = bit
        · subst hib
          rw [hget] at hi
          cases hi
          rw [hchar i _ (List.getElem?_set_self hbit)]
          simp [hs]
        · have hi' : (edges.set bit { edges[bit] with m_fUsed := true })[i]? = some pedge := by
            rw [List.getElem?_set_ne (fun h => hib h.symm)]
            exact hi
          rw [hchar i pedge hi']
          simp [hib]
      · rw [if_neg hs]
        obtain ⟨edges1, hloop, hlen, hchar⟩ := ih edges hrest
        refine ⟨edges1, hloop, hlen, ?_⟩
        intro i pedge hi
        rw [hchar i pedge hi]
        by_cases hib : i = bit
        · subst hib
          rw [hget] at hi
          cases hi
          simp [hs]
        · simp [hib]

/-- A loop of `MarkUsedEdges` that returns has visited valid edge indices only. -/
theorem markUsedEdgesLoop_range (pcomponent : SComponent) (bits : List Nat)
    (edges edges1 : List SEdge)
    (h : CJoinOrder.MarkUsedEdgesLoop pcomponent bits edges = .ok edges1) :
    ∀ b ∈ bits, b < edges.length := by
  induction bits generalizing edges with
  | nil => intro b hb; cases hb
  | cons bit rest ih =>
    unfold CJoinOrder.MarkUsedEdgesLoop at h
    split at h
    · cases h
    · rename_i pedge hget
      have hbit : bit < edges.length := by
        rcases Nat.lt_or_ge bit edges.length with hl | hl
        · exact hl
        · rw [List.getElem?_eq_none hl] at hget
          cases hget
      have hrest : ∀ b ∈ rest, b < edges.length := by
        split_ifs at h
        · exact ih _ h
        · have := ih _ h
          rw [List.length_set] at this
          exact this
        · exact ih _ h
      intro b hb
      rcases List.mem_cons.mp hb with rfl | hb
      · exact hbit
      · exact hrest b hb

/-- Running the loop of `MarkUsedEdges` again on its own result changes
nothing. -/
theorem markUsedEdgesLoop_idem (pcomponent : SComponent) (bits : List Nat)
    (edges edges1 : List SEdge)
    (h : CJoinOrder.MarkUsedEdgesLoop pcomponent bits edges = .ok edges1) :
    CJoinOrder.MarkUsedEdgesLoop pcomponent bits edges1 = .ok edges1 := by
  have hrange := markUsedEdgesLoop_range pcomponent bits edges edges1 h
  obtain ⟨e1, hloop1, hlen1, hchar1⟩ := markUsedEdgesLoop_char pcomponent bits edges hrange
  rw [h] at hloop1
  cases hloop1
  obtain ⟨e2, hloop2, hlen2, hchar2⟩ := markUsedEdgesLoop_char pcomponent bits edges1
    (by intro b hb; rw [hlen1]; exact hrange b hb)
  rw [hloop2]
  congr 1
  apply List.ext_getElem?
  intro i
  rcases Nat.lt_or_ge i edges.length with hl | hl
  · have hget : edges[i]? = some edges[i] := List.getElem?_eq_getElem hl
    have h1 := hchar1 i _ hget
    rw [hchar2 i _ h1, h1]
    cases edges[i].m_fUsed <;> simp
  · rw [List.getElem?_eq_none (by omega), List.getElem?_eq_none (by omega)]

/-- `MarkUsedEdges` on its own result returns that result. -/
theorem markUsedEdges_idem (jo jo1 : CJoinOrder) (pcomponent : SComponent)
    (h : jo.MarkUsedEdges pcomponent = .ok jo1) :
    jo1.MarkUsedEdges pcomponent = .ok jo1 := by
  unfold CJoinOrder.MarkUsedEdges at h ⊢
  split at h
  · cases h
  · rename_i pexpr hp
    simp only at h ⊢
    split_ifs at h with hguard
    · cases h
      rw [if_pos hguard]
    · rw [if_neg hguard]
      split at h
      · cases h
      · rename_i edges1 hloop
        cases h
        simp only
        rw [markUsedEdgesLoop_idem _ _ _ _ hloop]

/-! ## Construction: the loop computes the layout of spec 4.1 -/

/-- Writing the first unwritten slot extends the written part of the array. -/
theorem set_first_unwritten (pre : List SComponent) (m : Nat) (comp : SComponent) :
    (pre.map some ++ List.replicate (m + 1) none).set pre.length (some comp) =
      (pre ++ [comp]).map some ++ List.replicate m none := by
  induction pre with
  | nil => simp [List.replicate_succ]
  | cons head rest ih =>
    simp only [List.map_cons, List.cons_append, List.length_cons, List.set_cons_succ]
    rw [ih]

/-- `AddComponent` on the first unwritten slot of the array. -/
theorem addComponent_first_unwritten (pre : List SComponent) (m : Nat) (expr : CExpression)
    (loj_id : Int) (position : EPosition) (comp_num : Nat) (hn : pre.length = comp_num)
    (h : position = EPosition.EpSentinel ∨ 0 < loj_id) :
    CJoinOrder.AddComponent (pre.map some ++ List.replicate (m + 1) none) expr loj_id
        position comp_num =
      .ok ((pre ++ [exComp (some expr) {comp_num} ∅ loj_id position]).map some ++
        List.replicate m none) := by
  subst hn
  unfold CJoinOrder.AddComponent
  rw [(ctor_succeeds (some expr) ∅ ∅ loj_id position h).1]
  simp only
  have hlt : pre.length <
      (pre.map some ++ List.replicate (m + 1) (none : Option SComponent)).length := by
    simp
  rw [if_pos hlt, ← set_first_unwritten]
  simp [exComp]

/-- The number of components the layout holds. -/
theorem layoutComps_length (include_loj_childs : Bool) (pdrgpexpr : List CExpression)
    (loj_id : Int) (comp_num : Nat) :
    (LayoutComps include_loj_childs pdrgpexpr loj_id comp_num).length =
      pdrgpexpr.length + (if include_loj_childs = true then NumLojs pdrgpexpr else 0) := by
  induction pdrgpexpr generalizing loj_id comp_num with
  | nil => simp [LayoutComps, NumLojs]
  | cons expr rest ih =>
    unfold LayoutComps
    by_cases hi : include_loj_childs = true
    · by_cases hl : expr.Eopid = EOperatorId.EopLogicalLeftOuterJoin
      · rw [if_pos ⟨hi, hl⟩]
        have hn : NumLojs (expr :: rest) = NumLojs rest + 1 := by
          simp [NumLojs, List.filter_cons, hl]
        simp only [List.length_cons, ih, if_pos hi, hn]
        omega
      · rw [if_neg (fun h => hl h.2)]
        have hn : NumLojs (expr :: rest) = NumLojs rest := by
          simp [NumLojs, List.filter_cons, hl]
        simp only [List.length_cons, ih, if_pos hi, hn]
        omega
    · rw [if_neg (fun h => hi h.1)]
      simp only [List.length_cons, ih, if_neg hi]

/-- The counting loop of lines 260-267 counts the left outer joins when LOJ
explosion is enabled and nothing otherwise. -/
theorem countLojs_eq (include_loj_childs : Bool) (pdrgpexpr : List CExpression)
    (num_of_lojs : Nat) :
    CJoinOrder.CountLojs include_loj_childs pdrgpexpr num_of_lojs =
      num_of_lojs + (if include_loj_childs = true then NumLojs pdrgpexpr else 0) := by
  induction pdrgpexpr generalizing num_of_lojs with
  | nil => simp [CJoinOrder.CountLojs, NumLojs]
  | cons expr rest ih =>
    unfold CJoinOrder.CountLojs
    by_cases hi : include_loj_childs = true
    · rw [if_pos hi]
      by_cases hl : EOperatorId.EopLogicalLeftOuterJoin = expr.Eopid
      · have hn : NumLojs (expr :: rest) = NumLojs rest + 1 := by
          simp [NumLojs, List.filter_cons, hl.symm]
        rw [if_pos hl, ih, if_pos hi, if_pos hi, hn]
        omega
      · have hl' : ¬ expr.Eopid = EOperatorId.EopLogicalLeftOuterJoin := fun h => hl h.symm
        have hn : NumLojs (expr :: rest) = NumLojs rest := by
          simp [NumLojs, List.filter_cons, hl']
        rw [if_neg hl, ih, if_pos hi, if_pos hi, hn]
    · rw [if_neg hi, if_neg hi]
      rfl

/-- The loop of lines 275-303, started on an array whose first `comp_num` slots
are written and whose other slots are not, writes the layout of spec 4.1 into
the next slots and appends the join conditions of the exploded LOJs. -/
theorem addComponents_layout (include_loj_childs : Bool) (pdrgpexpr : List CExpression)
    (loj_id : Int) (pre : List SComponent) (m : Nat) (pdrgpexprConj : List CExpression)
    (comp_num : Nat) (hn : pre.length = comp_num)
    (hwf : include_loj_childs = true → WellFormedLojChildren pdrgpexpr)
    (hk : 0 ≤ loj_id)
    (hm : (LayoutComps include_loj_childs pdrgpexpr loj_id comp_num).length ≤ m) :
    CJoinOrder.AddComponents include_loj_childs pdrgpexpr loj_id comp_num
        (pre.map some ++ List.replicate m none) pdrgpexprConj =
      .ok ((pre ++ LayoutComps include_loj_childs pdrgpexpr loj_id comp_num).map some ++
          List.replicate
            (m - (LayoutComps include_loj_childs pdrgpexpr loj_id comp_num).length) none,
        pdrgpexprConj ++ LojConditions include_loj_childs pdrgpexpr) := by
  induction pdrgpexpr generalizing loj_id pre m pdrgpexprConj comp_num with
  | nil => simp [CJoinOrder.AddComponents, LayoutComps, LojConditions]
  | cons expr rest ih =>
    have hwfRest : include_loj_childs = true → WellFormedLojChildren rest :=
      fun hi e he => hwf hi e (List.mem_cons_of_mem _ he)
    unfold CJoinOrder.AddComponents
    by_cases hloj : include_loj_childs = true ∧
        EOperatorId.EopLogicalLeftOuterJoin = expr.Eopid
    · have hloj' : include_loj_childs = true ∧
          expr.Eopid = EOperatorId.EopLogicalLeftOuterJoin := ⟨hloj.1, hloj.2.symm⟩
      rw [if_pos hloj]
      have harity := hwf hloj.1 expr (List.mem_cons_self _ _) hloj.2.symm
      obtain ⟨op, cols, children⟩ := expr
      simp only [CExpression.Arity, CExpression.children] at harity
      match children, harity with
      | pexprLeft :: pexprRight :: scalar_expr :: more, _ =>
        simp only [LayoutComps, if_pos hloj', LojConditions, CExpression.children,
          List.length_cons] at hm ⊢
        simp only [List.getElem?_cons_zero, List.getElem?_cons_succ]
        obtain ⟨m1, rfl⟩ : ∃ m1, m = m1 + 2 := ⟨m - 2, by omega⟩
        rw [addComponent_first_unwritten pre (m1 + 1) pexprLeft (loj_id + 1) .EpLeft comp_num
          hn (Or.inr (by omega))]
        simp only
        rw [addComponent_first_unwritten _ m1 pexprRight (loj_id + 1) .EpRight (comp_num + 1)
          (by simp [hn]) (Or.inr (by omega))]
        simp only [Nat.add_assoc, Nat.reduceAdd]
        rw [ih (loj_id + 1) _ m1 _ (comp_num + 2) (by simp [hn]) hwfRest (by omega)
          (by omega)]
        simp only [List.append_assoc, List.cons_append, List.nil_append,
          Option.toList_some, List.singleton_append]
        have hsub : ∀ a b : Nat, a + 2 - (b + 1 + 1) = a - b := by
          intro a b
          omega
        rw [hsub]
    · rw [if_neg hloj]
      have hloj' : ¬ (include_loj_childs = true ∧
          expr.Eopid = EOperatorId.EopLogicalLeftOuterJoin) := fun h => hloj ⟨h.1, h.2.symm⟩
      simp only [LayoutComps, if_neg hloj', LojConditions, List.length_cons] at hm ⊢
      obtain ⟨m1, rfl⟩ : ∃ m1, m = m1 + 1 := ⟨m - 1, by omega⟩
      rw [addComponent_first_unwritten pre m1 expr NON_LOJ_DEFAULT_ID .EpSentinel comp_num hn
        (Or.inl rfl)]
      simp only
      rw [ih loj_id _ m1 _ (comp_num + 1) (by simp [hn]) hwfRest hk (by omega)]
      simp only [List.append_assoc, List.cons_append, List.nil_append,
        NON_LOJ_DEFAULT_ID]
      rw [Nat.add_sub_add_right]

/-! ## The incidence computation -/

/-- Adding no bit. -/
theorem coverAdds_refl (jo : CJoinOrder) : CoverAdds jo jo (fun _ _ => False) :=
  ⟨rfl, rfl, rfl, fun _ pedge h => ⟨pedge, h, rfl, rfl, by simp⟩,
    fun _ comp h => ⟨comp, h, rfl, rfl, by simp⟩⟩

/-- The pairs of `CoverAdds` may be replaced by equivalent ones. -/
theorem coverAdds_congr {jo jo1 : CJoinOrder} {S T : Nat → Nat → Prop}
    (h : CoverAdds jo jo1 S) (hST : ∀ e c, S e c ↔ T e c) : CoverAdds jo jo1 T := by
  obtain ⟨hf, hle, hlc, hedge, hcomp⟩ := h
  refine ⟨hf, hle, hlc, ?_, ?_⟩
  · intro e pedge he
    obtain ⟨p1, h1, h2, h3, h4⟩ := hedge e pedge he
    exact ⟨p1, h1, h2, h3, fun c => by rw [h4 c, hST e c]⟩
  · intro c comp hc
    obtain ⟨c1, h1, h2, h3, h4⟩ := hcomp c comp hc
    exact ⟨c1, h1, h2, h3, fun e => by rw [h4 e, hST e c]⟩

/-- Adding bits in two steps adds the bits of both. -/
theorem coverAdds_trans {jo jo1 jo2 : CJoinOrder} {S T : Nat → Nat → Prop}
    (h1 : CoverAdds jo jo1 S) (h2 : CoverAdds jo1 jo2 T) :
    CoverAdds jo jo2 (fun e c => S e c ∨ T e c) := by
  obtain ⟨hf, hle, hlc, hedge, hcomp⟩ := h1
  obtain ⟨hf2, hle2, hlc2, hedge2, hcomp2⟩ := h2
  refine ⟨hf2.trans hf, hle2.trans hle, hlc2.trans hlc, ?_, ?_⟩
  · intro e pedge he
    obtain ⟨p1, a1, a2, a3, a4⟩ := hedge e pedge he
    obtain ⟨p2, b1, b2, b3, b4⟩ := hedge2 e p1 a1
    exact ⟨p2, b1, b2.trans a2, b3.trans a3, fun c => by rw [b4 c, a4 c, or_assoc]⟩
  · intro c comp hc
    obtain ⟨c1, a1, a2, a3, a4⟩ := hcomp c comp hc
    obtain ⟨c2, b1, b2, b3, b4⟩ := hcomp2 c c1 a1
    exact ⟨c2, b1, b2.trans a2, b3.trans a3, fun e => by rw [b4 e, a4 e, or_assoc]⟩

/-- Adding incidence bits does not change which edges reference which
components. -/
theorem references_of_coverAdds (PcrsUsed PcrsOutput : CExpression → CColRefSet)
    {jo jo1 : CJoinOrder} {S : Nat → Nat → Prop} (h : CoverAdds jo jo1 S) (e c : Nat) :
    jo1.References PcrsUsed PcrsOutput e c ↔ jo.References PcrsUsed PcrsOutput e c := by
  obtain ⟨-, hle, hlc, hedge, hcomp⟩ := h
  constructor
  · rintro ⟨pedge1, comp1, pexpr, he1, hc1, hp, hd⟩
    have hel : e < jo.m_rgpedge.length := by
      rw [← hle]
      rcases Nat.lt_or_ge e jo1.m_rgpedge.length with hl | hl
      · exact hl
      · rw [List.getElem?_eq_none hl] at he1
        cases he1
    have hcl : c < jo.m_rgpcomp.length := by
      rw [← hlc]
      rcases Nat.lt_or_ge c jo1.m_rgpcomp.length with hl | hl
      · exact hl
      · rw [List.getElem?_eq_none hl] at hc1
        cases hc1
    obtain ⟨p1, a1, a2, -, -⟩ := hedge e _ (List.getElem?_eq_getElem hel)
    obtain ⟨c1, b1, b2, -, -⟩ := hcomp c _ (List.getElem?_eq_getElem hcl)
    rw [he1] at a1
    rw [hc1] at b1
    cases a1
    cases b1
    simp only [SComponent.Core, Prod.mk.injEq] at b2
    refine ⟨_, _, pexpr, List.getElem?_eq_getElem hel, List.getElem?_eq_getElem hcl, ?_, ?_⟩
    · rw [← b2.2.1]
      exact hp
    · rw [← a2]
      exact hd
  · rintro ⟨pedge, comp, pexpr, he, hc, hp, hd⟩
    obtain ⟨p1, a1, a2, -, -⟩ := hedge e pedge he
    obtain ⟨c1, b1, b2, -, -⟩ := hcomp c comp hc
    simp only [SComponent.Core, Prod.mk.injEq] at b2
    refine ⟨p1, c1, pexpr, a1, b1, ?_, ?_⟩
    · rw [b2.2.1]
      exact hp
    · rw [a2]
      exact hd

/-- One visit of `ComputeEdgeCover` for a valid edge index and a component that
carries a payload returns, and adds the bits of the visited pair if the edge
references the component. -/
theorem computeEdgeCoverVisit_adds (PcrsUsed PcrsOutput : CExpression → CColRefSet)
    (jo : CJoinOrder) (ulEdge ulComp : Nat) (pedge : SEdge) (comp : SComponent)
    (pexpr : CExpression)
    (he : jo.m_rgpedge[ulEdge]? = some pedge) (hc : jo.m_rgpcomp[ulComp]? = some comp)
    (hp : comp.m_pexpr = some pexpr) :
    ∃ jo1 : CJoinOrder,
      CJoinOrder.ComputeEdgeCoverVisit PcrsOutput ulEdge (PcrsUsed pedge.m_pexpr) ulComp jo =
        .ok jo1 ∧
      CoverAdds jo jo1
        (fun e c => e = ulEdge ∧ c = ulComp ∧ jo.References PcrsUsed PcrsOutput e c) := by
  have hel : ulEdge < jo.m_rgpedge.length := by
    rcases Nat.lt_or_ge ulEdge jo.m_rgpedge.length with hl | hl
    · exact hl
    · rw [List.getElem?_eq_none hl] at he
      cases he
  have hcl : ulComp < jo.m_rgpcomp.length := by
    rcases Nat.lt_or_ge ulComp jo.m_rgpcomp.length with hl | hl
    · exact hl
    · rw [List.getElem?_eq_none hl] at hc
      cases hc
  unfold CJoinOrder.ComputeEdgeCoverVisit
  rw [hc]
  simp only [hp]
  by_cases hd : Disjoint (PcrsUsed pedge.m_pexpr) (PcrsOutput pexpr)
  · rw [if_neg (not_not.mpr hd)]
    refine ⟨jo, rfl, coverAdds_congr (coverAdds_refl jo) ?_⟩
    intro e c
    simp only [false_iff, not_and]
    rintro rfl rfl ⟨pedge', comp', pexpr', he', hc', hp', hd'⟩
    rw [he] at he'
    rw [hc] at hc'
    cases he'
    cases hc'
    rw [hp] at hp'
    cases hp'
    exact hd' hd
  · rw [if_pos hd, he]
    refine ⟨_, rfl, rfl, by simp, by simp, ?_, ?_⟩
    · intro e p hep
      by_cases hee : ulEdge = e
      · subst hee
        rw [he] at hep
        cases hep
        refine ⟨_, List.getElem?_set_self hel, rfl, rfl, ?_⟩
        intro c
        rw [Finset.mem_insert]
        constructor
        · rintro (rfl | h)
          · exact Or.inr ⟨rfl, rfl, pedge, comp, pexpr, he, hc, hp, hd⟩
          · exact Or.inl h
        · rintro (h | ⟨-, rfl, -⟩)
          · exact Or.inr h
          · exact Or.inl rfl
      · refine ⟨p, by simp only; rw [List.getElem?_set_ne hee]; exact hep, rfl, rfl, ?_⟩
        intro c
        constructor
        · exact Or.inl
        · rintro (h | ⟨rfl, -⟩)
          · exact h
          · exact absurd rfl hee
    · intro c cp hcp
      by_cases hcc : ulComp = c
      · subst hcc
        rw [hc] at hcp
        cases hcp
        refine ⟨_, List.getElem?_set_self hcl, by simp [SComponent.Core, hp], rfl, ?_⟩
        intro e
        rw [Finset.mem_insert]
        constructor
        · rintro (rfl | h)
          · exact Or.inr ⟨rfl, rfl, pedge, comp, pexpr, he, hc, hp, hd⟩
          · exact Or.inl h
        · rintro (h | ⟨rfl, -, -⟩)
          · exact Or.inr h
          · exact Or.inl rfl
      · refine ⟨cp, by simp only; rw [List.getElem?_set_ne hcc]; exact hcp, rfl, rfl, ?_⟩
        intro e
        constructor
        · exact Or.inl
        · rintro (h | ⟨-, rfl, -⟩)
          · exact h
          · exact absurd rfl hcc

/-- Adding incidence bits keeps every payload. -/
theorem payloads_of_coverAdds {jo jo1 : CJoinOrder} {S : Nat → Nat → Prop}
    (h : CoverAdds jo jo1 S)
    (hpay : ∀ (c : Nat) (comp : SComponent), jo.m_rgpcomp[c]? = some comp →
      comp.m_pexpr ≠ none) :
    ∀ (c : Nat) (comp : SComponent), jo1.m_rgpcomp[c]? = some comp → comp.m_pexpr ≠ none := by
  intro c comp1 hc1
  obtain ⟨-, -, hlc, -, hcomp⟩ := h
  have hcl : c < jo.m_rgpcomp.length := by
    rw [← hlc]
    rcases Nat.lt_or_ge c jo1.m_rgpcomp.length with hl | hl
    · exact hl
    · rw [List.getElem?_eq_none hl] at hc1
      cases hc1
  obtain ⟨c1, b1, b2, -, -⟩ := hcomp c _ (List.getElem?_eq_getElem hcl)
  rw [hc1] at b1
  cases b1
  simp only [SComponent.Core, Prod.mk.injEq] at b2
  rw [b2.2.1]
  exact hpay c _ (List.getElem?_eq_getElem hcl)

/-- The inner loop of `ComputeEdgeCover` over valid component indices returns,
and adds the bits of the visited pairs in which the edge references the
component. -/
theorem computeEdgeCoverComps_adds (PcrsUsed PcrsOutput : CExpression → CColRefSet)
    (ulEdge : Nat) (ulComps : List Nat) (jo : CJoinOrder) (pedge : SEdge)
    (he : jo.m_rgpedge[ulEdge]? = some pedge)
    (hcs : ∀ c ∈ ulComps, c < jo.m_rgpcomp.length)
    (hpay : ∀ (c : Nat) (comp : SComponent), jo.m_rgpcomp[c]? = some comp →
      comp.m_pexpr ≠ none) :
    ∃ jo1 : CJoinOrder,
      CJoinOrder.ComputeEdgeCoverComps PcrsOutput ulEdge (PcrsUsed pedge.m_pexpr) ulComps jo =
        .ok jo1 ∧
      CoverAdds jo jo1
        (fun e c => e = ulEdge ∧ c ∈ ulComps ∧ jo.References PcrsUsed PcrsOutput e c) := by
  induction ulComps generalizing jo pedge with
  | nil =>
    refine ⟨jo, rfl, coverAdds_congr (coverAdds_refl jo) ?_⟩
    intro e c
    simp
  | cons ulComp rest ih =>
    have hcl : ulComp < jo.m_rgpcomp.length := hcs ulComp (List.mem_cons_self _ _)
    have hc : jo.m_rgpcomp[ulComp]? = some jo.m_rgpcomp[ulComp] := List.getElem?_eq_getElem hcl
    obtain ⟨pexpr, hp⟩ := Option.ne_none_iff_exists'.mp (hpay ulComp _ hc)
    obtain ⟨jo1, hvisit, hadds1⟩ := computeEdgeCoverVisit_adds PcrsUsed PcrsOutput jo ulEdge
      ulComp pedge _ pexpr he hc hp
    obtain ⟨pedge1, he1, hpe1, -, -⟩ := hadds1.2.2.2.1 ulEdge pedge he
    obtain ⟨jo2, hloop, hadds2⟩ := ih jo1 pedge1 he1
      (by intro c hcm; rw [hadds1.2.2.1]; exact hcs c (List.mem_cons_of_mem _ hcm))
      (payloads_of_coverAdds hadds1 hpay)
    refine ⟨jo2, ?_, coverAdds_congr (coverAdds_trans hadds1 hadds2) ?_⟩
    · simp only [CJoinOrder.ComputeEdgeCoverComps, hvisit]
      rw [← hpe1]
      exact hloop
    · intro e c
      rw [references_of_coverAdds PcrsUsed PcrsOutput hadds1 e c, List.mem_cons]
      constructor
      · rintro (⟨h1, h2, h3⟩ | ⟨h1, h2, h3⟩)
        · exact ⟨h1, Or.inl h2, h3⟩
        · exact ⟨h1, Or.inr h2, h3⟩
      · rintro ⟨h1, h2 | h2, h3⟩
        · exact Or.inl ⟨h1, h2, h3⟩
        · exact Or.inr ⟨h1, h2, h3⟩

/-- The outer loop of `ComputeEdgeCover` over valid edge indices returns, and
adds the bits of the pairs of a visited edge and a component it references. -/
theorem computeEdgeCoverEdges_adds (PcrsUsed PcrsOutput : CExpression → CColRefSet)
    (ulEdges : List Nat) (jo : CJoinOrder)
    (hes : ∀ e ∈ ulEdges, e < jo.m_rgpedge.length)
    (hpay : ∀ (c : Nat) (comp : SComponent), jo.m_rgpcomp[c]? = some comp →
      comp.m_pexpr ≠ none) :
    ∃ jo1 : CJoinOrder,
      CJoinOrder.ComputeEdgeCoverEdges PcrsUsed PcrsOutput ulEdges jo = .ok jo1 ∧
      CoverAdds jo jo1 (fun e c => e ∈ ulEdges ∧ jo.References PcrsUsed PcrsOutput e c) := by
  induction ulEdges generalizing jo with
  | nil =>
    refine ⟨jo, rfl, coverAdds_congr (coverAdds_refl jo) ?_⟩
    intro e c
    simp
  | cons ulEdge rest ih =>
    have hel : ulEdge < jo.m_rgpedge.length := hes ulEdge (List.mem_cons_self _ _)
    have he : jo.m_rgpedge[ulEdge]? = some jo.m_rgpedge[ulEdge] := List.getElem?_eq_getElem hel
    obtain ⟨jo1, hcomps, hadds1⟩ := computeEdgeCoverComps_adds PcrsUsed PcrsOutput ulEdge
      (List.range jo.m_ulComps) jo _ he (fun c hc => List.mem_range.mp hc) hpay
    obtain ⟨jo2, hloop, hadds2⟩ := ih jo1
      (by intro e hem; rw [hadds1.2.1]; exact hes e (List.mem_cons_of_mem _ hem))
      (payloads_of_coverAdds hadds1 hpay)
    refine ⟨jo2, ?_, coverAdds_congr (coverAdds_trans hadds1 hadds2) ?_⟩
    · simp only [CJoinOrder.ComputeEdgeCoverEdges, he, hcomps]
      exact hloop
    · intro e c
      rw [references_of_coverAdds PcrsUsed PcrsOutput hadds1 e c, List.mem_cons]
      constructor
      · rintro (⟨h1, -, h3⟩ | ⟨h2, h3⟩)
        · exact ⟨Or.inl h1, h3⟩
        · exact ⟨Or.inr h2, h3⟩
      · rintro ⟨h1 | h2, h3⟩
        · refine Or.inl ⟨h1, ?_, h3⟩
          obtain ⟨_, comp, _, _, hc, _, _⟩ := h3
          rw [List.mem_range]
          rcases Nat.lt_or_ge c jo.m_rgpcomp.length with hl | hl
          · exact hl
          · rw [List.getElem?_eq_none hl] at hc
            cases hc
        · exact Or.inr ⟨h2, h3⟩

/-- `ComputeEdgeCover` on a core whose components all carry a payload returns,
and adds the bits of exactly the pairs of an edge and a component it
references. -/
theorem computeEdgeCover_adds (PcrsUsed PcrsOutput : CExpression → CColRefSet)
    (jo : CJoinOrder)
    (hpay : ∀ (c : Nat) (comp : SComponent), jo.m_rgpcomp[c]? = some comp →
      comp.m_pexpr ≠ none) :
    ∃ jo1 : CJoinOrder,
      CJoinOrder.ComputeEdgeCover PcrsUsed PcrsOutput jo = .ok jo1 ∧
      CoverAdds jo jo1 (jo.References PcrsUsed PcrsOutput) := by
  obtain ⟨jo1, hloop, hadds⟩ := computeEdgeCoverEdges_adds PcrsUsed PcrsOutput
    (List.range jo.m_ulEdges) jo (fun e he => List.mem_range.mp he) hpay
  refine ⟨jo1, hloop, coverAdds_congr hadds ?_⟩
  intro e c
  constructor
  · exact fun h => h.2
  · intro h
    refine ⟨?_, h⟩
    obtain ⟨pedge, _, _, he, _, _, _⟩ := h
    rw [List.mem_range]
    rcases Nat.lt_or_ge e jo.m_rgpedge.length with hl | hl
    · exact hl
    · rw [List.getElem?_eq_none hl] at he
      cases he

/-! ## Construction: the constructor as a whole -/

/-- Reading back an array in which every slot is written. -/
theorem components_map_some (comps : List SComponent) :
    CJoinOrder.Components (comps.map some) = .ok comps := by
  induction comps with
  | nil => rfl
  | cons comp rest ih => simp only [List.map_cons, CJoinOrder.Components, ih]

/-- A loop of lines 275-303 that returns has found the three children of every
left outer join it exploded. -/
theorem addComponents_wf (include_loj_childs : Bool) (pdrgpexpr : List CExpression)
    (loj_id : Int) (comp_num : Nat) (rgpcomp : List (Option SComponent))
    (pdrgpexprConj : List CExpression)
    (res : List (Option SComponent) × List CExpression)
    (h : CJoinOrder.AddComponents include_loj_childs pdrgpexpr loj_id comp_num rgpcomp
      pdrgpexprConj = .ok res) :
    include_loj_childs = true → WellFormedLojChildren pdrgpexpr := by
  intro hi
  induction pdrgpexpr generalizing loj_id comp_num rgpcomp pdrgpexprConj with
  | nil => intro e he; cases he
  | cons expr rest ih =>
    unfold CJoinOrder.AddComponents at h
    split_ifs at h with hloj
    · simp only at h
      split at h
      · cases h
      · rename_i pexprLeft h0
        split at h
        · cases h
        · split at h
          · cases h
          · rename_i pexprRight h1
            split at h
            · cases h
            · split at h
              · cases h
              · rename_i scalar_expr h2
                have hrest := ih _ _ _ _ h
                intro e he _
                rcases List.mem_cons.mp he with rfl | he
                · have : 2 < e.children.length := by
                    rcases Nat.lt_or_ge 2 e.children.length with hl | hl
                    · exact hl
                    · rw [List.getElem?_eq_none hl] at h2
                      cases h2
                  simp only [CExpression.Arity]
                  omega
                · exact hrest e he ‹_›
    · split at h
      · cases h
      · have hrest := ih _ _ _ _ h
        intro e he hl
        rcases List.mem_cons.mp he with rfl | he
        · exact absurd ⟨hi, hl.symm⟩ hloj
        · exact hrest e he hl

/-- Under well-formed LOJ children every component of the layout carries a
payload. -/
theorem layoutComps_payload (include_loj_childs : Bool) (pdrgpexpr : List CExpression)
    (loj_id : Int) (comp_num : Nat)
    (hwf : include_loj_childs = true → WellFormedLojChildren pdrgpexpr) :
    ∀ comp ∈ LayoutComps include_loj_childs pdrgpexpr loj_id comp_num, comp.m_pexpr ≠ none := by
  induction pdrgpexpr generalizing loj_id comp_num with
  | nil => intro comp hc; cases hc
  | cons expr rest ih =>
    have hwfRest : include_loj_childs = true → WellFormedLojChildren rest :=
      fun hi e he => hwf hi e (List.mem_cons_of_mem _ he)
    intro comp hc
    unfold LayoutComps at hc
    split_ifs at hc with hloj
    · have harity := hwf hloj.1 expr (List.mem_cons_self _ _) hloj.2
      simp only [CExpression.Arity] at harity
      simp only [List.mem_cons] at hc
      rcases hc with rfl | rfl | hc
      · simp only [exComp]
        rw [List.getElem?_eq_getElem (by omega)]
        simp
      · simp only [exComp]
        rw [List.getElem?_eq_getElem (by omega)]
        simp
      · exact ih _ _ hwfRest comp hc
    · simp only [List.mem_cons] at hc
      rcases hc with rfl | hc
      · simp [exComp]
      · exact ih _ _ hwfRest comp hc

/-- Under well-formed LOJ children the constructor is the incidence computation
on the core of spec 4.1. -/
theorem ctor_of_wf (PcrsUsed PcrsOutput : CExpression → CColRefSet)
    (pdrgpexpr pdrgpexprConj : List CExpression) (include_loj_childs : Bool)
    (hwf : include_loj_childs = true → WellFormedLojChildren pdrgpexpr) :
    CJoinOrder.Ctor PcrsUsed PcrsOutput pdrgpexpr pdrgpexprConj include_loj_childs =
      CJoinOrder.ComputeEdgeCover PcrsUsed PcrsOutput
        (CoreBeforeCover pdrgpexpr pdrgpexprConj include_loj_childs) := by
  have hlen : (LayoutComps include_loj_childs pdrgpexpr 0 0).length =
      pdrgpexpr.length + CJoinOrder.CountLojs include_loj_childs pdrgpexpr 0 := by
    rw [layoutComps_length, countLojs_eq, Nat.zero_add]
  have hloop := addComponents_layout include_loj_childs pdrgpexpr 0 []
    (pdrgpexpr.length + CJoinOrder.CountLojs include_loj_childs pdrgpexpr 0) pdrgpexprConj 0
    rfl hwf (le_refl _) (le_of_eq hlen)
  simp only [List.map_nil, List.nil_append, hlen, Nat.sub_self, List.replicate_zero,
    List.append_nil] at hloop
  unfold CJoinOrder.Ctor
  simp only [hloop, components_map_some]
  rfl

/-- A constructor that returns was given well-formed LOJ children. -/
theorem ctor_wf (PcrsUsed PcrsOutput : CExpression → CColRefSet)
    (pdrgpexpr pdrgpexprConj : List CExpression) (include_loj_childs : Bool)
    (jo : CJoinOrder)
    (h : CJoinOrder.Ctor PcrsUsed PcrsOutput pdrgpexpr pdrgpexprConj include_loj_childs =
      .ok jo) :
    include_loj_childs = true → WellFormedLojChildren pdrgpexpr := by
  unfold CJoinOrder.Ctor at h
  simp only at h
  split at h
  · cases h
  · rename_i slots conj hadd
    exact addComponents_wf _ _ _ _ _ _ _ hadd

/-- Under well-formed LOJ children the constructor returns the core of spec 4.1
with the incidence bits of exactly the pairs of an edge and a component it
references. -/
theorem ctor_ok (PcrsUsed PcrsOutput : CExpression → CColRefSet)
    (pdrgpexpr pdrgpexprConj : List CExpression) (include_loj_childs : Bool)
    (hwf : include_loj_childs = true → WellFormedLojChildren pdrgpexpr) :
    ∃ jo : CJoinOrder,
      CJoinOrder.Ctor PcrsUsed PcrsOutput pdrgpexpr pdrgpexprConj include_loj_childs =
        .ok jo ∧
      CoverAdds (CoreBeforeCover pdrgpexpr pdrgpexprConj include_loj_childs) jo
        ((CoreBeforeCover pdrgpexpr pdrgpexprConj include_loj_childs).References PcrsUsed
          PcrsOutput) := by
  rw [ctor_of_wf PcrsUsed PcrsOutput pdrgpexpr pdrgpexprConj include_loj_childs hwf]
  apply computeEdgeCover_adds
  intro c comp hc
  exact layoutComps_payload include_loj_childs pdrgpexpr 0 0 hwf comp
    (List.mem_iff_getElem?.mpr ⟨c, hc⟩)

/-- A core returned by the constructor is the core of spec 4.1 with the
incidence bits of exactly the pairs of an edge and a component it references. -/
theorem ctor_adds (PcrsUsed PcrsOutput : CExpression → CColRefSet)
    (pdrgpexpr pdrgpexprConj : List CExpression) (include_loj_childs : Bool)
    (jo : CJoinOrder)
    (h : CJoinOrder.Ctor PcrsUsed PcrsOutput pdrgpexpr pdrgpexprConj include_loj_childs =
      .ok jo) :
    CoverAdds (CoreBeforeCover pdrgpexpr pdrgpexprConj include_loj_childs) jo
      ((CoreBeforeCover pdrgpexpr pdrgpexprConj include_loj_childs).References PcrsUsed
        PcrsOutput) := by
  obtain ⟨jo1, hjo1, hadds⟩ := ctor_ok PcrsUsed PcrsOutput pdrgpexpr pdrgpexprConj
    include_loj_childs (ctor_wf _ _ _ _ _ _ h)
  rw [h] at hjo1
  cases hjo1
  exact hadds

/-! ## The incidence relation of a constructed core -/

/-- Every component of the layout has no incident edge yet. -/
theorem layoutComps_edge_set (include_loj_childs : Bool) (pdrgpexpr : List CExpression)
    (loj_id : Int) (comp_num : Nat) :
    ∀ comp ∈ LayoutComps include_loj_childs pdrgpexpr loj_id comp_num, comp.m_edge_set = ∅ := by
  induction pdrgpexpr generalizing loj_id comp_num with
  | nil => intro comp hc; cases hc
  | cons expr rest ih =>
    intro comp hc
    unfold LayoutComps at hc
    split_ifs at hc
    · simp only [List.mem_cons] at hc
      rcases hc with rfl | rfl | hc
      · rfl
      · rfl
      · exact ih _ _ comp hc
    · simp only [List.mem_cons] at hc
      rcases hc with rfl | hc
      · rfl
      · exact ih _ _ comp hc

/-- In a constructed core, an edge's incident components are the components it
references, and a component's incident edges are the edges that reference
it. -/
theorem ctor_incidence (PcrsUsed PcrsOutput : CExpression → CColRefSet)
    (pdrgpexpr pdrgpexprConj : List CExpression) (include_loj_childs : Bool)
    (jo : CJoinOrder)
    (h : CJoinOrder.Ctor PcrsUsed PcrsOutput pdrgpexpr pdrgpexprConj include_loj_childs =
      .ok jo) :
    (∀ (e : Nat) (pedge : SEdge), jo.m_rgpedge[e]? = some pedge →
      ∀ c : Nat, c ∈ pedge.m_pbs ↔ jo.References PcrsUsed PcrsOutput e c) ∧
    (∀ (c : Nat) (comp : SComponent), jo.m_rgpcomp[c]? = some comp →
      ∀ e : Nat, e ∈ comp.m_edge_set ↔ jo.References PcrsUsed PcrsOutput e c) := by
  have hadds := ctor_adds PcrsUsed PcrsOutput pdrgpexpr pdrgpexprConj include_loj_childs jo h
  have href := references_of_coverAdds PcrsUsed PcrsOutput hadds
  obtain ⟨-, hle, hlc, hedge, hcomp⟩ := hadds
  constructor
  · intro e pedge he c
    have hel : e < (CoreBeforeCover pdrgpexpr pdrgpexprConj include_loj_childs).m_rgpedge.length := by
      rw [← hle]
      rcases Nat.lt_or_ge e jo.m_rgpedge.length with hl | hl
      · exact hl
      · rw [List.getElem?_eq_none hl] at he
        cases he
    obtain ⟨p1, a1, -, -, a4⟩ := hedge e _ (List.getElem?_eq_getElem hel)
    rw [he] at a1
    cases a1
    rw [a4 c, href e c]
    have hempty : ((CoreBeforeCover pdrgpexpr pdrgpexprConj
        include_loj_childs).m_rgpedge[e]).m_pbs = ∅ := by
      have hmem : (CoreBeforeCover pdrgpexpr pdrgpexprConj include_loj_childs).m_rgpedge[e] ∈
          (pdrgpexprConj ++ LojConditions include_loj_childs pdrgpexpr).map SEdge.Ctor :=
        List.getElem_mem _
      obtain ⟨x, -, hx⟩ := List.mem_map.mp hmem
      rw [← hx]
      rfl
    rw [hempty]
    simp
  · intro c comp hc e
    have hcl : c < (CoreBeforeCover pdrgpexpr pdrgpexprConj include_loj_childs).m_rgpcomp.length := by
      rw [← hlc]
      rcases Nat.lt_or_ge c jo.m_rgpcomp.length with hl | hl
      · exact hl
      · rw [List.getElem?_eq_none hl] at hc
        cases hc
    obtain ⟨c1, b1, -, -, b4⟩ := hcomp c _ (List.getElem?_eq_getElem hcl)
    rw [hc] at b1
    cases b1
    rw [b4 e, href e c]
    have hempty : ((CoreBeforeCover pdrgpexpr pdrgpexprConj
        include_loj_childs).m_rgpcomp[c]).m_edge_set = ∅ :=
      layoutComps_edge_set include_loj_childs pdrgpexpr 0 0 _ (List.getElem_mem _)
    rw [hempty]
    simp

/-! ## Counts and layout of a constructed core -/

/-- Adding incidence bits keeps the cover, payload and provenance of every
component. -/
theorem coverAdds_map_core {jo jo1 : CJoinOrder} {S : Nat → Nat → Prop}
    (h : CoverAdds jo jo1 S) :
    jo1.m_rgpcomp.map SComponent.Core = jo.m_rgpcomp.map SComponent.Core := by
  obtain ⟨-, -, hlc, -, hcomp⟩ := h
  apply List.ext_getElem?
  intro i
  rw [List.getElem?_map, List.getElem?_map]
  rcases Nat.lt_or_ge i jo.m_rgpcomp.length with hl | hl
  · obtain ⟨c1, b1, b2, -, -⟩ := hcomp i _ (List.getElem?_eq_getElem hl)
    rw [b1, List.getElem?_eq_getElem hl]
    simp only [Option.map_some', b2]
  · rw [List.getElem?_eq_none hl, List.getElem?_eq_none (by omega)]

/-- Adding incidence bits keeps the predicate of every edge. -/
theorem coverAdds_map_pexpr {jo jo1 : CJoinOrder} {S : Nat → Nat → Prop}
    (h : CoverAdds jo jo1 S) :
    jo1.m_rgpedge.map (fun pedge => pedge.m_pexpr) =
      jo.m_rgpedge.map (fun pedge => pedge.m_pexpr) := by
  obtain ⟨-, hle, -, hedge, -⟩ := h
  apply List.ext_getElem?
  intro i
  rw [List.getElem?_map, List.getElem?_map]
  rcases Nat.lt_or_ge i jo.m_rgpedge.length with hl | hl
  · obtain ⟨p1, a1, a2, -, -⟩ := hedge i _ (List.getElem?_eq_getElem hl)
    rw [a1, List.getElem?_eq_getElem hl]
    simp only [Option.map_some', a2]
  · rw [List.getElem?_eq_none hl, List.getElem?_eq_none (by omega)]

/-- Under well-formed LOJ children there is one join condition per exploded
left outer join. -/
theorem lojConditions_length (include_loj_childs : Bool) (pdrgpexpr : List CExpression)
    (hwf : include_loj_childs = true → WellFormedLojChildren pdrgpexpr) :
    (LojConditions include_loj_childs pdrgpexpr).length =
      if include_loj_childs = true then NumLojs pdrgpexpr else 0 := by
  induction pdrgpexpr with
  | nil => simp [LojConditions, NumLojs]
  | cons expr rest ih =>
    have hwfRest : include_loj_childs = true → WellFormedLojChildren rest :=
      fun hi e he => hwf hi e (List.mem_cons_of_mem _ he)
    unfold LojConditions
    by_cases hi : include_loj_childs = true
    · by_cases hl : expr.Eopid = EOperatorId.EopLogicalLeftOuterJoin
      · have harity := hwf hi expr (List.mem_cons_self _ _) hl
        simp only [CExpression.Arity] at harity
        have hn : NumLojs (expr :: rest) = NumLojs rest + 1 := by
          simp [NumLojs, List.filter_cons, hl]
        rw [if_pos ⟨hi, hl⟩, List.getElem?_eq_getElem (by omega), List.length_append,
          ih hwfRest, if_pos hi, if_pos hi, hn]
        simp only [Option.toList_some, List.length_singleton]
        omega
      · have hn : NumLojs (expr :: rest) = NumLojs rest := by
          simp [NumLojs, List.filter_cons, hl]
        rw [if_neg (fun h => hl h.2), ih hwfRest, hn]
    · rw [if_neg (fun h => hi h.1), ih hwfRest, if_neg hi, if_neg hi]

/-- The left outer joins of a concatenation. -/
theorem numLojs_append (done todo : List CExpression) :
    NumLojs (done ++ todo) = NumLojs done + NumLojs todo := by
  simp [NumLojs, List.filter_append]

/-! ## Incidence is preserved by combination -/

/-- `MarkUsedEdges` returns for a component with a payload whose incident edges
are edge-array indices. -/
theorem markUsedEdges_returns (jo : CJoinOrder) (pcomponent : SComponent)
    (hp : pcomponent.m_pexpr ≠ none)
    (hrange : ∀ e ∈ pcomponent.m_edge_set, e < jo.m_ulEdges) :
    ∃ jo1 : CJoinOrder, jo.MarkUsedEdges pcomponent = .ok jo1 := by
  obtain ⟨pexpr, hpe⟩ := Option.ne_none_iff_exists'.mp hp
  obtain ⟨edges1, hloop, -, -⟩ := markUsedEdgesLoop_char pcomponent
    pcomponent.m_edge_set.bits jo.m_rgpedge (fun b hb => hrange b ((mem_bits _ _).mp hb))
  unfold CJoinOrder.MarkUsedEdges
  rw [hpe]
  simp only
  split_ifs
  · exact ⟨jo, rfl⟩
  · rw [hloop]
    exact ⟨_, rfl⟩

/-- An original component of a constructed core satisfies the incidence
invariant. -/
theorem incidenceInv_original (PcrsUsed PcrsOutput : CExpression → CColRefSet)
    (pdrgpexpr pdrgpexprConj : List CExpression) (include_loj_childs : Bool)
    (jo : CJoinOrder)
    (h : CJoinOrder.Ctor PcrsUsed PcrsOutput pdrgpexpr pdrgpexprConj include_loj_childs =
      .ok jo)
    (comp : SComponent) (hmem : comp ∈ jo.m_rgpcomp) : IncidenceInv jo comp := by
  obtain ⟨hedge, hcomp⟩ := ctor_incidence PcrsUsed PcrsOutput pdrgpexpr pdrgpexprConj
    include_loj_childs jo h
  have hinv := ctor_compsInv PcrsUsed PcrsOutput pdrgpexpr pdrgpexprConj include_loj_childs
    jo h
  obtain ⟨i, hi⟩ := List.mem_iff_getElem?.mp hmem
  obtain ⟨hpbs, hpexpr, -⟩ := hinv.1 i comp hi
  have hil : i < jo.m_rgpcomp.length := by
    rcases Nat.lt_or_ge i jo.m_rgpcomp.length with hl | hl
    · exact hl
    · rw [List.getElem?_eq_none hl] at hi
      cases hi
  refine ⟨hpexpr, ?_, ?_⟩
  · intro e
    rw [hcomp i comp hi e, hpbs]
    constructor
    · intro href
      obtain ⟨pedge, _, _, he, _, _, _⟩ := id href
      refine ⟨pedge, he, ?_⟩
      rw [Finset.disjoint_singleton_right, not_not, hedge e pedge he i]
      exact href
    · rintro ⟨pedge, he, hd⟩
      rw [Finset.disjoint_singleton_right, not_not, hedge e pedge he i] at hd
      exact hd
  · intro j hj
    rw [hpbs, Finset.mem_singleton] at hj
    subst hj
    exact hil

/-- `PcompCombine` keeps the incidence invariant. -/
theorem incidenceInv_combine (jo jo1 : CJoinOrder) (comp1 comp2 comp : SComponent)
    (h1 : IncidenceInv jo comp1) (h2 : IncidenceInv jo comp2)
    (hcomb : jo1.PcompCombine comp1 comp2 = .ok comp) : IncidenceInv jo comp := by
  obtain ⟨-, pexpr, id, pos, -, -, -, hc⟩ := pcompCombine_ok jo1 comp1 comp2 comp hcomb
  subst hc
  refine ⟨by simp, ?_, ?_⟩
  · intro e
    simp only [Finset.mem_union, h1.2.1 e, h2.2.1 e, Finset.disjoint_union_right, not_and_or]
    constructor
    · rintro (⟨p, hp, hd⟩ | ⟨p, hp, hd⟩)
      · exact ⟨p, hp, Or.inl hd⟩
      · exact ⟨p, hp, Or.inr hd⟩
    · rintro ⟨p, hp, hd | hd⟩
      · exact Or.inl ⟨p, hp, hd⟩
      · exact Or.inr ⟨p, hp, hd⟩
  · intro i hi
    simp only [Finset.mem_union] at hi
    rcases hi with hi | hi
    · exact h1.2.2 i hi
    · exact h2.2.2 i hi

/-! # The claims on construction, marking and incidence -/

/-- C11, at the failing input: a legal pair whose second component carries no
payload. `IsValidJoinCombination` accepts it, and `PcompCombine` fails the
assertion of line 443. -/
theorem C11_legal_pair_fails_counterexample :
    CJoinOrder.IsValidJoinCombination (exComp (some (exGet 1)) {0} {0} 0 .EpSentinel)
        (exComp none ∅ ∅ 0 .EpSentinel) = .ok true ∧
      (exComp (some (exGet 1)) {0} {0} 0 .EpSentinel).WellFormedLoj ∧
      (exComp none ∅ ∅ 0 .EpSentinel).WellFormedLoj ∧
      exCore.PcompCombine (exComp (some (exGet 1)) {0} {0} 0 .EpSentinel)
        (exComp none ∅ ∅ 0 .EpSentinel) = .error (.AssertFailed 443) := by
  refine ⟨by decide!, by decide, by decide, by decide!⟩

/-- C11, amended: for every two payload-bearing components with well-formed
LOJ provenance, `PcompCombine` ends in a failing assertion if and only if
`IsValidJoinCombination` returns `false` (the assertion is that of line 394);
whenever the pair is legal it returns a component, whose provenance is none or
an id greater than `0` with position left, never right. -/
theorem C11_legality_is_the_precondition (jo : CJoinOrder) (comp1 comp2 : SComponent)
    (pexpr1 pexpr2 : CExpression)
    (h1 : comp1.m_pexpr = some pexpr1) (h2 : comp2.m_pexpr = some pexpr2)
    (hw1 : comp1.WellFormedLoj) (hw2 : comp2.WellFormedLoj) :
    ((∃ line : Nat, jo.PcompCombine comp1 comp2 = .error (.AssertFailed line)) ↔
        CJoinOrder.IsValidJoinCombination comp1 comp2 = .ok false) ∧
      (CJoinOrder.IsValidJoinCombination comp1 comp2 = .ok false →
        jo.PcompCombine comp1 comp2 = .error (.AssertFailed 394)) ∧
      (CJoinOrder.IsValidJoinCombination comp1 comp2 = .ok true →
        ∃ comp : SComponent, jo.PcompCombine comp1 comp2 = .ok comp ∧
          ((comp.m_parent_loj_id = 0 ∧ comp.m_position = EPosition.EpSentinel) ∨
            (0 < comp.m_parent_loj_id ∧ comp.m_position = EPosition.EpLeft))) := by
  have hv := isValidJoinCombination_wellFormed comp1 comp2 hw1 hw2
  refine ⟨?_, pcompCombine_illegal jo comp1 comp2,
    pcompCombine_legal jo comp1 comp2 pexpr1 pexpr2 h1 h2 hw1 hw2⟩
  constructor
  · rintro ⟨line, hline⟩
    cases hb : decide (LegalBySpec comp1 comp2) with
    | false => rw [hv, hb]
    | true =>
      rw [hb] at hv
      obtain ⟨comp, hcomp, -⟩ := pcompCombine_legal jo comp1 comp2 pexpr1 pexpr2 h1 h2 hw1 hw2 hv
      rw [hcomp] at hline
      cases hline
  · intro hf
    exact ⟨394, pcompCombine_illegal jo comp1 comp2 hf⟩

/-- C11 at the example core: the right child and an untagged component are
refused at line 394; the two LOJ children are combined. -/
theorem C11_legality_is_the_precondition_witness :
    exCore.PcompCombine (exComp (some (exGet 4)) {3} {1} 1 .EpRight)
        (exComp (some (exGet 1)) {0} {0} 0 .EpSentinel) = .error (.AssertFailed 394) ∧
      ∃ comp : SComponent,
        exCore.PcompCombine (exComp (some (exGet 3)) {2} {1} 1 .EpLeft)
          (exComp (some (exGet 4)) {3} {1} 1 .EpRight) = .ok comp ∧
        ((comp.m_parent_loj_id = 0 ∧ comp.m_position = EPosition.EpSentinel) ∨
          (0 < comp.m_parent_loj_id ∧ comp.m_position = EPosition.EpLeft)) :=
  ⟨(C11_legality_is_the_precondition exCore (exComp (some (exGet 4)) {3} {1} 1 .EpRight)
      (exComp (some (exGet 1)) {0} {0} 0 .EpSentinel) (exGet 4) (exGet 1) rfl rfl
      (by decide) (by decide)).2.1 (by decide!),
    (C11_legality_is_the_precondition exCore (exComp (some (exGet 3)) {2} {1} 1 .EpLeft)
      (exComp (some (exGet 4)) {3} {1} 1 .EpRight) (exGet 3) (exGet 4) rfl rfl
      (by decide) (by decide)).2.2 (by decide!)⟩

/-- C12: for a component whose payload is a select, inner-join or
left-outer-join node with at least one child and whose incident edges are
edge-array indices, `MarkUsedEdges` returns the core in which an edge is used
if and only if it was used before or it is an incident edge of the component
whose incident components are all in the cover of the component; for a
component with any other payload it returns the core as it was. In both cases
only used flags change. -/
theorem C12_markUsedEdges_flags (jo : CJoinOrder) (pcomponent : SComponent)
    (pexpr : CExpression) (hp : pcomponent.m_pexpr = some pexpr) :
    ((pexpr.Arity ≠ 0 ∧
        (pexpr.Eopid = EOperatorId.EopLogicalSelect ∨
          pexpr.Eopid = EOperatorId.EopLogicalInnerJoin ∨
          pexpr.Eopid = EOperatorId.EopLogicalLeftOuterJoin)) →
      (∀ e ∈ pcomponent.m_edge_set, e < jo.m_ulEdges) →
      ∃ jo1 : CJoinOrder, jo.MarkUsedEdges pcomponent = .ok jo1 ∧
        jo1.m_rgpcomp = jo.m_rgpcomp ∧
        jo1.m_include_loj_childs = jo.m_include_loj_childs ∧
        jo1.m_rgpedge.length = jo.m_rgpedge.length ∧
        ∀ (e : Nat) (pedge : SEdge), jo.m_rgpedge[e]? = some pedge →
          ∃ pedge1 : SEdge, jo1.m_rgpedge[e]? = some pedge1 ∧
            pedge1.m_pbs = pedge.m_pbs ∧ pedge1.m_pexpr = pedge.m_pexpr ∧
            (pedge1.m_fUsed = true ↔
              pedge.m_fUsed = true ∨
                (e ∈ pcomponent.m_edge_set ∧ pedge.m_pbs ⊆ pcomponent.m_pbs))) ∧
    (¬ (pexpr.Arity ≠ 0 ∧
        (pexpr.Eopid = EOperatorId.EopLogicalSelect ∨
          pexpr.Eopid = EOperatorId.EopLogicalInnerJoin ∨
          pexpr.Eopid = EOperatorId.EopLogicalLeftOuterJoin)) →
      jo.MarkUsedEdges pcomponent = .ok jo) := by
  constructor
  · intro hnode hrange
    have hguard : ¬ (0 = pexpr.Arity ∨
        (EOperatorId.EopLogicalSelect ≠ pexpr.Eopid ∧
          EOperatorId.EopLogicalInnerJoin ≠ pexpr.Eopid ∧
          EOperatorId.EopLogicalLeftOuterJoin ≠ pexpr.Eopid)) := by
      rintro (h0 | ⟨hs, hi, hl⟩)
      · exact hnode.1 h0.symm
      · rcases hnode.2 with h | h | h
        · exact hs h.symm
        · exact hi h.symm
        · exact hl h.symm
    obtain ⟨edges1, hloop, hlen, hchar⟩ := markUsedEdgesLoop_char pcomponent
      pcomponent.m_edge_set.bits jo.m_rgpedge
      (fun b hb => hrange b ((mem_bits _ _).mp hb))
    refine ⟨{ jo with m_rgpedge := edges1 }, ?_, rfl, rfl, hlen, ?_⟩
    · unfold CJoinOrder.MarkUsedEdges
      rw [hp]
      simp only
      rw [if_neg hguard, hloop]
    · intro e pedge he
      refine ⟨_, hchar e pedge he, rfl, rfl, ?_⟩
      simp only [Bool.or_eq_true, Bool.and_eq_true, decide_eq_true_eq, mem_bits]
  · intro hnode
    have hguard : 0 = pexpr.Arity ∨
        (EOperatorId.EopLogicalSelect ≠ pexpr.Eopid ∧
          EOperatorId.EopLogicalInnerJoin ≠ pexpr.Eopid ∧
          EOperatorId.EopLogicalLeftOuterJoin ≠ pexpr.Eopid) := by
      by_contra hcon
      apply hnode
      simp only [not_or, not_and, ne_eq, not_not] at hcon
      refine ⟨fun h => hcon.1 h.symm, ?_⟩
      by_cases hs : EOperatorId.EopLogicalSelect = pexpr.Eopid
      · exact Or.inl hs.symm
      · by_cases hi : EOperatorId.EopLogicalInnerJoin = pexpr.Eopid
        · exact Or.inr (Or.inl hi.symm)
        · exact Or.inr (Or.inr (hcon.2 hs hi).symm)
    unfold CJoinOrder.MarkUsedEdges
    rw [hp]
    simp only
    rw [if_pos hguard]

/-- C12 at the example core: marking with the left outer join of the LOJ
children sets the flag of `p34` only; marking with a `Get` leaf changes
nothing. -/
theorem C12_markUsedEdges_flags_witness :
    (∃ jo1 : CJoinOrder, exCore.MarkUsedEdges exComp34 = .ok jo1 ∧
      jo1.m_rgpcomp = exCore.m_rgpcomp ∧
      jo1.m_include_loj_childs = exCore.m_include_loj_childs ∧
      jo1.m_rgpedge.length = exCore.m_rgpedge.length ∧
      ∀ (e : Nat) (pedge : SEdge), exCore.m_rgpedge[e]? = some pedge →
        ∃ pedge1 : SEdge, jo1.m_rgpedge[e]? = some pedge1 ∧
          pedge1.m_pbs = pedge.m_pbs ∧ pedge1.m_pexpr = pedge.m_pexpr ∧
          (pedge1.m_fUsed = true ↔
            pedge.m_fUsed = true ∨
              (e ∈ exComp34.m_edge_set ∧ pedge.m_pbs ⊆ exComp34.m_pbs))) ∧
    exCore.MarkUsedEdges (exComp (some (exGet 1)) {0} {0} 0 .EpSentinel) = .ok exCore :=
  ⟨(C12_markUsedEdges_flags exCore exComp34
      (exLoj (exGet 3) (exGet 4) (PexprConjunction [exCmp 3 4])) rfl).1
      (by decide) (by decide),
    (C12_markUsedEdges_flags exCore (exComp (some (exGet 1)) {0} {0} 0 .EpSentinel)
      (exGet 1) rfl).2 (by decide)⟩

/-- C13: `MarkUsedEdges` is idempotent: applying it a second time with the same
component to the core it returned returns that same core, so two calls in a
row end exactly as one call does. -/
theorem C13_markUsedEdges_idempotent (jo : CJoinOrder) (pcomponent : SComponent) :
    (match jo.MarkUsedEdges pcomponent with
      | .ok jo1 => jo1.MarkUsedEdges pcomponent
      | .error e => .error e) = jo.MarkUsedEdges pcomponent := by
  cases h : jo.MarkUsedEdges pcomponent with
  | error e => rfl
  | ok jo1 => exact markUsedEdges_idem jo jo1 pcomponent h

/-- C13 at the example core: a second `MarkUsedEdges` with the left outer join
of the LOJ children returns the core of the first. -/
theorem C13_markUsedEdges_idempotent_witness :
    exCoreMarked.MarkUsedEdges exComp34 = .ok exCoreMarked := by
  have h := C13_markUsedEdges_idempotent exCore exComp34
  rw [exCore_computed.2.2] at h
  exact h

/-- C14: for every list of N children, L of them left-outer-join operators, and
every list of P predicates, the constructor with LOJ explosion enabled (the
left outer joins having their three children) returns a core with exactly
N + L components and P + L edges, and with explosion disabled it returns a
core with exactly N components and P edges. -/
theorem C14_component_and_edge_counts (PcrsUsed PcrsOutput : CExpression → CColRefSet)
    (pdrgpexpr pdrgpexprConj : List CExpression) :
    (WellFormedLojChildren pdrgpexpr →
      ∃ jo : CJoinOrder,
        CJoinOrder.Ctor PcrsUsed PcrsOutput pdrgpexpr pdrgpexprConj true = .ok jo ∧
        jo.m_ulComps = pdrgpexpr.length + NumLojs pdrgpexpr ∧
        jo.m_ulEdges = pdrgpexprConj.length + NumLojs pdrgpexpr) ∧
    (∃ jo : CJoinOrder,
      CJoinOrder.Ctor PcrsUsed PcrsOutput pdrgpexpr pdrgpexprConj false = .ok jo ∧
      jo.m_ulComps = pdrgpexpr.length ∧ jo.m_ulEdges = pdrgpexprConj.length) := by
  constructor
  · intro hwf
    obtain ⟨jo, hjo, hadds⟩ := ctor_ok PcrsUsed PcrsOutput pdrgpexpr pdrgpexprConj true
      (fun _ => hwf)
    refine ⟨jo, hjo, ?_, ?_⟩
    · show jo.m_rgpcomp.length = _
      rw [hadds.2.2.1]
      simp only [CoreBeforeCover, layoutComps_length, if_true]
    · show jo.m_rgpedge.length = _
      rw [hadds.2.1]
      simp only [CoreBeforeCover, List.length_map, List.length_append,
        lojConditions_length true pdrgpexpr (fun _ => hwf), if_true]
  · obtain ⟨jo, hjo, hadds⟩ := ctor_ok PcrsUsed PcrsOutput pdrgpexpr pdrgpexprConj false
      (fun h => by cases h)
    refine ⟨jo, hjo, ?_, ?_⟩
    · show jo.m_rgpcomp.length = _
      rw [hadds.2.2.1]
      simp [CoreBeforeCover, layoutComps_length]
    · show jo.m_rgpedge.length = _
      rw [hadds.2.1]
      simp [CoreBeforeCover, lojConditions_length false pdrgpexpr (fun h => by cases h)]

/-- C14 at the example children: three children of which one is a left outer
join, and one predicate, give 4 components and 2 edges with explosion enabled
and 3 components and 1 edge with explosion disabled. -/
theorem C14_component_and_edge_counts_witness :
    (∃ jo : CJoinOrder,
      CJoinOrder.Ctor CExpression.PcrsSubtree CExpression.PcrsSubtree exChildren [exCmp 1 2]
        true = .ok jo ∧
      jo.m_ulComps = 3 + 1 ∧ jo.m_ulEdges = 1 + 1) ∧
    (∃ jo : CJoinOrder,
      CJoinOrder.Ctor CExpression.PcrsSubtree CExpression.PcrsSubtree exChildren [exCmp 1 2]
        false = .ok jo ∧
      jo.m_ulComps = 3 ∧ jo.m_ulEdges = 1) :=
  ⟨(C14_component_and_edge_counts CExpression.PcrsSubtree CExpression.PcrsSubtree exChildren
      [exCmp 1 2]).1 (by decide),
    (C14_component_and_edge_counts CExpression.PcrsSubtree CExpression.PcrsSubtree exChildren
      [exCmp 1 2]).2⟩

/-- C15: with LOJ explosion enabled (and left outer joins that have their three
children) the constructor returns a core whose component array is the layout
of spec 4.1, child by child in input order: one untagged component per child
that is no left outer join, and for the k-th left outer join its left subtree
tagged `(k, Left)` immediately followed by its right subtree tagged
`(k, Right)`; whose edge array holds the predicates of the caller in order
followed by the join conditions of the left outer joins in order; and the loop
fills the array from the front: after any prefix of the children exactly the
slots of the layout of that prefix are written, so that every slot is written
once. -/
theorem C15_construction_layout (PcrsUsed PcrsOutput : CExpression → CColRefSet)
    (pdrgpexpr pdrgpexprConj : List CExpression) (hwf : WellFormedLojChildren pdrgpexpr) :
    ∃ jo : CJoinOrder,
      CJoinOrder.Ctor PcrsUsed PcrsOutput pdrgpexpr pdrgpexprConj true = .ok jo ∧
      jo.m_rgpcomp.map SComponent.Core =
        (LayoutComps true pdrgpexpr 0 0).map SComponent.Core ∧
      jo.m_rgpedge.map (fun pedge => pedge.m_pexpr) =
        pdrgpexprConj ++ LojConditions true pdrgpexpr ∧
      ∀ done todo : List CExpression, pdrgpexpr = done ++ todo →
        CJoinOrder.AddComponents true done 0 0
            (List.replicate (pdrgpexpr.length + NumLojs pdrgpexpr) none) pdrgpexprConj =
          .ok ((LayoutComps true done 0 0).map some ++
              List.replicate (pdrgpexpr.length + NumLojs pdrgpexpr -
                (LayoutComps true done 0 0).length) none,
            pdrgpexprConj ++ LojConditions true done) := by
  obtain ⟨jo, hjo, hadds⟩ := ctor_ok PcrsUsed PcrsOutput pdrgpexpr pdrgpexprConj true
    (fun _ => hwf)
  refine ⟨jo, hjo, coverAdds_map_core hadds, ?_, ?_⟩
  · rw [coverAdds_map_pexpr hadds]
    simp only [CoreBeforeCover, List.map_map]
    exact List.map_id' _
  · intro done todo hsplit
    have hwfDone : WellFormedLojChildren done := by
      intro e he
      exact hwf e (by rw [hsplit]; exact List.mem_append_left _ he)
    have hlen : (LayoutComps true done 0 0).length ≤ pdrgpexpr.length + NumLojs pdrgpexpr := by
      rw [layoutComps_length, hsplit, numLojs_append, List.length_append]
      simp only [if_true]
      omega
    have := addComponents_layout true done 0 [] (pdrgpexpr.length + NumLojs pdrgpexpr)
      pdrgpexprConj 0 rfl (fun _ => hwfDone) (le_refl _) hlen
    simpa using this

/-- C15 at the example children: the left outer join at position 3 is exploded
into the slots 2 and 3, and its condition `p34` follows `p12`. -/
theorem C15_construction_layout_witness :
    ∃ jo : CJoinOrder,
      CJoinOrder.Ctor CExpression.PcrsSubtree CExpression.PcrsSubtree exChildren [exCmp 1 2]
        true = .ok jo ∧
      jo.m_rgpcomp.map SComponent.Core =
        [({0}, some (exGet 1), 0, .EpSentinel), ({1}, some (exGet 2), 0, .EpSentinel),
          ({2}, some (exGet 3), 1, .EpLeft), ({3}, some (exGet 4), 1, .EpRight)] ∧
      jo.m_rgpedge.map (fun pedge => pedge.m_pexpr) = [exCmp 1 2, exCmp 3 4] := by
  obtain ⟨jo, hjo, hcomps, hedges, -⟩ := C15_construction_layout CExpression.PcrsSubtree
    CExpression.PcrsSubtree exChildren [exCmp 1 2] (by decide)
  refine ⟨jo, hjo, ?_, ?_⟩
  · rw [hcomps]
    decide!
  · rw [hedges]
    decide!

/-- C16: for every input to the constructor (left outer joins to explode having
their three children) the constructor returns a core, and in its component
array the component at slot `i` has id set exactly `{i}`, for every slot
`i`. -/
theorem C16_self_coverage (PcrsUsed PcrsOutput : CExpression → CColRefSet)
    (pdrgpexpr pdrgpexprConj : List CExpression) (include_loj_childs : Bool)
    (hwf : include_loj_childs = true → WellFormedLojChildren pdrgpexpr) :
    ∃ jo : CJoinOrder,
      CJoinOrder.Ctor PcrsUsed PcrsOutput pdrgpexpr pdrgpexprConj include_loj_childs =
        .ok jo ∧
      ∀ (i : Nat) (comp : SComponent), jo.m_rgpcomp[i]? = some comp → comp.m_pbs = {i} := by
  obtain ⟨jo, hjo, -⟩ := ctor_ok PcrsUsed PcrsOutput pdrgpexpr pdrgpexprConj
    include_loj_childs hwf
  exact ⟨jo, hjo, fun i comp hi =>
    ((ctor_compsInv PcrsUsed PcrsOutput pdrgpexpr pdrgpexprConj include_loj_childs jo hjo).1 i
      comp hi).1⟩

/-- C16 at the example children: the constructor returns a core in which every
slot covers exactly itself. -/
theorem C16_self_coverage_witness :
    ∃ jo : CJoinOrder,
      CJoinOrder.Ctor CExpression.PcrsSubtree CExpression.PcrsSubtree exChildren [exCmp 1 2]
        true = .ok jo ∧
      ∀ (i : Nat) (comp : SComponent), jo.m_rgpcomp[i]? = some comp → comp.m_pbs = {i} :=
  C16_self_coverage CExpression.PcrsSubtree CExpression.PcrsSubtree exChildren [exCmp 1 2]
    true (fun _ => by decide)

/-- C17: after construction (left outer joins to explode having their three
children), for every edge index `e` and component index `c` of the core the
constructor returns, these are equivalent: the incident-component set of edge
`e` contains `c`; the incident-edge set of component `c` contains `e`; the
used-column set of the predicate of edge `e` is not disjoint from the
output-column set of the payload of component `c`. -/
theorem C17_incidence_relation (PcrsUsed PcrsOutput : CExpression → CColRefSet)
    (pdrgpexpr pdrgpexprConj : List CExpression) (include_loj_childs : Bool)
    (hwf : include_loj_childs = true → WellFormedLojChildren pdrgpexpr) :
    ∃ jo : CJoinOrder,
      CJoinOrder.Ctor PcrsUsed PcrsOutput pdrgpexpr pdrgpexprConj include_loj_childs =
        .ok jo ∧
      ∀ (e c : Nat) (pedge : SEdge) (comp : SComponent),
        jo.m_rgpedge[e]? = some pedge → jo.m_rgpcomp[c]? = some comp →
        ∃ pexpr : CExpression, comp.m_pexpr = some pexpr ∧
          (c ∈ pedge.m_pbs ↔ e ∈ comp.m_edge_set) ∧
          (e ∈ comp.m_edge_set ↔
            ¬ Disjoint (PcrsUsed pedge.m_pexpr) (PcrsOutput pexpr)) := by
  obtain ⟨jo, h, -⟩ := ctor_ok PcrsUsed PcrsOutput pdrgpexpr pdrgpexprConj
    include_loj_childs hwf
  refine ⟨jo, h, ?_⟩
  intro e c pedge comp he hc
  obtain ⟨hedge, hcomp⟩ := ctor_incidence PcrsUsed PcrsOutput pdrgpexpr pdrgpexprConj
    include_loj_childs jo h
  have hinv := ctor_compsInv PcrsUsed PcrsOutput pdrgpexpr pdrgpexprConj include_loj_childs
    jo h
  obtain ⟨pexpr, hp⟩ := Option.ne_none_iff_exists'.mp (hinv.1 c comp hc).2.1
  refine ⟨pexpr, hp, by rw [hedge e pedge he c, hcomp c comp hc e], ?_⟩
  rw [hcomp c comp hc e]
  constructor
  · rintro ⟨pedge', comp', pexpr', he', hc', hp', hd⟩
    rw [he] at he'
    rw [hc] at hc'
    cases he'
    cases hc'
    rw [hp] at hp'
    cases hp'
    exact hd
  · intro hd
    exact ⟨pedge, comp, pexpr, he, hc, hp, hd⟩

/-- C17 at the example children: in the core the constructor returns, incidence
is the same in both directions and is the overlap of the column sets. -/
theorem C17_incidence_relation_witness :
    ∃ jo : CJoinOrder,
      CJoinOrder.Ctor CExpression.PcrsSubtree CExpression.PcrsSubtree exChildren [exCmp 1 2]
        true = .ok jo ∧
      ∀ (e c : Nat) (pedge : SEdge) (comp : SComponent),
        jo.m_rgpedge[e]? = some pedge → jo.m_rgpcomp[c]? = some comp →
        ∃ pexpr : CExpression, comp.m_pexpr = some pexpr ∧
          (c ∈ pedge.m_pbs ↔ e ∈ comp.m_edge_set) ∧
          (e ∈ comp.m_edge_set ↔
            ¬ Disjoint (CExpression.PcrsSubtree pedge.m_pexpr)
              (CExpression.PcrsSubtree pexpr)) :=
  C17_incidence_relation CExpression.PcrsSubtree CExpression.PcrsSubtree exChildren
    [exCmp 1 2] true (fun _ => by decide)

set_option maxHeartbeats 4000000 in
/-- C18: the worked scenario, for every choice of the derived column sets. For
the children `[t1, t2, LOJ(t3, t4, p34)]` (`t1` and `t2` no left outer joins)
and the predicate `p12`, where `p12` uses a column of `t1` or `t2` and none of
`t3` and `t4`, and `p34` uses a column of `t3` or `t4` and none of `t1` and
`t2`, with LOJ explosion enabled: the constructor returns 4 components (`t1`
and `t2` untagged, `t3` tagged `(1, Left)`, `t4` tagged `(1, Right)`) and the
edges `[p12, p34]`; `PcompCombine(t3, t4)` returns the left outer join of `t3`
and `t4` on `p34` without provenance; combining it with `t1` and the result
with `t2`, with `MarkUsedEdges` on each accepted result, puts `p12` into the
condition of exactly one of the two inner joins (the other is the empty
conjunction), and the final component covers `{0, 1, 2, 3}`; in the end both
edges are used. -/
theorem C18_worked_scenario (PcrsUsed PcrsOutput : CExpression → CColRefSet)
    (t1 t2 t3 t4 p12 p34 : CExpression)
    (ht1 : t1.Eopid ≠ EOperatorId.EopLogicalLeftOuterJoin)
    (ht2 : t2.Eopid ≠ EOperatorId.EopLogicalLeftOuterJoin)
    (h12 : ¬ Disjoint (PcrsUsed p12) (PcrsOutput t1) ∨
      ¬ Disjoint (PcrsUsed p12) (PcrsOutput t2))
    (a3 : Disjoint (PcrsUsed p12) (PcrsOutput t3))
    (a4 : Disjoint (PcrsUsed p12) (PcrsOutput t4))
    (h34 : ¬ Disjoint (PcrsUsed p34) (PcrsOutput t3) ∨
      ¬ Disjoint (PcrsUsed p34) (PcrsOutput t4))
    (b1 : Disjoint (PcrsUsed p34) (PcrsOutput t1))
    (b2 : Disjoint (PcrsUsed p34) (PcrsOutput t2)) :
    ∃ (jo : CJoinOrder) (c1 c2 c3 c4 : SComponent),
      CJoinOrder.Ctor PcrsUsed PcrsOutput [t1, t2, exLoj t3 t4 p34] [p12] true = .ok jo ∧
      jo.m_rgpcomp = [c1, c2, c3, c4] ∧
      c1.Core = ({0}, some t1, 0, .EpSentinel) ∧ c2.Core = ({1}, some t2, 0, .EpSentinel) ∧
      c3.Core = ({2}, some t3, 1, .EpLeft) ∧ c4.Core = ({3}, some t4, 1, .EpRight) ∧
      jo.m_rgpedge.map (fun pedge => pedge.m_pexpr) = [p12, p34] ∧
      ∃ (c34 : SComponent) (jo1 : CJoinOrder),
        jo.PcompCombine c3 c4 = .ok c34 ∧
        c34.m_pexpr = some (PexprLogicalJoin .EopLogicalLeftOuterJoin t3 t4
          (PexprConjunction [p34])) ∧
        c34.m_parent_loj_id = 0 ∧ c34.m_position = .EpSentinel ∧
        jo.MarkUsedEdges c34 = .ok jo1 ∧
        ∃ (c341 : SComponent) (jo2 : CJoinOrder) (conds1 conds2 : List CExpression)
            (c3412 : SComponent) (jo3 : CJoinOrder),
          jo1.PcompCombine c34 c1 = .ok c341 ∧
          c341.m_pexpr = some (PexprLogicalJoin .EopLogicalInnerJoin
            (PexprLogicalJoin .EopLogicalLeftOuterJoin t3 t4 (PexprConjunction [p34])) t1
            (PexprConjunction conds1)) ∧
          jo1.MarkUsedEdges c341 = .ok jo2 ∧
          jo2.PcompCombine c341 c2 = .ok c3412 ∧
          c3412.m_pexpr = some (PexprLogicalJoin .EopLogicalInnerJoin
            (PexprLogicalJoin .EopLogicalInnerJoin
              (PexprLogicalJoin .EopLogicalLeftOuterJoin t3 t4 (PexprConjunction [p34])) t1
              (PexprConjunction conds1)) t2 (PexprConjunction conds2)) ∧
          ((conds1 = [p12] ∧ conds2 = []) ∨ (conds1 = [] ∧ conds2 = [p12])) ∧
          c3412.m_pbs = {0, 1, 2, 3} ∧
          jo2.MarkUsedEdges c3412 = .ok jo3 ∧
          jo3.m_rgpedge.map (fun pedge => pedge.m_fUsed) = [true, true] := by
  have ht1' : ¬ EOperatorId.EopLogicalLeftOuterJoin = t1.Eopid := fun h => ht1 h.symm
  have ht2' : ¬ EOperatorId.EopLogicalLeftOuterJoin = t2.Eopid := fun h => ht2 h.symm
  have hl1 : (exLoj t3 t4 p34).Eopid = EOperatorId.EopLogicalLeftOuterJoin := rfl
  have hl2 : (exLoj t3 t4 p34).children = [t3, t4, p34] := rfl
  have hb1 : CBitSet.bits {1} = [1] := by decide!
  have hb2 : CBitSet.bits ({1} ∪ {0}) = [0, 1] := by decide!
  have hs : ({2} ∪ ({3} ∪ ({0} ∪ {1})) : Finset Nat) = {0, 1, 2, 3} := by decide
  by_cases a1 : Disjoint (PcrsUsed p12) (PcrsOutput t1) <;>
  by_cases a2 : Disjoint (PcrsUsed p12) (PcrsOutput t2) <;>
  by_cases b3 : Disjoint (PcrsUsed p34) (PcrsOutput t3) <;>
  by_cases b4 : Disjoint (PcrsUsed p34) (PcrsOutput t4) <;>
  first
  | (exfalso; simp [a1, a2] at h12; done)
  | (exfalso; simp [b3, b4] at h34; done)
  | (rcases hjo : CJoinOrder.Ctor PcrsUsed PcrsOutput [t1, t2, exLoj t3 t4 p34] [p12] true with
      e | jo
     · simp [CJoinOrder.Ctor, CJoinOrder.CountLojs, CJoinOrder.AddComponents,
        CJoinOrder.AddComponent, SComponent.Ctor, GPOS_ASSERT_IMP, GPOS_ASSERT,
        NON_LOJ_DEFAULT_ID, hl1, hl2, ht1', ht2', List.replicate, CJoinOrder.Components,
        CJoinOrder.ComputeEdgeCover, CJoinOrder.ComputeEdgeCoverEdges,
        CJoinOrder.ComputeEdgeCoverComps, CJoinOrder.ComputeEdgeCoverVisit, SEdge.Ctor,
        List.range_succ, a1, a2, a3, a4, b1, b2, b3, b4] at hjo
     · simp [CJoinOrder.Ctor, CJoinOrder.CountLojs, CJoinOrder.AddComponents,
        CJoinOrder.AddComponent, SComponent.Ctor, GPOS_ASSERT_IMP, GPOS_ASSERT,
        NON_LOJ_DEFAULT_ID, hl1, hl2, ht1', ht2', List.replicate, CJoinOrder.Components,
        CJoinOrder.ComputeEdgeCover, CJoinOrder.ComputeEdgeCoverEdges,
        CJoinOrder.ComputeEdgeCoverComps, CJoinOrder.ComputeEdgeCoverVisit, SEdge.Ctor,
        List.range_succ, a1, a2, a3, a4, b1, b2, b3, b4] at hjo
       subst hjo
       refine ⟨_, _, _, _, _, rfl, rfl, rfl, rfl, rfl, rfl, rfl, ?_⟩
       simp [CJoinOrder.PcompCombine, CJoinOrder.IsValidJoinCombination,
        CJoinOrder.PcompCombineNode, CJoinOrder.IsChildOfSameLOJ, CJoinOrder.CollectEdges,
        SComponent.CtorSets, CJoinOrder.MarkUsedEdges, hb1, hb2, hs, PexprLogicalJoin,
        PexprConjunction, CExpression.Eopid, CExpression.Arity, CExpression.children,
        GPOS_ASSERT_IMP, GPOS_ASSERT, NON_LOJ_DEFAULT_ID, SComponent.ParentLojId,
        SComponent.Position, Finset.insert_subset_iff]
       simp [CJoinOrder.MarkUsedEdgesLoop, CJoinOrder.CollectEdges, Finset.insert_subset_iff])

/-- C18 at the tables with the columns 1 to 4, `p12` over the columns 1 and 2
and `p34` over the columns 3 and 4. -/
theorem C18_worked_scenario_witness :
    ∃ (jo jo1 jo2 : CJoinOrder) (c1 c2 c3 c4 c34 c341 c3412 : SComponent),
      CJoinOrder.Ctor CExpression.PcrsSubtree CExpression.PcrsSubtree
        [exGet 1, exGet 2, exLoj (exGet 3) (exGet 4) (exCmp 3 4)] [exCmp 1 2] true = .ok jo ∧
      jo.m_rgpcomp = [c1, c2, c3, c4] ∧
      jo.PcompCombine c3 c4 = .ok c34 ∧ jo.MarkUsedEdges c34 = .ok jo1 ∧
      jo1.PcompCombine c34 c1 = .ok c341 ∧ jo1.MarkUsedEdges c341 = .ok jo2 ∧
      jo2.PcompCombine c341 c2 = .ok c3412 ∧ c3412.m_pbs = {0, 1, 2, 3} := by
  obtain ⟨jo, c1, c2, c3, c4, hjo, hcomps, -, -, -, -, -, c34, jo1, h34, -, -, -, hm34,
      c341, jo2, -, -, c3412, -, h341, -, hm341, h3412, -, -, hpbs, -⟩ :=
    C18_worked_scenario CExpression.PcrsSubtree CExpression.PcrsSubtree
      (exGet 1) (exGet 2) (exGet 3) (exGet 4) (exCmp 1 2) (exCmp 3 4)
      (by decide) (by decide) (Or.inl (by decide!)) (by decide!) (by decide!)
      (Or.inl (by decide!)) (by decide!) (by decide!)
  exact ⟨jo, jo1, jo2, c1, c2, c3, c4, c34, c341, c3412, hjo, hcomps, h34, hm34, h341,
    hm341, h3412, hpbs⟩

/-- C19, at the failing inputs: a positive id with the sentinel position, and a
negative id with the sentinel position, are both accepted by both
constructors. -/
theorem C19_id_without_side_counterexample :
    SComponent.Ctor (some (exGet 1)) 1 .EpSentinel = .ok (exComp (some (exGet 1)) ∅ ∅ 1 .EpSentinel) ∧
      SComponent.CtorSets (some (exGet 1)) {0} ∅ 1 .EpSentinel =
        .ok (exComp (some (exGet 1)) {0} ∅ 1 .EpSentinel) ∧
      SComponent.Ctor (some (exGet 1)) (-1) .EpSentinel =
        .ok (exComp (some (exGet 1)) ∅ ∅ (-1) .EpSentinel) := by
  refine ⟨by decide!, by decide!, by decide!⟩

/-- C19, amended: for every (parent LOJ id, position) pair given to either
`SComponent` constructor, construction fails its assertion (line 78 or 99) if
the position is left or right while the id is not greater than `0`, and it
succeeds for `(0, sentinel)` and for an id greater than `0` with position left
or right. -/
theorem C19_ctor_provenance_contract (pexpr : Option CExpression) (pbs edge_set : CBitSet)
    (id : Int) (pos : EPosition) :
    ((pos = EPosition.EpLeft ∨ pos = EPosition.EpRight) → ¬ 0 < id →
      SComponent.Ctor pexpr id pos = .error (.AssertFailed 78) ∧
        SComponent.CtorSets pexpr pbs edge_set id pos = .error (.AssertFailed 99)) ∧
    ((id = 0 ∧ pos = EPosition.EpSentinel) ∨
        (0 < id ∧ (pos = EPosition.EpLeft ∨ pos = EPosition.EpRight)) →
      ∃ comp1 comp2 : SComponent,
        SComponent.Ctor pexpr id pos = .ok comp1 ∧
        SComponent.CtorSets pexpr pbs edge_set id pos = .ok comp2 ∧
        comp1.m_parent_loj_id = id ∧ comp1.m_position = pos ∧
        comp2.m_parent_loj_id = id ∧ comp2.m_position = pos) := by
  constructor
  · intro hpos hid
    exact ctor_fails pexpr pbs edge_set id pos (by rcases hpos with h | h <;> simp [h]) hid
  · intro h
    have h' : pos = EPosition.EpSentinel ∨ 0 < id := by
      rcases h with ⟨_, h⟩ | ⟨h, _⟩
      · exact Or.inl h
      · exact Or.inr h
    obtain ⟨h1, h2⟩ := ctor_succeeds pexpr pbs edge_set id pos h'
    exact ⟨_, _, h1, h2, rfl, rfl, rfl, rfl⟩

/-- C19 at a left child with id `0` (refused) and with id `1` (accepted). -/
theorem C19_ctor_provenance_contract_witness :
    (SComponent.Ctor (some (exGet 3)) 0 .EpLeft = .error (.AssertFailed 78) ∧
      SComponent.CtorSets (some (exGet 3)) {2} ∅ 0 .EpLeft = .error (.AssertFailed 99)) ∧
    ∃ comp1 comp2 : SComponent,
      SComponent.Ctor (some (exGet 3)) 1 .EpLeft = .ok comp1 ∧
      SComponent.CtorSets (some (exGet 3)) {2} ∅ 1 .EpLeft = .ok comp2 ∧
      comp1.m_parent_loj_id = 1 ∧ comp1.m_position = .EpLeft ∧
      comp2.m_parent_loj_id = 1 ∧ comp2.m_position = .EpLeft :=
  ⟨(C19_ctor_provenance_contract (some (exGet 3)) {2} ∅ 0 .EpLeft).1 (Or.inl rfl) (by decide),
    (C19_ctor_provenance_contract (some (exGet 3)) {2} ∅ 1 .EpLeft).2
      (Or.inr ⟨by decide, Or.inl rfl⟩)⟩

/-- C20: in a core built by the constructor, every component obtained from the
original components by any number of `PcompCombine` calls has as incident-edge
set exactly the edge indices whose incident-component set meets its id set;
every index in its incident-edge set is an edge-array index and every index in
its id set is a component-array index; and `MarkUsedEdges` on it, in any state
the core has reached, returns (it indexes no edge out of range). -/
theorem C20_incidence_preserved (PcrsUsed PcrsOutput : CExpression → CColRefSet)
    (pdrgpexpr pdrgpexprConj : List CExpression) (include_loj_childs : Bool)
    (jo : CJoinOrder)
    (h : CJoinOrder.Ctor PcrsUsed PcrsOutput pdrgpexpr pdrgpexprConj include_loj_childs =
      .ok jo)
    (comp : SComponent) (hcl : jo.Closure comp) :
    (∀ e : Nat, e ∈ comp.m_edge_set ↔
      ∃ pedge : SEdge, jo.m_rgpedge[e]? = some pedge ∧
        ¬ Disjoint pedge.m_pbs comp.m_pbs) ∧
    (∀ e ∈ comp.m_edge_set, e < jo.m_ulEdges) ∧
    (∀ i ∈ comp.m_pbs, i < jo.m_ulComps) ∧
    (∀ (calls : List ECall) (jo1 : CJoinOrder), jo.Calls calls = .ok jo1 →
      ∃ jo2 : CJoinOrder, jo1.MarkUsedEdges comp = .ok jo2) := by
  have hinv : IncidenceInv jo comp := by
    induction hcl with
    | original comp hmem =>
      exact incidenceInv_original PcrsUsed PcrsOutput pdrgpexpr pdrgpexprConj
        include_loj_childs jo h comp hmem
    | combine comp1 comp2 comp _ _ calls jo1 _ hcomb ih1 ih2 =>
      exact incidenceInv_combine jo jo1 comp1 comp2 comp ih1 ih2 hcomb
  have hrange : ∀ e ∈ comp.m_edge_set, e < jo.m_ulEdges := by
    intro e he
    obtain ⟨pedge, hp, -⟩ := (hinv.2.1 e).mp he
    rcases Nat.lt_or_ge e jo.m_rgpedge.length with hl | hl
    · exact hl
    · rw [List.getElem?_eq_none hl] at hp
      cases hp
  refine ⟨hinv.2.1, hrange, hinv.2.2, ?_⟩
  intro calls jo1 hcalls
  apply markUsedEdges_returns jo1 comp hinv.1
  intro e he
  show e < jo1.m_rgpedge.length
  rw [(calls_gain jo jo1 calls hcalls).1.1]
  exact hrange e he

/-- C20 at the example core: the left outer join of the LOJ children, built
after a first call, has `p34` (edge 1) as its only incident edge. -/
theorem C20_incidence_preserved_witness :
    (∀ e : Nat, e ∈ exComp34.m_edge_set ↔
      ∃ pedge : SEdge, exCore.m_rgpedge[e]? = some pedge ∧
        ¬ Disjoint pedge.m_pbs exComp34.m_pbs) ∧
    (∀ e ∈ exComp34.m_edge_set, e < exCore.m_ulEdges) ∧
    (∀ i ∈ exComp34.m_pbs, i < exCore.m_ulComps) ∧
    (∀ (calls : List ECall) (jo1 : CJoinOrder), exCore.Calls calls = .ok jo1 →
      ∃ jo2 : CJoinOrder, jo1.MarkUsedEdges exComp34 = .ok jo2) :=
  C20_incidence_preserved CExpression.PcrsSubtree CExpression.PcrsSubtree exChildren
    [exCmp 1 2] true exCore exCore_computed.1 exComp34
    (CJoinOrder.Closure.combine
      (exComp (some (exGet 3)) {2} {1} 1 .EpLeft) (exComp (some (exGet 4)) {3} {1} 1 .EpRight)
      exComp34
      (CJoinOrder.Closure.original _ (by decide!))
      (CJoinOrder.Closure.original _ (by decide!))
      [.PcompCombine (exComp (some (exGet 1)) {0} {0} 0 .EpSentinel)
        (exComp (some (exGet 2)) {1} {0} 0 .EpSentinel)]
      exCore (by decide!) (by decide!))

end gpopt
